import Mathlib

/-!
# Campus Life Planner: task store and search engine

A shallow embedding of `src/scripts/storage.js`, `src/scripts/state.js` and
`src/scripts/search.js`.

* Task records are Lean structures; a field that the code copies from its input
  without looking at it (`duration`) holds a JavaScript value.
* The built-ins of the host (`parseFloat`, `String.prototype.toLowerCase`,
  `JSON.stringify`, `JSON.parse`) are the fields of a `Platform`; the store and the
  search engine are functions of the platform, so every theorem holds for each
  implementation of the built-ins. What the development uses of the JSON codec is
  stated once, in `JsonLaws`.
* `localStorage` is the value kept under the key `campusTasks`.
* The clock is an input: `Date.now()` is an integer of milliseconds and
  `new Date().toISOString()` a string.
-/

namespace Planner

/-! ## Values -/

/-- A JavaScript number: `NaN`, the two infinities, or a finite value. Finite doubles
are read as the rationals they denote (`-0` and `0` are both `0`). -/
inductive JSNum where
  | nan
  | posInf
  | negInf
  | fin (q : ℚ)
  deriving DecidableEq

/-- The JavaScript values a record field can hold in this model. A property that is
missing reads as `undefined`. -/
inductive JSVal where
  | undefined
  | null
  | bool (b : Bool)
  | num (n : JSNum)
  | str (s : String)
  deriving DecidableEq

/-- A task record as `State.addTask` builds it. `tag` is `none` when the property is
`null` or `undefined` (the form handler passes `tag || null`). -/
structure Task where
  id : String
  title : String
  duration : JSVal
  dueDate : String
  tag : Option String
  createdAt : String
  updatedAt : String
  deriving DecidableEq

/-- The `taskData` argument of `State.addTask` and `State.updateTask`. -/
structure TaskData where
  title : String
  duration : JSVal
  dueDate : String
  tag : Option String
  deriving DecidableEq

/-- What `JSON.parse` returns, as far as the store looks at it: an array of records,
or a value that is not an array, of which only the truthiness matters
(`null`, `false`, `0` and `""` are falsy). Arrays are arrays of task records: an array
with an element that is not a record is outside the model. -/
inductive Parsed where
  | array (ts : List Task)
  | falsy
  | truthy
  deriving DecidableEq

/-- The built-ins of the host that the code calls. `jsonParse` is `none` when
`JSON.parse` throws a `SyntaxError`. -/
structure Platform where
  parseFloat : JSVal → JSNum
  toLowerCase : String → String
  jsonStringify : List Task → String
  jsonParse : String → Option Parsed

/-- What a duration looks like after `JSON.stringify` and `JSON.parse`: `NaN` and the
infinities are written as `null`, every other value comes back as it was. -/
def JSVal.toJSON : JSVal → JSVal
  | .num .nan => .null
  | .num .posInf => .null
  | .num .negInf => .null
  | v => v

/-- A record after `JSON.stringify` and `JSON.parse`. -/
def Task.toJSON (t : Task) : Task :=
  { t with duration := t.duration.toJSON }

/-- The facts about `JSON.stringify` and `JSON.parse` that the development relies on. -/
structure JsonLaws (P : Platform) : Prop where
  /-- Parsing a serialized array gives the array back, `NaN` and the infinities
  replaced by `null`. -/
  parse_stringify : ∀ ts, P.jsonParse (P.jsonStringify ts) = some (.array (ts.map Task.toJSON))
  /-- The empty array is written `[]`. -/
  stringify_nil : P.jsonStringify [] = "[]"
  /-- A serialized array is never the empty text. -/
  stringify_ne_empty : ∀ ts, P.jsonStringify ts ≠ ""
  /-- The empty text is not JSON. -/
  parse_empty : P.jsonParse "" = none

/-! ## Text primitives -/

/-- The characters `String.prototype.trim` strips and `parseFloat` skips: the
`WhiteSpace` and `LineTerminator` code points of ECMAScript. -/
def isJSWhiteSpace (c : Char) : Bool :=
  let n := c.toNat
  n == 0x9 || n == 0xA || n == 0xB || n == 0xC || n == 0xD || n == 0x20 || n == 0xA0 ||
  n == 0x1680 || (0x2000 ≤ n && n ≤ 0x200A) || n == 0x2028 || n == 0x2029 ||
  n == 0x202F || n == 0x205F || n == 0x3000 || n == 0xFEFF

/-- The method `String.prototype.trim`. -/
def jsTrim (s : String) : String :=
  ⟨((s.data.dropWhile isJSWhiteSpace).reverse.dropWhile isJSWhiteSpace).reverse⟩

/-- The method `String.prototype.includes`: `s.includes(t)`. -/
def includes (s t : String) : Bool :=
  decide (t.data <:+: s.data)

/-- A text is blank when it is empty or holds white space only. -/
def IsBlank (s : String) : Prop :=
  ∀ c ∈ s.data, isJSWhiteSpace c = true

instance (s : String) : Decidable (IsBlank s) :=
  inferInstanceAs (Decidable (∀ c ∈ s.data, isJSWhiteSpace c = true))

/-! ## storage.js -/

/-- The part of `localStorage` the task store uses: the text under `campusTasks`,
`none` while the key has never been set (`getItem` returns `null`). -/
structure LocalStorage where
  campusTasks : Option String
  deriving DecidableEq

namespace Storage

/-- `Storage.saveTasks`: `localStorage.setItem("campusTasks", JSON.stringify(tasks))`. -/
def saveTasks (P : Platform) (_ls : LocalStorage) (tasks : List Task) : LocalStorage :=
  { campusTasks := some (P.jsonStringify tasks) }

/-- `Storage.loadTasks`: `JSON.parse(localStorage.getItem("campusTasks")) || []`.
`none` when `JSON.parse` throws, and when the text holds a truthy value that is not an
array of records, which the task sequence of the model cannot hold. An unset key reads
as `null`, which `JSON.parse` turns into the text `"null"` and parses to `null`. -/
def loadTasks (P : Platform) (ls : LocalStorage) : Option (List Task) :=
  match ls.campusTasks with
  | none => some []
  | some text =>
    match P.jsonParse text with
    | none => none
    | some (.array ts) => some ts
    | some .falsy => some []
    | some .truthy => none

/-- `Storage.exportTasks`: `localStorage.getItem("campusTasks") || "[]"`. -/
def exportTasks (ls : LocalStorage) : String :=
  match ls.campusTasks with
  | none => "[]"
  | some text => if text = "" then "[]" else text

/-- `Storage.importTasks`: the text is parsed inside `try`; a text that does not parse
or is not an array gives `false` and no write, an array is stored verbatim. -/
def importTasks (P : Platform) (ls : LocalStorage) (jsonString : String) : Bool × LocalStorage :=
  match P.jsonParse jsonString with
  | none => (false, ls)
  | some (.array _) => (true, { campusTasks := some jsonString })
  | some _ => (false, ls)

end Storage

/-! ## state.js -/

/-- The store: the in-memory task sequence `State.tasks` and the `localStorage` it
writes through to. The other fields of `State` (`settings`, `darkMode`,
`editingTaskId`, `sortDirection`) are neither read nor written by the task
operations. -/
structure State where
  tasks : List Task
  storage : LocalStorage
  deriving DecidableEq

namespace State

/-- `State.getTaskById`: `this.tasks.find(task => task.id === taskId) || null`. -/
def getTaskById (s : State) (taskId : String) : Option Task :=
  s.tasks.find? (fun task => task.id == taskId)

/-- `State.init`, the task part: `this.tasks = Storage.loadTasks()`. `none` when
`loadTasks` does not return a task sequence. -/
def init (P : Platform) (ls : LocalStorage) : Option State :=
  (Storage.loadTasks P ls).map (fun ts => { tasks := ts, storage := ls })

/-- `State.addTask`. `nowIso` is `new Date().toISOString()` and `nowMs` is
`Date.now()`. Returns the new record and the state after the call. -/
def addTask (P : Platform) (s : State) (nowIso : String) (nowMs : Int) (taskData : TaskData) :
    Task × State :=
  let newTask : Task :=
    { id := "task_" ++ toString nowMs
      title := taskData.title
      duration := .num (P.parseFloat taskData.duration)
      dueDate := taskData.dueDate
      tag := taskData.tag
      createdAt := nowIso
      updatedAt := nowIso }
  let tasks := s.tasks ++ [newTask]
  (newTask, { tasks := tasks, storage := Storage.saveTasks P s.storage tasks })

/-- `State.updateTask`. `findIdx?` is `none` where `findIndex` is `-1`. Returns the
updated record (`none` for `null`) and the state after the call. -/
def updateTask (P : Platform) (s : State) (nowIso : String) (taskId : String)
    (taskData : TaskData) : Option Task × State :=
  match s.tasks.findIdx? (fun t => t.id == taskId) with
  | none => (none, s)
  | some taskIndex =>
    match s.tasks[taskIndex]? with
    | none => (none, s)
    | some old =>
      let updated : Task :=
        { old with
          title := taskData.title
          duration := .num (P.parseFloat taskData.duration)
          dueDate := taskData.dueDate
          tag := taskData.tag
          updatedAt := nowIso }
      let tasks := s.tasks.set taskIndex updated
      (some updated, { tasks := tasks, storage := Storage.saveTasks P s.storage tasks })

/-- `State.deleteTask`. -/
def deleteTask (P : Platform) (s : State) (taskId : String) : State :=
  let tasks := s.tasks.filter (fun t => t.id != taskId)
  { tasks := tasks, storage := Storage.saveTasks P s.storage tasks }

/-- `State.importTasks`. The first component is the value returned, `none` when the
call to `Storage.loadTasks` does not return a task sequence. -/
def importTasks (P : Platform) (s : State) (jsonString : String) : Option Bool × State :=
  match Storage.importTasks P s.storage jsonString with
  | (true, ls) =>
    match Storage.loadTasks P ls with
    | some ts => (some true, { tasks := ts, storage := ls })
    | none => (none, { s with storage := ls })
  | (false, ls) => (some false, { s with storage := ls })

/-- `State.exportTasks`. -/
def exportTasks (s : State) : String :=
  Storage.exportTasks s.storage

end State

/-- A call that changes the store, with the clock readings it takes. -/
inductive Mutation where
  | addTask (nowIso : String) (nowMs : Int) (taskData : TaskData)
  | updateTask (nowIso : String) (taskId : String) (taskData : TaskData)
  | deleteTask (taskId : String)
  | importTasks (jsonString : String)

namespace State

/-- The store before the first call: no task in memory and nothing persisted. -/
def fresh : State :=
  { tasks := [], storage := { campusTasks := none } }

/-- The state after a call. -/
def apply (P : Platform) (s : State) : Mutation → State
  | .addTask nowIso nowMs taskData => (s.addTask P nowIso nowMs taskData).2
  | .updateTask nowIso taskId taskData => (s.updateTask P nowIso taskId taskData).2
  | .deleteTask taskId => s.deleteTask P taskId
  | .importTasks jsonString => (s.importTasks P jsonString).2

/-- The state after a sequence of calls on the fresh store. -/
def run (P : Platform) (calls : List Mutation) : State :=
  calls.foldl (apply P) fresh

/-- The persisted task list deserializes to the in-memory task sequence:
`Storage.loadTasks()` returns `this.tasks`. -/
def Synced (P : Platform) (s : State) : Prop :=
  Storage.loadTasks P s.storage = some s.tasks

/-- The persisted text, when there is one, parses to the in-memory task sequence, and
nothing persisted goes with no task in memory. -/
def Persisted (P : Platform) (s : State) : Prop :=
  match s.storage.campusTasks with
  | none => s.tasks = []
  | some text => text ≠ "" ∧ P.jsonParse text = some (.array s.tasks)

end State

/-- A value that `JSON.stringify` and `JSON.parse` give back unchanged: not `NaN` and
not an infinity. -/
def JSVal.IsJson (v : JSVal) : Prop :=
  v.toJSON = v

instance (v : JSVal) : Decidable v.IsJson :=
  inferInstanceAs (Decidable (v.toJSON = v))

/-- Every duration of the sequence survives serialization. -/
def JsonSafe (tasks : List Task) : Prop :=
  ∀ t ∈ tasks, t.duration.IsJson

/-- The durations a call brings into the store survive serialization: the numeric
duration of `addTask` and `updateTask`, and the durations of the records of an imported
array. -/
def Mutation.JsonSafe (P : Platform) : Mutation → Prop
  | .addTask _ _ taskData => (JSVal.num (P.parseFloat taskData.duration)).IsJson
  | .updateTask _ _ taskData => (JSVal.num (P.parseFloat taskData.duration)).IsJson
  | .deleteTask _ => True
  | .importTasks jsonString =>
    ∀ ts, P.jsonParse jsonString = some (.array ts) → Planner.JsonSafe ts

/-! ## search.js -/

namespace Search

/-- `Search.searchTasks`. The query is a string, so `!query` holds for the empty
string only; `task.tag &&` holds for a tag that is present and not empty. -/
def searchTasks (P : Platform) (tasks : List Task) (query : String) : List Task :=
  if query = "" ∨ jsTrim query = "" then tasks
  else
    let searchTerm := jsTrim (P.toLowerCase query)
    tasks.filter (fun task =>
      if includes (P.toLowerCase task.title) searchTerm then true
      else if (match task.tag with
          | some tag => tag != "" && includes (P.toLowerCase tag) searchTerm
          | none => false) then true
      else if includes task.dueDate searchTerm then true
      else false)

/-- The tasks a search term selects, in the words of the specification: the
lower-cased title contains the term, or the tag is present and its lower-casing
contains the term, or the due-date string contains the term. -/
def Matches (P : Platform) (term : String) (t : Task) : Prop :=
  term.data <:+: (P.toLowerCase t.title).data ∨
  (∃ tag, t.tag = some tag ∧ term.data <:+: (P.toLowerCase tag).data) ∨
  term.data <:+: t.dueDate.data

instance (P : Platform) (term : String) (t : Task) : Decidable (Matches P term t) :=
  match h : t.tag with
  | none =>
    decidable_of_iff
      (term.data <:+: (P.toLowerCase t.title).data ∨ term.data <:+: t.dueDate.data)
      (by simp [Matches, h])
  | some tag =>
    decidable_of_iff
      (term.data <:+: (P.toLowerCase t.title).data ∨
        term.data <:+: (P.toLowerCase tag).data ∨ term.data <:+: t.dueDate.data)
      (by simp [Matches, h])

end Search

/-! ## A reference platform

An implementation of the built-ins, to run the store and the search engine on
concrete inputs. `parseFloat` is exact on decimal literals, `toLowerCase` is that of
ASCII, and the JSON codec has a wire format of its own for arrays of records (each
field is written as its length and its characters): all that is used of the codec
is `JsonLaws`. -/

/-- The value of a run of decimal digits. -/
def digitsValue (ds : List Char) : ℕ :=
  ds.foldl (fun n c => 10 * n + (c.toNat - 48)) 0

/-- An optional sign in front of a numeral: whether it is `-`, and the rest. -/
def takeSign : List Char → Bool × List Char
  | '-' :: r => (true, r)
  | '+' :: r => (false, r)
  | cs => (false, cs)

/-- The exponent part of a numeral, `0` when there is none. -/
def exponentValue : List Char → ℤ
  | c :: r =>
    if c = 'e' ∨ c = 'E' then
      let (neg, r) := takeSign r
      let ds := r.takeWhile Char.isDigit
      if neg then -(digitsValue ds : ℤ) else (digitsValue ds : ℤ)
    else 0
  | [] => 0

/-- The function `parseFloat` on a text: white space is skipped, then the longest
leading `StrDecimalLiteral` is read, and `NaN` is returned when there is none. The
value is exact: no rounding to a double and no overflow. -/
def parseFloatText (s : String) : JSNum :=
  let (neg, cs) := takeSign (s.data.dropWhile isJSWhiteSpace)
  if "Infinity".data <+: cs then (if neg then .negInf else .posInf)
  else
    let ip := cs.takeWhile Char.isDigit
    let r := cs.dropWhile Char.isDigit
    let (fp, r) := match r with
      | '.' :: r => (r.takeWhile Char.isDigit, r.dropWhile Char.isDigit)
      | _ => ([], r)
    if ip = [] ∧ fp = [] then .nan
    else
      let v : ℚ := (digitsValue (ip ++ fp) : ℚ) * 10 ^ (exponentValue r - fp.length)
      .fin (if neg then -v else v)

/-- The function `parseFloat`: the argument is converted to a string first, so a
number comes back as it is and `undefined`, `null` and the booleans give `NaN`. -/
def refParseFloat : JSVal → JSNum
  | .num n => n
  | .str s => parseFloatText s
  | _ => .nan

/-- The wire form of a sequence of fields: each field is its length as a run of `1`s,
a colon, and its characters; a closing bracket ends the sequence. -/
def putFields : List (List Char) → List Char
  | [] => [']']
  | f :: fs => List.replicate f.length '1' ++ ':' :: (f ++ putFields fs)

/-- Reads a sequence of fields back; the first argument bounds the number of fields. -/
def getFields : ℕ → List Char → Option (List (List Char))
  | 0, _ => none
  | fuel + 1, w =>
    if w = [']'] then some []
    else
      let n := (w.takeWhile (· == '1')).length
      match w.dropWhile (· == '1') with
      | ':' :: r =>
        if n ≤ r.length then (getFields fuel (r.drop n)).map (r.take n :: ·) else none
      | _ => none

/-- A finite number as a field: its sign, then numerator and denominator as runs
of `1`s. -/
def ratToken (q : ℚ) : List Char :=
  (if q.num < 0 then '-' else '+') ::
    (List.replicate q.num.natAbs '1' ++ '/' :: List.replicate q.den '1')

/-- Reads a finite number back. -/
def tokenRat : List Char → Option ℚ
  | sgn :: r =>
    let n := (r.takeWhile (· == '1')).length
    match r.dropWhile (· == '1') with
    | '/' :: d => some (mkRat (if sgn = '-' then -(n : ℤ) else (n : ℤ)) d.length)
    | _ => none
  | [] => none

/-- A duration as a field: a letter for the kind of value, then its content. -/
def valToken : JSVal → List Char
  | .undefined => ['u']
  | .null => ['n']
  | .bool true => ['t']
  | .bool false => ['f']
  | .num .nan => ['N']
  | .num .posInf => ['I']
  | .num .negInf => ['J']
  | .num (.fin q) => 'q' :: ratToken q
  | .str s => 's' :: s.data

/-- Reads a duration back. -/
def tokenVal : List Char → Option JSVal
  | c :: r =>
    if c = 'u' then some .undefined
    else if c = 'n' then some .null
    else if c = 't' then some (.bool true)
    else if c = 'f' then some (.bool false)
    else if c = 'N' then some (.num .nan)
    else if c = 'I' then some (.num .posInf)
    else if c = 'J' then some (.num .negInf)
    else if c = 'q' then (tokenRat r).map (fun q => .num (.fin q))
    else if c = 's' then some (.str ⟨r⟩)
    else none
  | [] => none

/-- A tag as a field: `n` when there is none. -/
def tagToken : Option String → List Char
  | none => ['n']
  | some s => 's' :: s.data

/-- Reads a tag back. -/
def tokenTag : List Char → Option (Option String)
  | c :: r =>
    if c = 'n' then some none
    else if c = 's' then some (some ⟨r⟩)
    else none
  | [] => none

/-- The fields of a sequence of records, seven for each record. -/
def tasksTokens : List Task → List (List Char)
  | [] => []
  | t :: ts =>
    t.id.data :: t.title.data :: valToken t.duration :: t.dueDate.data :: tagToken t.tag ::
      t.createdAt.data :: t.updatedAt.data :: tasksTokens ts

/-- Reads a sequence of records back from its fields. -/
def tokensTasks : List (List Char) → Option (List Task)
  | [] => some []
  | id :: title :: duration :: dueDate :: tag :: createdAt :: updatedAt :: rest =>
    match tokenVal duration, tokenTag tag, tokensTasks rest with
    | some d, some g, some ts =>
      some (⟨⟨id⟩, ⟨title⟩, d, ⟨dueDate⟩, g, ⟨createdAt⟩, ⟨updatedAt⟩⟩ :: ts)
    | _, _, _ => none
  | _ => none

/-- The reference serializer: the fields of the records between brackets, durations
written as `JSON.stringify` writes them. The empty array is `[]`. -/
def refStringify (ts : List Task) : String :=
  ⟨'[' :: putFields (tasksTokens (ts.map Task.toJSON))⟩

/-- The reference parser: the inverse of `refStringify` on bracketed texts; the
literals `null`, `false` and `true` are the values that are not arrays; any other
text is a syntax error. -/
def refParse (s : String) : Option Parsed :=
  match s.data with
  | '[' :: w => ((getFields w.length w).bind tokensTasks).map Parsed.array
  | _ =>
    if s = "null" ∨ s = "false" then some .falsy
    else if s = "true" then some .truthy
    else none

/-- The reference platform. -/
def refPlatform : Platform :=
  { parseFloat := refParseFloat
    toLowerCase := fun s => ⟨s.data.map Char.toLower⟩
    jsonStringify := refStringify
    jsonParse := refParse }

/-! ## Sample data -/

/-- A task the form handler passes to `State.addTask`. -/
def readNotes : TaskData :=
  { title := "Read notes", duration := .num (.fin 30), dueDate := "2025-03-10", tag := some "Study" }

/-- A second task, without a tag. -/
def buyMilk : TaskData :=
  { title := "Buy milk", duration := .num (.fin 5), dueDate := "2025-03-11", tag := none }

/-- A task whose duration overflows. The form handler passes `parseFloat` of the text
typed; a numeral of 400 digits matches the duration pattern of the validator (an
unsigned numeral with at most two decimals) and `parseFloat` makes `Infinity` of it. -/
def longRun : TaskData :=
  { title := "Long run", duration := .num .posInf, dueDate := "2025-03-12", tag := none }

/-- The store after `readNotes` was added to the fresh store when `Date.now()`
was `1000`. -/
def stateOne (P : Platform) : State :=
  (State.fresh.addTask P "2025-03-09T10:00:00.000Z" 1000 readNotes).2

/-- A session: an empty array imported, two tasks added, the first deleted. -/
def sampleCalls : List Mutation :=
  [ .importTasks "[]",
    .addTask "2025-03-09T10:00:00.000Z" 1000 readNotes,
    .addTask "2025-03-09T10:05:00.000Z" 301000 buyMilk,
    .deleteTask "task_1000" ]

/-! ## Regular expressions of the host -/

/-- A regular expression object, as far as the code uses one: `regex.test(text)` for
a regular expression without the `g` flag, and `text.replace(regex, replacement)`. -/
structure RegExpObject where
  test : String → Bool
  replaceIn : String → String → String

/-- The regular expressions of the host. `compile pattern flags` is
`new RegExp(pattern, flags)`, `none` when the constructor throws a `SyntaxError`;
`canonicalize` is the case folding of the flag `i`. -/
structure RegExpEngine where
  compile : String → String → Option RegExpObject
  canonicalize : Char → Char

/-- The `SyntaxCharacter`s of the pattern grammar of ECMAScript. -/
def isSyntaxCharacter (c : Char) : Bool :=
  c ∈ ['^', '$', '\\', '.', '*', '+', '?', '(', ')', '[', ']', '{', '}', '|']

/-- Reads a pattern without operators: a pattern character stands for itself and a
backslash followed by a syntax character stands for that character. `none` when the
pattern has a syntax character that is not escaped, or another escape. -/
def readLiteral : List Char → Option (List Char)
  | [] => some []
  | c :: rest =>
    if c = '\\' then
      match rest with
      | d :: rest => if isSyntaxCharacter d then (readLiteral rest).map (d :: ·) else none
      | [] => none
    else if isSyntaxCharacter c then none
    else (readLiteral rest).map (c :: ·)

/-- Whether `term` stands at the head of `text`, letter case aside. -/
def occursAt (canon : Char → Char) : List Char → List Char → Bool
  | [], _ => true
  | _ :: _, [] => false
  | t :: ts, c :: cs => canon t == canon c && occursAt canon ts cs

/-- Replaces the occurrences of `term` in `text`, from left to right and without
overlap, by `f` of the text matched; the first occurrence only unless `all`. The
first argument bounds the number of steps: the length of the text and one more. -/
def replaceLoop (canon : Char → Char) (term : List Char) (f : List Char → List Char)
    (all : Bool) : ℕ → List Char → List Char
  | 0, text => text
  | fuel + 1, text =>
    if occursAt canon term text then
      let rest := text.drop term.length
      if !all then f (text.take term.length) ++ rest
      else
        match term, rest with
        | [], [] => f []
        | [], c :: cs => f [] ++ c :: replaceLoop canon term f all fuel cs
        | _ :: _, _ => f (text.take term.length) ++ replaceLoop canon term f all fuel rest
    else
      match text with
      | [] => []
      | c :: cs => c :: replaceLoop canon term f all fuel cs

/-- The text with every occurrence of `term`, from left to right and without overlap,
letter case aside, put between `<mark>` and `</mark>`. -/
def markAll (canon : Char → Char) (term text : List Char) : List Char :=
  replaceLoop canon term (fun m => "<mark>".data ++ m ++ "</mark>".data) true
    (text.length + 1) text

/-- What the development uses of `RegExp` and `String.prototype.replace`: a group
around a pattern without operators compiles with the flags `gi`, and replacing it
by `<mark>$1</mark>` marks every occurrence of the text the pattern reads as. -/
structure RegExpLaws (E : RegExpEngine) : Prop where
  literal_group : ∀ (p : String) (lit : List Char), readLiteral p.data = some lit → lit ≠ [] →
    ∃ re, E.compile ("(" ++ p ++ ")") "gi" = some re ∧
      ∀ text, re.replaceIn text "<mark>$1</mark>" = ⟨markAll E.canonicalize lit text.data⟩

namespace Search

/-- The characters that `escapeRegExp` escapes: the class of its pattern. -/
def escapeClass : List Char :=
  ['.', '*', '+', '?', '^', '$', '{', '}', '(', ')', '|', '[', ']', '\\']

/-- `Search.escapeRegExp` on characters: `$&` in the replacement is the character
matched. -/
def escapeChars : List Char → List Char
  | [] => []
  | c :: cs => if c ∈ escapeClass then '\\' :: c :: escapeChars cs else c :: escapeChars cs

/-- `Search.escapeRegExp`. -/
def escapeRegExp (string : String) : String :=
  ⟨escapeChars string.data⟩

/-- `Search.highlightMatches`. `none` when `new RegExp` throws. -/
def highlightMatches (E : RegExpEngine) (text query : String) : Option String :=
  if query = "" ∨ jsTrim query = "" ∨ text = "" then some text
  else
    let searchTerm := jsTrim query
    match E.compile ("(" ++ escapeRegExp searchTerm ++ ")") "gi" with
    | none => none
    | some regex => some (regex.replaceIn text "<mark>$1</mark>")

/-- `Search.regexSearch`. The `catch` branch is the one where `new RegExp` throws. -/
def regexSearch (E : RegExpEngine) (tasks : List Task) (pattern : String) : List Task :=
  if pattern = "" ∨ jsTrim pattern = "" then tasks
  else
    match E.compile pattern "i" with
    | none => tasks
    | some regex =>
      tasks.filter (fun task =>
        if regex.test task.title then true
        else if (match task.tag with
            | some tag => tag != "" && regex.test tag
            | none => false) then true
        else if regex.test task.dueDate then true
        else false)

end Search

/-! ## A reference engine for patterns without operators -/

/-- Expands a replacement text: `$$` is a dollar sign, `$&` the text matched, and
`$1` the first group when the pattern has one. The other forms are copied. -/
def expandReplacement (matched : List Char) (grouped : Bool) : List Char → List Char
  | '$' :: '$' :: rest => '$' :: expandReplacement matched grouped rest
  | '$' :: '&' :: rest => matched ++ expandReplacement matched grouped rest
  | '$' :: '1' :: rest =>
    if grouped then matched ++ expandReplacement matched grouped rest
    else '$' :: '1' :: expandReplacement matched grouped rest
  | c :: rest => c :: expandReplacement matched grouped rest
  | [] => []

/-- Reads a pattern without operators, with or without a group around it: the text it
stands for and whether there is a group. -/
def readPattern (pattern : List Char) : Option (List Char × Bool) :=
  match pattern with
  | '(' :: rest =>
    if rest.getLast? = some ')' then (readLiteral rest.dropLast).map (·, true) else none
  | _ => (readLiteral pattern).map (·, false)

/-- The reference engine. It reads the patterns without operators and the flags `g`
and `i`; every other pattern or flag is reported as a syntax error, as `[` is in
ECMAScript. Its case folding is that of ASCII. -/
def refRegExp : RegExpEngine where
  canonicalize := Char.toUpper
  compile pattern flags :=
    if flags = "" ∨ flags = "i" ∨ flags = "g" ∨ flags = "gi" ∨ flags = "ig" then
      let canon : Char → Char := if 'i' ∈ flags.data then Char.toUpper else id
      (readPattern pattern.data).map fun (lit, grouped) =>
        { test := fun text =>
            (List.range (text.length + 1)).any fun i => occursAt canon lit (text.data.drop i)
          replaceIn := fun text replacement =>
            ⟨replaceLoop canon lit (fun m => expandReplacement m grouped replacement.data)
              (decide ('g' ∈ flags.data)) (text.length + 1) text.data⟩ }
    else none

/-! ## Regular expressions of the validators

The patterns of `validators.js` are regular expression literals. Those that are
anchored at both ends and have no back-reference are values of `RE`; `test` on such a
pattern is a match of the whole text, decided by derivatives. -/

/-- A regular expression over characters, a character class being a test. -/
inductive RE where
  | never
  | eps
  | cls (p : Char → Bool)
  | alt (a b : RE)
  | seq (a b : RE)
  | star (a : RE)

namespace RE

/-- The texts a regular expression matches. -/
def lang : RE → List Char → Prop
  | never, _ => False
  | eps, s => s = []
  | cls p, s => ∃ c, s = [c] ∧ p c = true
  | alt a b, s => a.lang s ∨ b.lang s
  | seq a b, s => ∃ s₁ s₂, s = s₁ ++ s₂ ∧ a.lang s₁ ∧ b.lang s₂
  | star a, s => ∃ parts : List (List Char), s = parts.flatten ∧ ∀ part ∈ parts, a.lang part

/-- Whether the empty text is matched. -/
def nullable : RE → Bool
  | never => false
  | eps => true
  | cls _ => false
  | alt a b => a.nullable || b.nullable
  | seq a b => a.nullable && b.nullable
  | star _ => true

/-- The derivative: what is left to match after the character `c`. -/
def deriv (c : Char) : RE → RE
  | never => never
  | eps => never
  | cls p => if p c then eps else never
  | alt a b => alt (a.deriv c) (b.deriv c)
  | seq a b => if a.nullable then alt (seq (a.deriv c) b) (b.deriv c) else seq (a.deriv c) b
  | star a => seq (a.deriv c) (star a)

/-- Whether the whole text is matched. -/
def fullMatch (r : RE) : List Char → Bool
  | [] => r.nullable
  | c :: s => (r.deriv c).fullMatch s

/-- The character `c`. -/
def chr (c : Char) : RE := cls (· == c)

/-- At most one `r`: the operator `?`. -/
def opt (r : RE) : RE := alt r eps

/-- One `r` or more: the operator `+`. -/
def plus (r : RE) : RE := seq r (star r)

end RE

/-! ## validators.js -/

namespace RE

/-- A character from `lo` to `hi`: the class `[lo-hi]`. -/
def range (lo hi : Char) : RE :=
  cls (fun c => lo.toNat ≤ c.toNat && c.toNat ≤ hi.toNat)

/-- The expressions of a list one after the other. -/
def seqs : List RE → RE
  | [] => eps
  | r :: rs => seq r (seqs rs)

end RE

/-- The line terminators, which `.` does not match: LF, CR, LS and PS. -/
def isLineTerminator (c : Char) : Bool :=
  c.toNat == 0xA || c.toNat == 0xD || c.toNat == 0x2028 || c.toNat == 0x2029

/-- A decimal digit: the classes `\d` and `[0-9]`. -/
def isDigit09 (c : Char) : Bool :=
  48 ≤ c.toNat && c.toNat ≤ 57

/-- A letter of the classes `[A-Za-z]`. -/
def isAsciiLetter (c : Char) : Bool :=
  (65 ≤ c.toNat && c.toNat ≤ 90) || (97 ≤ c.toNat && c.toNat ≤ 122)

/-- A word character: the class `\w`, which is `[A-Za-z0-9_]`. -/
def isWordChar (c : Char) : Bool :=
  isAsciiLetter c || isDigit09 c || c == '_'

/-- The assertion `\b` between two neighbours, `none` being an end of the text:
one of the two is a word character and the other is not. -/
def wordBoundary (before after : Option Char) : Bool :=
  (before.any isWordChar) != (after.any isWordChar)

namespace Validators

namespace patterns

/-- The pattern `/^\S(?:.*\S)?$/`. The class `\S` is what is not white space and `.`
is what is not a line terminator. -/
def title : RE :=
  .seq (.cls fun c => !isJSWhiteSpace c)
    (.opt (.seq (.star (.cls fun c => !isLineTerminator c)) (.cls fun c => !isJSWhiteSpace c)))

/-- The pattern `/^(0|[1-9]\d*)(\.[0-9]{1,2})?$/`. -/
def duration : RE :=
  .seq (.alt (.chr '0') (.seq (.range '1' '9') (.star (.cls isDigit09))))
    (.opt (.seq (.chr '.') (.seq (.range '0' '9') (.opt (.range '0' '9')))))

/-- The pattern `/^\d{4}-(0[1-9]|1[0-2])-(0[1-9]|[12]\d|3[01])$/`. -/
def date : RE :=
  .seqs
    [ .cls isDigit09, .cls isDigit09, .cls isDigit09, .cls isDigit09,
      .chr '-',
      .alt (.seq (.chr '0') (.range '1' '9')) (.seq (.chr '1') (.range '0' '2')),
      .chr '-',
      .alt (.seq (.chr '0') (.range '1' '9'))
        (.alt (.seq (.range '1' '2') (.cls isDigit09)) (.seq (.chr '3') (.range '0' '1'))) ]

/-- The pattern `/^[A-Za-z]+(?:[ -][A-Za-z]+)*$/`. -/
def tag : RE :=
  .seq (.plus (.cls isAsciiLetter))
    (.star (.seq (.cls fun c => c == ' ' || c == '-') (.plus (.cls isAsciiLetter))))

/-- The pattern `(\w+)\s+\1\b` tried at the head of `rest`, every way there is: the
group takes `i + 1` word characters, `\s+` takes `j + 1` white space characters, the
back-reference `\1` takes the text of the group again, and `\b` holds between its
last character and what follows. -/
def duplicateWordsHere (rest : List Char) : Bool :=
  (List.range rest.length).any fun i =>
    let word := rest.take (i + 1)
    let rest₁ := rest.drop (i + 1)
    word.all isWordChar &&
    (List.range rest₁.length).any fun j =>
      let rest₂ := rest₁.drop (j + 1)
      (rest₁.take (j + 1)).all isJSWhiteSpace &&
      word.isPrefixOf rest₂ &&
      wordBoundary word.getLast? (rest₂.drop word.length).head?

/-- The pattern `/\b(\w+)\s+\1\b/` searched from each position of the text, `before`
being the character in front of the position. -/
def duplicateWordsFrom (before : Option Char) : List Char → Bool
  | [] => false
  | c :: cs =>
    (wordBoundary before (some c) && duplicateWordsHere (c :: cs)) ||
      duplicateWordsFrom (some c) cs

/-- The method `test` of the pattern `/\b(\w+)\s+\1\b/`. -/
def duplicateWords (text : String) : Bool :=
  duplicateWordsFrom none text.data

end patterns

/-- The `errors` object of `validateTaskForm`: a message for each field that has one. -/
structure FormErrors where
  title : Option String
  duration : Option String
  dueDate : Option String
  tag : Option String
  deriving DecidableEq

/-- What `validateTaskForm` returns. -/
structure FormResult where
  isValid : Bool
  errors : FormErrors
  deriving DecidableEq

/-- `Validators.validateTaskForm`. The arguments are strings, so `!title` holds for
the empty string only. -/
def validateTaskForm (title duration dueDate tag : String) : FormResult :=
  let errors : FormErrors :=
    { title :=
        if title = "" then some "Title is required"
        else if !patterns.title.fullMatch title.data then
          some "Title cannot have leading or trailing spaces"
        else if patterns.duplicateWords title then some "Title contains duplicate words"
        else none
      duration :=
        if duration = "" then some "Duration is required"
        else if !patterns.duration.fullMatch duration.data then
          some "Duration must be a valid number"
        else none
      dueDate :=
        if dueDate = "" then some "Due date is required"
        else if !patterns.date.fullMatch dueDate.data then
          some "Due date must be in YYYY-MM-DD format"
        else none
      tag :=
        if tag ≠ "" ∧ !patterns.tag.fullMatch tag.data then
          some "Tag must contain only letters, spaces, and hyphens"
        else none }
  { isValid := errors.title.isNone && errors.duration.isNone && errors.dueDate.isNone &&
      errors.tag.isNone
    errors := errors }

end Validators

/-! ## The validator rules in the words of the specification -/

/-- The value of a decimal digit. -/
def digitValue (c : Char) : ℕ :=
  c.toNat - 48

/-- A non-negative decimal numeral with at most two fractional digits: an unsigned
integer part (`0`, or digits that do not start with `0`), followed or not by a point
and one or two digits. -/
def IsDurationNumeral (s : List Char) : Prop :=
  ∃ ip fp, s = ip ++ fp ∧
    (ip = ['0'] ∨ (ip ≠ [] ∧ (∀ c ∈ ip, isDigit09 c = true) ∧ ip.head? ≠ some '0')) ∧
    (fp = [] ∨ ∃ ds, fp = '.' :: ds ∧ (ds.length = 1 ∨ ds.length = 2) ∧
      ∀ c ∈ ds, isDigit09 c = true)

/-- The shape `DDDD-MM-DD`: four digits, a month from 01 to 12 and a day from 01
to 31. -/
def IsDateShape (s : List Char) : Prop :=
  ∃ y₁ y₂ y₃ y₄ m₁ m₂ d₁ d₂ : Char,
    s = [y₁, y₂, y₃, y₄, '-', m₁, m₂, '-', d₁, d₂] ∧
    (∀ c ∈ [y₁, y₂, y₃, y₄, m₁, m₂, d₁, d₂], isDigit09 c = true) ∧
    1 ≤ 10 * digitValue m₁ + digitValue m₂ ∧ 10 * digitValue m₁ + digitValue m₂ ≤ 12 ∧
    1 ≤ 10 * digitValue d₁ + digitValue d₂ ∧ 10 * digitValue d₁ + digitValue d₂ ≤ 31

/-- The text holds a whole word followed, after one or more white space characters
only, by the same whole word with the same letter case. A word is a run of the
characters `w` tells; the first run starts the text or follows a character that is
not one of them, and the second ends the text or precedes such a character. -/
def HasRepeatedWord (w : Char → Bool) (s : List Char) : Prop :=
  ∃ pre word sp post, s = pre ++ word ++ sp ++ word ++ post ∧
    word ≠ [] ∧ (∀ c ∈ word, w c = true) ∧
    sp ≠ [] ∧ (∀ c ∈ sp, isJSWhiteSpace c = true) ∧
    (∀ c, pre.getLast? = some c → w c = false) ∧
    (∀ c, post.head? = some c → w c = false)

/-- Letters, digits and the underscore, the letters being those of ASCII and the
accented letters of Latin-1 and Latin Extended-A (U+00C0 to U+017F without the signs
U+00D7 and U+00F7). -/
def isLetterDigitUnderscore (c : Char) : Bool :=
  isWordChar c || (0xC0 ≤ c.toNat && c.toNat ≤ 0x17F && c.toNat != 0xD7 && c.toNat != 0xF7)

/-! ## Conversions of the host -/

/-- The conversions between numbers and texts behind `String(x)` and `Number(x)`. -/
structure Coercions where
  /-- The text of a finite number: `Number.prototype.toString` in radix 10. -/
  numberToString : ℚ → String
  /-- The number a text denotes (`StringToNumber`), `NaN` when it denotes none. -/
  stringToNumber : String → JSNum

/-- The conversion `String(v)`. -/
def JSVal.toStr (C : Coercions) : JSVal → String
  | .undefined => "undefined"
  | .null => "null"
  | .bool true => "true"
  | .bool false => "false"
  | .num .nan => "NaN"
  | .num .posInf => "Infinity"
  | .num .negInf => "-Infinity"
  | .num (.fin q) => C.numberToString q
  | .str s => s

/-- The conversion `Number(v)`. -/
def JSVal.toNumber (C : Coercions) : JSVal → JSNum
  | .undefined => .nan
  | .null => .fin 0
  | .bool true => .fin 1
  | .bool false => .fin 0
  | .num n => n
  | .str s => C.stringToNumber s

/-- Whether a value counts as true in a condition: `undefined`, `null`, `false`, `0`,
`NaN` and the empty string do not. -/
def JSVal.truthy : JSVal → Bool
  | .undefined => false
  | .null => false
  | .bool b => b
  | .num .nan => false
  | .num (.fin q) => decide (q ≠ 0)
  | .num _ => true
  | .str s => decide (s ≠ "")

namespace Validators

/-- `Validators.validateTaskObject`. The argument is a record, so the guard
`!task || typeof task !== 'object'` does not fire; `!task.id`, `!task.title` and
`!task.dueDate` hold for the empty string only, and `task.tag &&` lets a missing and
an empty tag through. -/
def validateTaskObject (C : Coercions) (task : Task) : Bool :=
  if task.id = "" ∨ task.title = "" ∨ task.duration = .undefined ∨ task.dueDate = "" then
    false
  else if !patterns.title.fullMatch task.title.data then false
  else if !patterns.duration.fullMatch (task.duration.toStr C).data then false
  else if !patterns.date.fullMatch task.dueDate.data then false
  else
    match task.tag with
    | some tag => if tag ≠ "" ∧ !patterns.tag.fullMatch tag.data then false else true
    | none => true

end Validators

/-! ## Reference conversions

`String(x)` is exact on the numbers with a finite decimal expansion, which are the
numbers a decimal literal denotes, and `Number(x)` reads the literals of
`StringNumericLiteral` without rounding. -/

/-- How often `p` divides `n`, and what is left of `n`; the first argument bounds the
number of divisions. -/
def stripFactor (p : ℕ) : ℕ → ℕ → ℕ × ℕ
  | 0, n => (0, n)
  | fuel + 1, n =>
    if n % p = 0 ∧ n ≠ 0 then
      let (k, r) := stripFactor p fuel (n / p)
      (k + 1, r)
    else (0, n)

/-- The decimal expansion of a positive rational `a / b` that has a finite one: the
digits without trailing zeros, and the exponent `n` with `a / b = 0.digits × 10 ^ n`. -/
def decimalExpansion (a b : ℕ) : Option (List Char × ℤ) :=
  let (i, r) := stripFactor 2 b b
  let (j, r) := stripFactor 5 b r
  if r ≠ 1 then none
  else
    let m := max i j
    let ds := Nat.toDigits 10 (a * 10 ^ m / b)
    some ((ds.reverse.dropWhile (· == '0')).reverse, (ds.length : ℤ) - m)

/-- The text of a positive number from its digits and exponent, as
`Number::toString` lays it out: plain digits up to 21 places, a leading `0.` down to
six zeros after the point, and the exponent form beyond. -/
def layoutNumber (ds : List Char) (n : ℤ) : List Char :=
  let k : ℤ := ds.length
  if k ≤ n ∧ n ≤ 21 then ds ++ List.replicate (n - k).toNat '0'
  else if 0 < n ∧ n ≤ 21 then ds.take n.toNat ++ '.' :: ds.drop n.toNat
  else if -6 < n ∧ n ≤ 0 then '0' :: '.' :: (List.replicate (-n).toNat '0' ++ ds)
  else
    let e := n - 1
    let tail := 'e' :: (if e < 0 then '-' else '+') :: Nat.toDigits 10 e.natAbs
    match ds with
    | [d] => d :: tail
    | d :: rest => d :: '.' :: (rest ++ tail)
    | [] => tail

/-- The text of a finite number. A number without a finite decimal expansion is no
double; it is written as a fraction, which `String` never produces. -/
def refNumberToString (q : ℚ) : String :=
  if q = 0 then "0"
  else
    let body :=
      match decimalExpansion q.num.natAbs q.den with
      | some (ds, n) => layoutNumber ds n
      | none => Nat.toDigits 10 q.num.natAbs ++ '/' :: Nat.toDigits 10 q.den
    ⟨if q < 0 then '-' :: body else body⟩

/-- The grammar `StrDecimalLiteral`: an optional sign, then `Infinity`, or digits
with an optional fraction, or a fraction alone, the last two with an optional
exponent. -/
def strDecimalLiteral : RE :=
  let sign := RE.cls fun c => c == '+' || c == '-'
  let digits := RE.plus (.cls isDigit09)
  let exponent := RE.opt (.seq (.cls fun c => c == 'e' || c == 'E') (.seq (.opt sign) digits))
  .seq (.opt sign)
    (.alt (.seqs ("Infinity".data.map RE.chr))
      (.alt (.seq digits (.seq (.opt (.seq (.chr '.') (.star (.cls isDigit09)))) exponent))
        (.seq (.chr '.') (.seq digits exponent))))

/-- The value of a digit in a radix up to 16, if it is one. -/
def radixDigit (radix : ℕ) (c : Char) : Option ℕ :=
  let n := c.toNat
  let v := if 48 ≤ n ∧ n ≤ 57 then n - 48
    else if 97 ≤ n ∧ n ≤ 102 then n - 87
    else if 65 ≤ n ∧ n ≤ 70 then n - 55
    else 16
  if v < radix then some v else none

/-- The value of a run of digits in a radix, if they all are digits of it. -/
def radixValue (radix : ℕ) (ds : List Char) : Option ℕ :=
  ds.foldl (fun acc c => acc.bind fun n => (radixDigit radix c).map fun v => radix * n + v)
    (some 0)

/-- The literals `0x…`, `0o…` and `0b…` in either case of the letter. -/
def radixLiteral : List Char → Option ℕ
  | '0' :: c :: d :: ds =>
    if c = 'x' ∨ c = 'X' then radixValue 16 (d :: ds)
    else if c = 'o' ∨ c = 'O' then radixValue 8 (d :: ds)
    else if c = 'b' ∨ c = 'B' then radixValue 2 (d :: ds)
    else none
  | _ => none

/-- The conversion of a text to a number: white space around it is dropped, the
empty text is `0`, a literal gives its value, anything else `NaN`. -/
def refStringToNumber (s : String) : JSNum :=
  let t := jsTrim s
  if t = "" then .fin 0
  else if strDecimalLiteral.fullMatch t.data then parseFloatText t
  else
    match radixLiteral t.data with
    | some n => .fin n
    | none => .nan

/-- The reference conversions. -/
def refCoercions : Coercions where
  numberToString := refNumberToString
  stringToNumber := refStringToNumber

/-- A stored record. -/
def studyStudy : Task :=
  { id := "task_1700000000000"
    title := "Study Study"
    duration := .num (.fin 0)
    dueDate := "2025-03-10"
    tag := none
    createdAt := "2025-03-01T09:00:00.000Z"
    updatedAt := "2025-03-01T09:00:00.000Z" }

/-! ## Arithmetic of numbers

The arithmetic of the host is that of IEEE 754 binary64: the sum, the quotient and
the product of two finite numbers are the exact results rounded to the nearest
double, a tie going to the double with the even significand, and a result that
rounds to `2 ^ 1024` or more is an infinity. -/

/-- The integer nearest to a rational, a tie going to the even one. -/
def roundHalfEven (x : ℚ) : ℤ :=
  if x - ⌊x⌋ < 1 / 2 then ⌊x⌋
  else if 1 / 2 < x - ⌊x⌋ then ⌊x⌋ + 1
  else if ⌊x⌋ % 2 = 0 then ⌊x⌋
  else ⌊x⌋ + 1

/-- The spacing of the doubles around a rational that is not zero: `2 ^ (e - 52)`
when its absolute value lies between `2 ^ e` and `2 ^ (e + 1)`, and `2 ^ (-1074)`,
the spacing of the subnormal numbers, below `2 ^ (-1022)`. -/
def ulp (x : ℚ) : ℚ :=
  2 ^ (max (Int.log 2 |x|) (-1022) - 52)

namespace JSNum

/-- The double nearest to a rational: the rounding `roundTiesToEven` of IEEE 754
binary64, with overflow to an infinity. -/
def round (x : ℚ) : JSNum :=
  if x = 0 then fin 0
  else if 2 ^ 1024 ≤ roundHalfEven (x / ulp x) * ulp x then posInf
  else if roundHalfEven (x / ulp x) * ulp x ≤ -2 ^ 1024 then negInf
  else fin (roundHalfEven (x / ulp x) * ulp x)

/-- The function `isNaN` on a number. -/
def isNaN : JSNum → Bool
  | nan => true
  | _ => false

/-- The comparison `a < b`, false when either side is `NaN`. -/
def lt : JSNum → JSNum → Bool
  | nan, _ => false
  | _, nan => false
  | _, negInf => false
  | negInf, _ => true
  | posInf, _ => false
  | fin _, posInf => true
  | fin a, fin b => decide (a < b)

/-- The comparison `a >= b`, false when either side is `NaN`. -/
def ge (a b : JSNum) : Bool :=
  !a.isNaN && !b.isNaN && !a.lt b

/-- The sum `a + b` of two numbers, rounded to a double. -/
def add : JSNum → JSNum → JSNum
  | nan, _ => nan
  | _, nan => nan
  | posInf, negInf => nan
  | negInf, posInf => nan
  | posInf, _ => posInf
  | _, posInf => posInf
  | negInf, _ => negInf
  | _, negInf => negInf
  | fin a, fin b => round (a + b)

/-- The infinity of the sign of `q`, zero counting as positive. -/
def signedInf (q : ℚ) : JSNum :=
  if q < 0 then negInf else posInf

/-- The opposite `-a`. -/
def neg : JSNum → JSNum
  | nan => nan
  | posInf => negInf
  | negInf => posInf
  | fin a => fin (-a)

/-- The quotient `a / b`, rounded to a double. An infinity over an infinity and zero
over zero are `NaN`; a zero divisor is read as `+0`. -/
def div : JSNum → JSNum → JSNum
  | nan, _ => nan
  | _, nan => nan
  | fin a, fin b => if b = 0 then (if a = 0 then nan else signedInf a) else round (a / b)
  | fin _, _ => fin 0
  | posInf, fin b => signedInf b
  | negInf, fin b => neg (signedInf b)
  | _, _ => nan

/-- The product `a * b`, rounded to a double. An infinity times zero is `NaN`. -/
def mul : JSNum → JSNum → JSNum
  | nan, _ => nan
  | _, nan => nan
  | fin a, fin b => round (a * b)
  | fin a, posInf => if a = 0 then nan else signedInf a
  | fin a, negInf => if a = 0 then nan else neg (signedInf a)
  | posInf, fin b => if b = 0 then nan else signedInf b
  | negInf, fin b => if b = 0 then nan else neg (signedInf b)
  | posInf, posInf => posInf
  | negInf, negInf => posInf
  | _, _ => negInf

/-- The function `Math.min` of two numbers, `NaN` when either is. -/
def min : JSNum → JSNum → JSNum
  | nan, _ => nan
  | _, nan => nan
  | negInf, _ => negInf
  | _, negInf => negInf
  | posInf, b => b
  | a, posInf => a
  | fin a, fin b => fin (Min.min a b)

end JSNum

/-! ## Settings -/

/-- The settings record, as far as the code reads it. A property that is missing
reads as `undefined`. -/
structure Settings where
  defaultUnit : JSVal
  dailyTarget : JSVal
  deriving DecidableEq

namespace Validators

/-- `Validators.validateSettings`. The argument is a record, so the guard
`!settings || typeof settings !== 'object'` does not fire. -/
def validateSettings (C : Coercions) (settings : Settings) : Bool :=
  if settings.defaultUnit.truthy ∧
      ¬ (settings.defaultUnit = .str "minutes" ∨ settings.defaultUnit = .str "hours") then
    false
  else if settings.dailyTarget ≠ .undefined then
    let dailyTarget := settings.dailyTarget.toNumber C
    if dailyTarget.isNaN ∨ dailyTarget.lt (.fin 0) then false else true
  else true

end Validators

/-! ## ui.js: the daily target -/

/-- What `UI.checkDailyTarget` computes before it writes to the page. -/
structure DailyTarget where
  dailyTarget : JSVal
  today : String
  todayDuration : JSNum
  percentComplete : JSNum

namespace UI

/-- `UI.checkDailyTarget`, up to the update of the page. `nowIso` is the text
`new Date().toISOString()`, of which `split('T')[0]` keeps what precedes the first
`T`; the dashboard element is taken to exist. -/
def checkDailyTarget (P : Platform) (C : Coercions) (settings : Settings) (nowIso : String)
    (tasks : List Task) : DailyTarget :=
  let dailyTarget : JSVal :=
    if settings.dailyTarget.truthy then settings.dailyTarget else .num (.fin 0)
  let today : String := ⟨nowIso.data.takeWhile (· != 'T')⟩
  let todayTasks := tasks.filter fun task => task.dueDate == today
  let todayDuration :=
    todayTasks.foldl (fun sum task => sum.add (P.parseFloat task.duration)) (.fin 0)
  let percentComplete :=
    if (JSNum.fin 0).lt (dailyTarget.toNumber C) then
      ((todayDuration.div (dailyTarget.toNumber C)).mul (.fin 100)).min (.fin 100)
    else .fin 0
  { dailyTarget := dailyTarget
    today := today
    todayDuration := todayDuration
    percentComplete := percentComplete }

end UI

/-- A stored record with a given duration and due date. -/
def taskDue (duration : JSVal) (dueDate : String) : Task :=
  { id := "task_1700000000000"
    title := "Read notes"
    duration := duration
    dueDate := dueDate
    tag := some "Study"
    createdAt := "2025-03-01T09:00:00.000Z"
    updatedAt := "2025-03-01T09:00:00.000Z" }

/-! ## ui.js: the top tag of the dashboard -/

/-- The names of the properties that the object literal `{}` inherits from
`Object.prototype`. -/
def objectPrototypeKeys : List String :=
  [ "constructor", "hasOwnProperty", "isPrototypeOf", "propertyIsEnumerable",
    "toLocaleString", "toString", "valueOf", "__proto__", "__defineGetter__",
    "__defineSetter__", "__lookupGetter__", "__lookupSetter__" ]

/-- What a property of `tagCounts` holds: a number, or a value that is no number (a
function or an object of `Object.prototype`, or the text that `+ 1` makes of one). -/
inductive TagCount where
  | number (n : ℕ)
  | other
  deriving DecidableEq

/-- The variables of the loop over the tasks in `UI.updateDashboard`: the own
properties of `tagCounts`, `topTag` and `maxCount`. -/
structure TagTally where
  tagCounts : String → Option TagCount
  topTag : String
  maxCount : ℕ

namespace UI

namespace updateDashboard

/-- The variables before the loop: `{}`, `'None'` and `0`. -/
def start : TagTally :=
  { tagCounts := fun _ => none, topTag := "None", maxCount := 0 }

/-- The expression `tagCounts[tag]`: the own property, or else the one inherited,
or else `undefined`. -/
def get (tagCounts : String → Option TagCount) (tag : String) : Option TagCount :=
  match tagCounts tag with
  | some value => some value
  | none => if tag ∈ objectPrototypeKeys then some .other else none

/-- The assignment `tagCounts[tag] = value`. On `__proto__` it calls the setter of
`Object.prototype`, which ignores a value that is no object. -/
def set (tagCounts : String → Option TagCount) (tag : String) (value : TagCount) :
    String → Option TagCount :=
  if tag = "__proto__" then tagCounts
  else fun key => if key = tag then some value else tagCounts key

/-- The body of the loop for one task. `(tagCounts[tag] || 0) + 1` is a number after
a number or `undefined`, and a text after any other value; a text that is no numeral
compares as `NaN`, so `> maxCount` is false for it. -/
def visit (tally : TagTally) (task : Task) : TagTally :=
  match task.tag with
  | some tag =>
    if tag ≠ "" then
      let value : TagCount :=
        match get tally.tagCounts tag with
        | some (.number n) => .number (n + 1)
        | some .other => .other
        | none => .number 1
      let tagCounts := set tally.tagCounts tag value
      match get tagCounts tag with
      | some (.number n) =>
        if n > tally.maxCount then { tagCounts := tagCounts, topTag := tag, maxCount := n }
        else { tally with tagCounts := tagCounts }
      | _ => { tally with tagCounts := tagCounts }
    else tally
  | none => tally

/-- The variable `topTag` after the loop `tasks.forEach(...)`. -/
def topTag (tasks : List Task) : String :=
  (tasks.foldl visit start).topTag

end updateDashboard

end UI

/-- The tags of a task list in the order of the tasks, a task without a tag or with
an empty one giving none. -/
def tagsOf (tasks : List Task) : List String :=
  tasks.filterMap fun task =>
    match task.tag with
    | some tag => if tag ≠ "" then some tag else none
    | none => none

/-- A stored record with a given tag. -/
def tagged (tag : Option String) : Task :=
  { id := "task_1700000000000"
    title := "Read notes"
    duration := .num (.fin 30)
    dueDate := "2025-03-10"
    tag := tag
    createdAt := "2025-03-01T09:00:00.000Z"
    updatedAt := "2025-03-01T09:00:00.000Z" }

/-- What holds of the variables of the loop after the tags `done` were visited: the
counts are those of `done`, `maxCount` bounds them, and `topTag` is the tag that
reached `maxCount`, at its last occurrence, before any other tag did. -/
def TagInv (done : List String) (tally : TagTally) : Prop :=
  (∀ g, tally.tagCounts g = if done.count g = 0 then none else some (.number (done.count g))) ∧
  (∀ g, done.count g ≤ tally.maxCount) ∧
  (done = [] → tally.topTag = "None" ∧ tally.maxCount = 0) ∧
  (done ≠ [] → ∃ pre post, done = pre ++ tally.topTag :: post ∧
    pre.count tally.topTag + 1 = tally.maxCount ∧ tally.topTag ∉ post ∧
    ∀ g, pre.count g < tally.maxCount)

/-- Four tagged tasks: the tag of the first comes back last. -/
def tagSample : List Task :=
  [tagged (some "Study"), tagged (some "Health"), tagged (some "Health"), tagged (some "Study")]

/-! ## ui.js: the import handler -/

/-- The characters of `String(tasks)` for an array of records: `tasks.join(",")`, the
text of a record being `[object Object]`. -/
def arrayChars : List Task → List Char
  | [] => []
  | [_] => "[object Object]".data
  | _ :: task :: tasks => "[object Object]".data ++ ',' :: arrayChars (task :: tasks)

/-- The text `String(tasks)` of an array of records, which is what `JSON.parse` and
`localStorage.setItem` make of an array they are given in the place of a text. -/
def arrayText (tasks : List Task) : String :=
  ⟨arrayChars tasks⟩

/-- The messages that `UI.importTasks` shows with `alert`. -/
inductive ImportAlert where
  /-- The message `No valid tasks found in the file.` -/
  | noValidTasks
  /-- The message `Warning: Only ${valid} out of ${total} tasks were valid and
  imported.` -/
  | onlySome (valid total : ℕ)
  /-- The message `Successfully imported ${count} tasks!` -/
  | imported (count : ℕ)
  /-- The message `Error importing tasks: ` followed by the message of the error. -/
  | error
  deriving DecidableEq

namespace UI

/-- `UI.importTasks`, from the moment the file is read: the alerts shown, in order,
and the store afterwards. `fileText` is `event.target.result`. A text that does not
parse, or that parses to a value without a method `filter`, ends in the `catch`
branch. The call `State.importTasks(validTasks)` passes the array itself. -/
def importTasks (P : Platform) (C : Coercions) (s : State) (fileText : String) :
    List ImportAlert × State :=
  match P.jsonParse fileText with
  | some (.array tasks) =>
    let validTasks := tasks.filter fun task => Validators.validateTaskObject C task
    if validTasks.length = 0 then ([.noValidTasks], s)
    else
      let warning :=
        if validTasks.length < tasks.length then
          [ImportAlert.onlySome validTasks.length tasks.length]
        else []
      match State.importTasks P s (arrayText validTasks) with
      | (some _, s) => (warning ++ [.imported validTasks.length], s)
      | (none, s) => (warning ++ [.error], s)
  | _ => ([.error], s)

end UI

/-! ## ui.js: the search step -/

namespace Search

/-- A call of `Search.regexSearch` as its caller sees it: the value returned, or the
error thrown. The body of the function after the test for a blank pattern is inside
`try`, so the function returns on every input. -/
def regexSearchCall (E : RegExpEngine) (tasks : List Task) (pattern : String) :
    Except String (List Task) :=
  .ok (regexSearch E tasks pattern)

end Search

namespace UI

/-- The step `Apply search` of `UI.handleSearch`, which `UI.sortTasks` repeats:
`if (query) { try { regexSearch } catch (e) { searchTasks } }`. The query is the
text of the search box after `trim`. -/
def applySearch (E : RegExpEngine) (P : Platform) (tasks : List Task) (query : String) :
    List Task :=
  if query ≠ "" then
    match Search.regexSearchCall E tasks query with
    | .ok found => found
    | .error _ => Search.searchTasks P tasks query
  else tasks

end UI

/-- Settings with a daily target of an hour. -/
def hourTarget : Settings :=
  { defaultUnit := .str "minutes", dailyTarget := .num (.fin 60) }

/-- Two records, the first due on the tenth of March 2025. -/
def marchTasks : List Task :=
  [taskDue (.num (.fin 45)) "2025-03-10", taskDue (.num (.fin 30)) "2025-03-11"]

/-- A target that is infinite, as `JSON.parse` reads `1e999`. -/
def infiniteTarget : Settings :=
  { defaultUnit := .str "minutes", dailyTarget := .num .posInf }

/-- Two records due on the tenth of March 2025, each with the duration `1e308`: the
numeral `1` followed by 308 zeros passes the duration pattern of the form. -/
def hugeTasks : List Task :=
  [taskDue (.num (.fin (10 ^ 308))) "2025-03-10", taskDue (.num (.fin (10 ^ 308))) "2025-03-10"]

/-- A target of `10000000000000002`. -/
def largeTarget : Settings :=
  { defaultUnit := .str "minutes", dailyTarget := .num (.fin 10000000000000002) }

/-- Three records due on the tenth of March 2025, with the durations `1e16`, `1`
and `1`. -/
def roundedTasks : List Task :=
  [ taskDue (.num (.fin 10000000000000000)) "2025-03-10",
    taskDue (.num (.fin 1)) "2025-03-10",
    taskDue (.num (.fin 1)) "2025-03-10" ]

/-! # Theorems -/

/-! ## The reference platform is lawful -/

/-- A run of `1`s is what is read up to the first other character. -/
theorem takeWhile_ones (n : ℕ) (c : Char) (rest : List Char) (hc : c ≠ '1') :
    (List.replicate n '1' ++ c :: rest).takeWhile (· == '1') = List.replicate n '1' := by
  induction n with
  | zero => simp [List.takeWhile_cons, hc]
  | succ n ih => simp [List.replicate_succ, List.takeWhile_cons, ih]

/-- Skipping a run of `1`s stops at the first other character. -/
theorem dropWhile_ones (n : ℕ) (c : Char) (rest : List Char) (hc : c ≠ '1') :
    (List.replicate n '1' ++ c :: rest).dropWhile (· == '1') = c :: rest := by
  induction n with
  | zero => simp [List.dropWhile_cons, hc]
  | succ n ih => simp [List.replicate_succ, List.dropWhile_cons, ih]

/-- Fields written are read back, given fuel for the length of the text. -/
theorem getFields_putFields (fs : List (List Char)) :
    ∀ fuel, (putFields fs).length ≤ fuel → getFields fuel (putFields fs) = some fs := by
  induction fs with
  | nil =>
    intro fuel h
    cases fuel with
    | zero => simp [putFields] at h
    | succ k => simp [getFields, putFields]
  | cons f fs ih =>
    intro fuel h
    cases fuel with
    | zero => simp [putFields] at h
    | succ k =>
      have hne : putFields (f :: fs) ≠ [']'] := by
        cases f with
        | nil => simp [putFields]
        | cons a f => simp [putFields, List.replicate_succ]
      have hk : (putFields fs).length ≤ k := by
        simp [putFields] at h
        omega
      rw [getFields, if_neg hne]
      simp only [putFields]
      rw [takeWhile_ones _ _ _ (by decide), dropWhile_ones _ _ _ (by decide)]
      simp [ih k hk]

/-- A finite number written is read back. -/
theorem tokenRat_ratToken (q : ℚ) : tokenRat (ratToken q) = some q := by
  unfold ratToken tokenRat
  simp only [takeWhile_ones _ _ _ (show '/' ≠ '1' by decide),
    dropWhile_ones _ _ _ (show '/' ≠ '1' by decide), List.length_replicate]
  by_cases h : q.num < 0
  · simp only [h, if_true]
    rw [show (-((q.num.natAbs : ℕ) : ℤ)) = q.num by omega, Rat.mkRat_self]
  · have h2 : ('+' = '-') = False := by decide
    simp only [h, if_false, h2]
    rw [show ((q.num.natAbs : ℕ) : ℤ) = q.num by omega, Rat.mkRat_self]

/-- A duration written is read back. -/
theorem tokenVal_valToken (v : JSVal) : tokenVal (valToken v) = some v := by
  cases v with
  | undefined => simp [valToken, tokenVal]
  | null => simp [valToken, tokenVal]
  | bool b => cases b <;> simp [valToken, tokenVal]
  | num n =>
    cases n with
    | nan => simp [valToken, tokenVal]
    | posInf => simp [valToken, tokenVal]
    | negInf => simp [valToken, tokenVal]
    | fin q => simp [valToken, tokenVal, tokenRat_ratToken]
  | str s => simp [valToken, tokenVal]

/-- A tag written is read back. -/
theorem tokenTag_tagToken (g : Option String) : tokenTag (tagToken g) = some g := by
  cases g with
  | none => rfl
  | some s => simp [tagToken, tokenTag]

/-- Records written are read back. -/
theorem tokensTasks_tasksTokens (ts : List Task) : tokensTasks (tasksTokens ts) = some ts := by
  induction ts with
  | nil => rfl
  | cons t ts ih => simp [tasksTokens, tokensTasks, tokenVal_valToken, tokenTag_tagToken, ih]

/-- The reference parser inverts the reference serializer, up to what
`JSON.stringify` does to durations. -/
theorem refParse_refStringify (ts : List Task) :
    refParse (refStringify ts) = some (.array (ts.map Task.toJSON)) := by
  simp [refParse, refStringify, getFields_putFields _ _ (le_refl _), tokensTasks_tasksTokens]

/-- The reference platform satisfies the laws of the JSON codec. -/
theorem refPlatform_jsonLaws : JsonLaws refPlatform where
  parse_stringify := refParse_refStringify
  stringify_nil := rfl
  stringify_ne_empty := by
    intro ts h
    have := congrArg String.data h
    simp [refPlatform, refStringify] at this
  parse_empty := by decide

/-! ## Lookup by id -/

/-- When a stored task carries the id, `findIndex` returns the position of the first
such task. -/
theorem findIdx?_id_of_mem {tasks : List Task} {taskId : String}
    (h : ∃ t ∈ tasks, t.id = taskId) :
    ∃ (i : ℕ) (old : Task), tasks.findIdx? (fun t => t.id == taskId) = some i ∧
      tasks[i]? = some old ∧ old.id = taskId ∧
      ∀ j < i, ∀ t, tasks[j]? = some t → t.id ≠ taskId := by
  obtain ⟨t, ht, hid⟩ := h
  have hex : ∃ x, x ∈ tasks ∧ (fun t : Task => t.id == taskId) x = true :=
    ⟨t, ht, by simpa using hid⟩
  have hsome := List.findIdx?_eq_some_of_exists hex
  obtain ⟨hlt, hp, hfirst⟩ := List.findIdx?_eq_some_iff_getElem.mp hsome
  refine ⟨_, tasks[tasks.findIdx _], hsome, List.getElem?_eq_getElem hlt, by simpa using hp, ?_⟩
  intro j hj u hu
  have hjl : j < tasks.length := Nat.lt_trans hj hlt
  have := hfirst j hj
  rw [List.getElem?_eq_getElem hjl] at hu
  cases hu
  simpa using this

/-- When no stored task carries the id, `findIndex` returns `-1`. -/
theorem findIdx?_id_of_not_mem {tasks : List Task} {taskId : String}
    (h : ∀ t ∈ tasks, t.id ≠ taskId) :
    tasks.findIdx? (fun t => t.id == taskId) = none := by
  rw [List.findIdx?_eq_none_iff]
  intro t ht
  simpa using h t ht

/-! ## addTask -/

/-- Claim C1, at the input where the code departs from it: two tasks added while
`Date.now()` reads the same millisecond get the same id, and `getTaskById` called
with the id of the second returns the first, "Read notes", not the record just added,
"Buy milk". -/
theorem addTask_getTaskById_same_millisecond (P : Platform) :
    (((stateOne P).addTask P "2025-03-09T10:00:00.000Z" 1000 buyMilk).2.getTaskById
        ((stateOne P).addTask P "2025-03-09T10:00:00.000Z" 1000 buyMilk).1.id).map Task.title
      = some "Read notes" ∧
    ((stateOne P).addTask P "2025-03-09T10:00:00.000Z" 1000 buyMilk).1.title = "Buy milk" := by
  simp [stateOne, State.addTask, State.getTaskById, State.fresh, readNotes, buyMilk]

/-- Claim C2, at the input where the code departs from it: the ids of `stateOne` are
pairwise distinct, and after a second `addTask` in the same millisecond the store
holds the id `task_1000` twice. -/
theorem addTask_ids_same_millisecond (P : Platform) :
    ((stateOne P).tasks.map Task.id).Nodup ∧
    ((stateOne P).addTask P "2025-03-09T10:00:00.000Z" 1000 buyMilk).2.tasks.map Task.id
      = ["task_1000", "task_1000"] ∧
    ¬ (((stateOne P).addTask P "2025-03-09T10:00:00.000Z" 1000 buyMilk).2.tasks.map
        Task.id).Nodup := by
  have h : ((stateOne P).addTask P "2025-03-09T10:00:00.000Z" 1000 buyMilk).2.tasks.map Task.id
      = ["task_1000", "task_1000"] := by
    simp [stateOne, State.addTask, State.fresh]
    decide
  refine ⟨?_, h, ?_⟩
  · simp [stateOne, State.addTask, State.fresh]
  · rw [h]
    decide

/-! ## Fresh identifiers -/

/-- When no stored task carries the id that `addTask` assigns, `getTaskById` with the
id of the returned record returns that record, whose title, due date and tag are those
of the input and whose duration is the numeric value of the input's duration. -/
theorem addTask_getTaskById_of_fresh (P : Platform) (s : State) (nowIso : String) (nowMs : Int)
    (taskData : TaskData) (hfresh : ∀ t ∈ s.tasks, t.id ≠ "task_" ++ toString nowMs) :
    (s.addTask P nowIso nowMs taskData).2.getTaskById (s.addTask P nowIso nowMs taskData).1.id
      = some (s.addTask P nowIso nowMs taskData).1 ∧
    (s.addTask P nowIso nowMs taskData).1 =
      { id := "task_" ++ toString nowMs
        title := taskData.title
        duration := .num (P.parseFloat taskData.duration)
        dueDate := taskData.dueDate
        tag := taskData.tag
        createdAt := nowIso
        updatedAt := nowIso } := by
  refine ⟨?_, rfl⟩
  have hnone : s.tasks.find? (fun task => task.id == "task_" ++ toString nowMs) = none := by
    rw [List.find?_eq_none]
    intro t ht
    simpa using hfresh t ht
  simp [State.addTask, State.getTaskById, hnone]

theorem addTask_getTaskById_of_fresh_witness :
    (∀ t ∈ (stateOne refPlatform).tasks, t.id ≠ "task_" ++ toString (301000 : Int)) ∧
    ((stateOne refPlatform).addTask refPlatform "2025-03-09T10:05:00.000Z" 301000
        buyMilk).2.getTaskById
        ((stateOne refPlatform).addTask refPlatform "2025-03-09T10:05:00.000Z" 301000 buyMilk).1.id
      = some ((stateOne refPlatform).addTask refPlatform "2025-03-09T10:05:00.000Z" 301000
          buyMilk).1 ∧
    ((stateOne refPlatform).addTask refPlatform "2025-03-09T10:05:00.000Z" 301000 buyMilk).1 =
      { id := "task_" ++ toString (301000 : Int)
        title := buyMilk.title
        duration := .num (refPlatform.parseFloat buyMilk.duration)
        dueDate := buyMilk.dueDate
        tag := buyMilk.tag
        createdAt := "2025-03-09T10:05:00.000Z"
        updatedAt := "2025-03-09T10:05:00.000Z" } :=
  have h : ∀ t ∈ (stateOne refPlatform).tasks, t.id ≠ "task_" ++ toString (301000 : Int) := by
    simp [stateOne, State.addTask, State.fresh]
    decide
  ⟨h, addTask_getTaskById_of_fresh refPlatform (stateOne refPlatform) "2025-03-09T10:05:00.000Z"
    301000 buyMilk h⟩

/-- `updateTask` leaves the sequence of ids as it is. -/
theorem updateTask_ids (P : Platform) (s : State) (nowIso taskId : String) (taskData : TaskData) :
    (s.updateTask P nowIso taskId taskData).2.tasks.map Task.id = s.tasks.map Task.id := by
  unfold State.updateTask
  split
  · rfl
  · split
    · rfl
    · rename_i _ i _ _ old hold
      simp only [List.map_set]
      have hlt : i < s.tasks.length := by
        by_contra hge
        rw [List.getElem?_eq_none (Nat.le_of_not_lt hge)] at hold
        cases hold
      have : old = s.tasks[i] := by
        rw [List.getElem?_eq_getElem hlt] at hold
        exact (Option.some.inj hold).symm
      subst this
      apply List.ext_getElem?
      intro j
      by_cases hj : i = j
      · subst hj
        simp [List.getElem?_set, hlt]
      · simp [List.getElem?_set, hj]

/-- On a store whose ids are pairwise distinct, `updateTask` and `deleteTask` keep the
ids pairwise distinct, and `addTask` keeps them so exactly when no stored task carries
the id it assigns. -/
theorem ids_nodup (P : Platform) (s : State) (h : (s.tasks.map Task.id).Nodup) :
    (∀ nowIso taskId taskData,
      ((s.updateTask P nowIso taskId taskData).2.tasks.map Task.id).Nodup) ∧
    (∀ taskId, ((s.deleteTask P taskId).tasks.map Task.id).Nodup) ∧
    (∀ nowIso nowMs taskData,
      ((s.addTask P nowIso nowMs taskData).2.tasks.map Task.id).Nodup ↔
        ∀ t ∈ s.tasks, t.id ≠ "task_" ++ toString nowMs) := by
  refine ⟨?_, ?_, ?_⟩
  · intro nowIso taskId taskData
    rw [updateTask_ids]
    exact h
  · intro taskId
    simp only [State.deleteTask]
    exact (List.Sublist.map _ (List.filter_sublist _)).nodup h
  · intro nowIso nowMs taskData
    simp only [State.addTask, List.map_append, List.map_cons, List.map_nil]
    rw [List.nodup_append]
    simp [h, List.disjoint_singleton, eq_comm]

theorem ids_nodup_witness :
    ((stateOne refPlatform).tasks.map Task.id).Nodup ∧
    (∀ nowIso taskId taskData,
      (((stateOne refPlatform).updateTask refPlatform nowIso taskId taskData).2.tasks.map
        Task.id).Nodup) ∧
    (∀ taskId, (((stateOne refPlatform).deleteTask refPlatform taskId).tasks.map Task.id).Nodup) ∧
    (∀ nowIso nowMs taskData,
      (((stateOne refPlatform).addTask refPlatform nowIso nowMs taskData).2.tasks.map
        Task.id).Nodup ↔
        ∀ t ∈ (stateOne refPlatform).tasks, t.id ≠ "task_" ++ toString nowMs) :=
  have h : ((stateOne refPlatform).tasks.map Task.id).Nodup := by
    simp [stateOne, State.addTask, State.fresh]
  ⟨h, ids_nodup refPlatform (stateOne refPlatform) h⟩

/-! ## updateTask -/

/-- Claim C3: for an id that no stored task carries, `updateTask` returns `null` and
the state after the call, in memory and persisted, is the state before. -/
theorem updateTask_absent (P : Platform) (s : State) (nowIso taskId : String)
    (taskData : TaskData) (h : ∀ t ∈ s.tasks, t.id ≠ taskId) :
    s.updateTask P nowIso taskId taskData = (none, s) := by
  simp [State.updateTask, findIdx?_id_of_not_mem h]

theorem updateTask_absent_witness :
    (∀ t ∈ (stateOne refPlatform).tasks, t.id ≠ "task_7") ∧
    (stateOne refPlatform).updateTask refPlatform "2025-03-09T11:00:00.000Z" "task_7" buyMilk
      = (none, stateOne refPlatform) :=
  have h : ∀ t ∈ (stateOne refPlatform).tasks, t.id ≠ "task_7" := by
    simp [stateOne, State.addTask, State.fresh]
    decide
  ⟨h, updateTask_absent refPlatform (stateOne refPlatform) "2025-03-09T11:00:00.000Z" "task_7"
    buyMilk h⟩

/-- Claim C4: for an id that a stored task carries, `updateTask` returns a record with
the id and the creation timestamp of the first stored record `old` with that id
(at position `i`), the title, due date and tag of the input, the numeric value of
the input's duration, and `updatedAt` set to the current instant; the sequence keeps
its length, holds the returned record at position `i`, and is unchanged at every
other position. -/
theorem updateTask_present (P : Platform) (s : State) (nowIso taskId : String)
    (taskData : TaskData) (h : ∃ t ∈ s.tasks, t.id = taskId) :
    ∃ (i : ℕ) (old : Task),
      s.tasks[i]? = some old ∧ old.id = taskId ∧
      (∀ j < i, ∀ t, s.tasks[j]? = some t → t.id ≠ taskId) ∧
      (s.updateTask P nowIso taskId taskData).1 = some
        { id := old.id
          title := taskData.title
          duration := .num (P.parseFloat taskData.duration)
          dueDate := taskData.dueDate
          tag := taskData.tag
          createdAt := old.createdAt
          updatedAt := nowIso } ∧
      (s.updateTask P nowIso taskId taskData).2.tasks.length = s.tasks.length ∧
      (s.updateTask P nowIso taskId taskData).2.tasks[i]? =
        (s.updateTask P nowIso taskId taskData).1 ∧
      ∀ j, j ≠ i → (s.updateTask P nowIso taskId taskData).2.tasks[j]? = s.tasks[j]? := by
  obtain ⟨i, old, hidx, hold, hid, hfirst⟩ := findIdx?_id_of_mem h
  have hlt : i < s.tasks.length := by
    by_contra hge
    rw [List.getElem?_eq_none (Nat.le_of_not_lt hge)] at hold
    cases hold
  refine ⟨i, old, hold, hid, hfirst, ?_, ?_, ?_, ?_⟩
  · simp [State.updateTask, hidx, hold]
  · simp [State.updateTask, hidx, hold]
  · simp [State.updateTask, hidx, hold, hlt]
  · intro j hj
    simp [State.updateTask, hidx, hold, List.getElem?_set, Ne.symm hj]

theorem updateTask_present_witness :
    (∃ t ∈ (stateOne refPlatform).tasks, t.id = "task_1000") ∧
    ∃ (i : ℕ) (old : Task),
      (stateOne refPlatform).tasks[i]? = some old ∧ old.id = "task_1000" ∧
      (∀ j < i, ∀ t, (stateOne refPlatform).tasks[j]? = some t → t.id ≠ "task_1000") ∧
      ((stateOne refPlatform).updateTask refPlatform "2025-03-09T11:00:00.000Z" "task_1000"
          buyMilk).1 = some
        { id := old.id
          title := buyMilk.title
          duration := .num (refPlatform.parseFloat buyMilk.duration)
          dueDate := buyMilk.dueDate
          tag := buyMilk.tag
          createdAt := old.createdAt
          updatedAt := "2025-03-09T11:00:00.000Z" } ∧
      ((stateOne refPlatform).updateTask refPlatform "2025-03-09T11:00:00.000Z" "task_1000"
          buyMilk).2.tasks.length = (stateOne refPlatform).tasks.length ∧
      ((stateOne refPlatform).updateTask refPlatform "2025-03-09T11:00:00.000Z" "task_1000"
          buyMilk).2.tasks[i]? =
        ((stateOne refPlatform).updateTask refPlatform "2025-03-09T11:00:00.000Z" "task_1000"
          buyMilk).1 ∧
      ∀ j, j ≠ i →
        ((stateOne refPlatform).updateTask refPlatform "2025-03-09T11:00:00.000Z" "task_1000"
          buyMilk).2.tasks[j]? = (stateOne refPlatform).tasks[j]? :=
  have h : ∃ t ∈ (stateOne refPlatform).tasks, t.id = "task_1000" := by
    simp [stateOne, State.addTask, State.fresh]
    decide
  ⟨h, updateTask_present refPlatform (stateOne refPlatform) "2025-03-09T11:00:00.000Z"
    "task_1000" buyMilk h⟩

/-! ## deleteTask -/

/-- Claim C5: after `deleteTask(id)` no stored task has the id; the sequence is the
records with another id, in their order; it is the sequence before exactly when no
stored task had the id; and it is what is persisted. The function is total: no
error is raised. -/
theorem deleteTask_spec (P : Platform) (s : State) (taskId : String) :
    (∀ t ∈ (s.deleteTask P taskId).tasks, t.id ≠ taskId) ∧
    (s.deleteTask P taskId).tasks = s.tasks.filter (fun t => decide (t.id ≠ taskId)) ∧
    ((s.deleteTask P taskId).tasks = s.tasks ↔ ∀ t ∈ s.tasks, t.id ≠ taskId) ∧
    (s.deleteTask P taskId).storage.campusTasks
      = some (P.jsonStringify (s.deleteTask P taskId).tasks) := by
  refine ⟨?_, ?_, ?_, rfl⟩
  · intro t ht
    simpa [State.deleteTask] using (List.mem_filter.mp ht).2
  · simp only [State.deleteTask]
    congr 1
    funext t
    by_cases ht : t.id = taskId <;> simp [ht]
  · simp [State.deleteTask, List.filter_eq_self]

/-! ## importTasks -/

/-- What `State.importTasks` returns and leaves, by what `JSON.parse` makes of
the text. -/
theorem importTasks_eq (P : Platform) (s : State) (jsonString : String) :
    s.importTasks P jsonString =
      match P.jsonParse jsonString with
      | some (.array ts) =>
        (some true, { tasks := ts, storage := { campusTasks := some jsonString } })
      | _ => (some false, s) := by
  unfold State.importTasks Storage.importTasks Storage.loadTasks
  cases h : P.jsonParse jsonString with
  | none => rfl
  | some x =>
    cases x with
    | array ts => simp [h]
    | falsy => rfl
    | truthy => rfl

/-- Claim C6: `State.importTasks(text)` returns `true` and the in-memory sequence
becomes the parsed array, the text being persisted, when the text parses to an array;
in every other case (the text does not parse, or parses to something that is not an
array) it returns `false` and the state, in memory and persisted, is unchanged. -/
theorem importTasks_spec (P : Platform) (s : State) (jsonString : String) :
    s.importTasks P jsonString =
      match P.jsonParse jsonString with
      | some (.array ts) =>
        (some true, { tasks := ts, storage := { campusTasks := some jsonString } })
      | none => (some false, s)
      | some .falsy => (some false, s)
      | some .truthy => (some false, s) := by
  rw [importTasks_eq]
  cases h : P.jsonParse jsonString with
  | none => rfl
  | some x => cases x <;> rfl

/-! ## Serialization -/

/-- Serialization leaves a sequence as it is when every duration survives it. -/
theorem map_toJSON_of_jsonSafe {ts : List Task} (h : JsonSafe ts) :
    ts.map Task.toJSON = ts := by
  induction ts with
  | nil => rfl
  | cons t ts ih =>
    have ht : t.toJSON = t := by
      have := h t (List.mem_cons_self t ts)
      unfold JSVal.IsJson at this
      simp [Task.toJSON, this]
    rw [List.map_cons, ht, ih (fun u hu => h u (List.mem_cons_of_mem t hu))]

/-- Reading back what `saveTasks` wrote gives the sequence as JSON holds it. -/
theorem loadTasks_saveTasks {P : Platform} (hP : JsonLaws P) (ls : LocalStorage)
    (ts : List Task) :
    Storage.loadTasks P (Storage.saveTasks P ls ts) = some (ts.map Task.toJSON) := by
  simp [Storage.loadTasks, Storage.saveTasks, hP.parse_stringify]

/-- A call keeps the durations of the store serializable when those it brings are. -/
theorem jsonSafe_apply (P : Platform) (s : State) (m : Mutation) (hs : JsonSafe s.tasks)
    (hm : m.JsonSafe P) : JsonSafe (s.apply P m).tasks := by
  cases m with
  | addTask nowIso nowMs taskData =>
    intro t ht
    simp only [State.apply, State.addTask, List.mem_append, List.mem_singleton] at ht
    rcases ht with ht | rfl
    · exact hs t ht
    · exact hm
  | updateTask nowIso taskId taskData =>
    simp only [State.apply, State.updateTask]
    split
    · exact hs
    · split
      · exact hs
      · intro t ht
        rcases List.mem_or_eq_of_mem_set ht with ht | rfl
        · exact hs t ht
        · exact hm
  | deleteTask taskId =>
    intro t ht
    exact hs t (List.mem_filter.mp ht).1
  | importTasks jsonString =>
    simp only [State.apply, importTasks_eq]
    cases h : P.jsonParse jsonString with
    | none => exact hs
    | some x =>
      cases x with
      | array ts => exact hm ts h
      | falsy => exact hs
      | truthy => exact hs

/-- What a call does to the store: it leaves it as it is, or it writes the new
sequence through `saveTasks`, or it stores an imported text and holds the array the
text parses to. -/
theorem apply_storage (P : Platform) (s : State) (m : Mutation) :
    s.apply P m = s ∨
    (s.apply P m).storage = Storage.saveTasks P s.storage (s.apply P m).tasks ∨
    ∃ text, (s.apply P m).storage = { campusTasks := some text } ∧
      P.jsonParse text = some (.array (s.apply P m).tasks) := by
  cases m with
  | addTask nowIso nowMs taskData => exact Or.inr (Or.inl rfl)
  | updateTask nowIso taskId taskData =>
    simp only [State.apply, State.updateTask]
    split
    · exact Or.inl rfl
    · split
      · exact Or.inl rfl
      · exact Or.inr (Or.inl rfl)
  | deleteTask taskId => exact Or.inr (Or.inl rfl)
  | importTasks jsonString =>
    simp only [State.apply, importTasks_eq]
    cases h : P.jsonParse jsonString with
    | none => exact Or.inl rfl
    | some x =>
      cases x with
      | array ts => exact Or.inr (Or.inr ⟨jsonString, rfl, h⟩)
      | falsy => exact Or.inl rfl
      | truthy => exact Or.inl rfl

/-- A call keeps the persisted list in step with the in-memory sequence, when the
durations in the store and those the call brings survive serialization. -/
theorem synced_apply {P : Platform} (hP : JsonLaws P) (s : State) (m : Mutation)
    (hs : s.Synced P) (hsafe : JsonSafe s.tasks) (hm : m.JsonSafe P) :
    (s.apply P m).Synced P := by
  have hsafe' := jsonSafe_apply P s m hsafe hm
  rcases apply_storage P s m with h | h | ⟨text, h1, h2⟩
  · rw [h]; exact hs
  · unfold State.Synced
    rw [h, loadTasks_saveTasks hP, map_toJSON_of_jsonSafe hsafe']
  · unfold State.Synced
    rw [h1]
    simp [Storage.loadTasks, h2]

/-- A call keeps the persisted text parsing to the in-memory sequence, under the same
conditions. -/
theorem persisted_apply {P : Platform} (hP : JsonLaws P) (s : State) (m : Mutation)
    (hs : s.Persisted P) (hsafe : JsonSafe s.tasks) (hm : m.JsonSafe P) :
    (s.apply P m).Persisted P := by
  have hsafe' := jsonSafe_apply P s m hsafe hm
  rcases apply_storage P s m with h | h | ⟨text, h1, h2⟩
  · rw [h]; exact hs
  · unfold State.Persisted
    rw [h]
    simp only [Storage.saveTasks]
    exact ⟨hP.stringify_ne_empty _, by rw [hP.parse_stringify, map_toJSON_of_jsonSafe hsafe']⟩
  · unfold State.Persisted
    rw [h1]
    refine ⟨?_, h2⟩
    rintro rfl
    rw [hP.parse_empty] at h2
    cases h2

/-- The invariant of a session whose calls bring serializable durations only. -/
theorem run_invariant {P : Platform} (hP : JsonLaws P) (calls : List Mutation)
    (hcalls : ∀ m ∈ calls, m.JsonSafe P) (s : State) (hs : s.Persisted P)
    (hsafe : JsonSafe s.tasks) :
    (calls.foldl (State.apply P) s).Persisted P ∧
    JsonSafe (calls.foldl (State.apply P) s).tasks := by
  induction calls generalizing s with
  | nil => exact ⟨hs, hsafe⟩
  | cons m calls ih =>
    have hm := hcalls m (List.mem_cons_self m calls)
    exact ih (fun m' hm' => hcalls m' (List.mem_cons_of_mem m hm')) (s.apply P m)
      (persisted_apply hP s m hs hsafe hm) (jsonSafe_apply P s m hsafe hm)

/-- Export followed by import, on a store whose persisted text parses to the in-memory
sequence. -/
theorem importTasks_exportTasks_of_persisted {P : Platform} (hP : JsonLaws P) (s : State)
    (hs : s.Persisted P) :
    (s.importTasks P s.exportTasks).1 = some true ∧
    (s.importTasks P s.exportTasks).2.tasks = s.tasks := by
  unfold State.Persisted at hs
  rw [importTasks_eq]
  unfold State.exportTasks Storage.exportTasks
  cases hc : s.storage.campusTasks with
  | none =>
    rw [hc] at hs
    have hnil : P.jsonParse "[]" = some (.array []) := by
      have := hP.parse_stringify []
      rwa [hP.stringify_nil] at this
    simp [hnil, hs]
  | some text =>
    rw [hc] at hs
    simp [hs.1, hs.2]

/-- Export followed by import right after a write: the store then holds the sequence
as JSON holds it. -/
theorem importTasks_exportTasks_of_saved {P : Platform} (hP : JsonLaws P) (s : State)
    (h : s.storage = Storage.saveTasks P s.storage s.tasks) :
    (s.importTasks P s.exportTasks).2.tasks = s.tasks.map Task.toJSON := by
  rw [importTasks_eq]
  unfold State.exportTasks Storage.exportTasks
  rw [h]
  simp [Storage.saveTasks, hP.stringify_ne_empty, hP.parse_stringify]

/-- The calls of the sample session bring finite durations only. -/
theorem sampleCalls_jsonSafe : ∀ m ∈ sampleCalls, m.JsonSafe refPlatform := by
  intro m hm
  simp only [sampleCalls, List.mem_cons, List.mem_singleton, List.not_mem_nil, or_false] at hm
  rcases hm with rfl | rfl | rfl | rfl
  · intro ts hts
    have h0 : refPlatform.jsonParse "[]" = some (.array []) := by
      have := refPlatform_jsonLaws.parse_stringify []
      rwa [refPlatform_jsonLaws.stringify_nil] at this
    rw [h0] at hts
    cases hts
    intro t ht
    cases ht
  · exact rfl
  · exact rfl
  · trivial

/-- The duration stored in `stateOne` is finite. -/
theorem stateOne_jsonSafe : JsonSafe (stateOne refPlatform).tasks := by
  intro t ht
  simp only [stateOne, State.addTask, State.fresh, List.nil_append, List.mem_singleton] at ht
  subst ht
  exact rfl

/-- In `stateOne` the persisted list deserializes to the in-memory sequence. -/
theorem stateOne_synced : (stateOne refPlatform).Synced refPlatform := by
  unfold State.Synced
  rw [show (stateOne refPlatform).storage
      = Storage.saveTasks refPlatform State.fresh.storage (stateOne refPlatform).tasks from rfl,
    loadTasks_saveTasks refPlatform_jsonLaws, map_toJSON_of_jsonSafe stateOne_jsonSafe]

/-! ## Round trip -/

/-- Claim C7, as amended: for every store state reached from the fresh store through
`addTask` and `updateTask` calls whose numeric duration is neither `NaN` nor an
infinity, `deleteTask` calls, and `importTasks` calls whose records hold no such
duration, `importTasks(exportTasks())` returns `true` and leaves the task sequence
equal, in the same order, to the sequence before the export. -/
theorem export_import_roundtrip (P : Platform) (hP : JsonLaws P) (calls : List Mutation)
    (hcalls : ∀ m ∈ calls, m.JsonSafe P) :
    ((State.run P calls).importTasks P (State.run P calls).exportTasks).1 = some true ∧
    ((State.run P calls).importTasks P (State.run P calls).exportTasks).2.tasks
      = (State.run P calls).tasks :=
  importTasks_exportTasks_of_persisted hP _
    (run_invariant hP calls hcalls State.fresh rfl (fun _ h => by cases h)).1

theorem export_import_roundtrip_witness :
    JsonLaws refPlatform ∧ (∀ m ∈ sampleCalls, m.JsonSafe refPlatform) ∧
    ((State.run refPlatform sampleCalls).importTasks refPlatform
        (State.run refPlatform sampleCalls).exportTasks).1 = some true ∧
    ((State.run refPlatform sampleCalls).importTasks refPlatform
        (State.run refPlatform sampleCalls).exportTasks).2.tasks
      = (State.run refPlatform sampleCalls).tasks :=
  ⟨refPlatform_jsonLaws, sampleCalls_jsonSafe,
    export_import_roundtrip refPlatform refPlatform_jsonLaws sampleCalls sampleCalls_jsonSafe⟩

/-- Claim C7 as stated fails: after `addTask` with a duration that overflows, the store
holds `Infinity`, the persisted text holds `null`, and import of the export leaves
`null` in the store. -/
theorem export_import_roundtrip_overflow :
    ¬ ∀ (P : Platform) (calls : List Mutation), JsonLaws P →
      ((State.run P calls).importTasks P (State.run P calls).exportTasks).1 = some true ∧
      ((State.run P calls).importTasks P (State.run P calls).exportTasks).2.tasks
        = (State.run P calls).tasks := by
  intro h
  have h2 := (h refPlatform [.addTask "2025-03-09T10:00:00.000Z" 1000 longRun]
    refPlatform_jsonLaws).2
  rw [importTasks_exportTasks_of_saved refPlatform_jsonLaws _ rfl] at h2
  revert h2
  simp [State.run, State.apply, State.addTask, State.fresh, Task.toJSON, longRun, refPlatform,
    refParseFloat]
  decide

/-! ## Write-through persistence -/

/-- Claim C8, as amended: if the persisted task list deserializes to the in-memory
sequence before a call to `addTask`, `updateTask`, `deleteTask` or `importTasks`, no
stored duration is `NaN` or an infinity and the call brings no such duration, then
the persisted list deserializes to the in-memory sequence when the call returns, and
again no stored duration is `NaN` or an infinity. A call that fails (`updateTask`
returning `null`, `importTasks` returning `false`) leaves the state, in memory and
persisted, as it was. -/
theorem write_through (P : Platform) (hP : JsonLaws P) (s : State) (m : Mutation)
    (hs : s.Synced P) (hsafe : JsonSafe s.tasks) (hm : m.JsonSafe P) :
    (s.apply P m).Synced P ∧ JsonSafe (s.apply P m).tasks ∧
    (∀ nowIso taskId taskData, (s.updateTask P nowIso taskId taskData).1 = none →
      (s.updateTask P nowIso taskId taskData).2 = s) ∧
    (∀ jsonString, (s.importTasks P jsonString).1 = some false →
      (s.importTasks P jsonString).2 = s) := by
  refine ⟨synced_apply hP s m hs hsafe hm, jsonSafe_apply P s m hsafe hm, ?_, ?_⟩
  · intro nowIso taskId taskData
    unfold State.updateTask
    split
    · intro _; rfl
    · split
      · intro _; rfl
      · intro h; cases h
  · intro jsonString
    rw [importTasks_eq]
    cases h : P.jsonParse jsonString with
    | none => intro _; rfl
    | some x =>
      cases x with
      | array ts => intro h; cases h
      | falsy => intro _; rfl
      | truthy => intro _; rfl

theorem write_through_witness :
    JsonLaws refPlatform ∧ (stateOne refPlatform).Synced refPlatform ∧
    JsonSafe (stateOne refPlatform).tasks ∧
    (Mutation.addTask "2025-03-09T10:05:00.000Z" 301000 buyMilk).JsonSafe refPlatform ∧
    ((stateOne refPlatform).apply refPlatform
        (.addTask "2025-03-09T10:05:00.000Z" 301000 buyMilk)).Synced refPlatform ∧
    JsonSafe ((stateOne refPlatform).apply refPlatform
        (.addTask "2025-03-09T10:05:00.000Z" 301000 buyMilk)).tasks ∧
    (∀ nowIso taskId taskData,
      ((stateOne refPlatform).updateTask refPlatform nowIso taskId taskData).1 = none →
      ((stateOne refPlatform).updateTask refPlatform nowIso taskId taskData).2
        = stateOne refPlatform) ∧
    (∀ jsonString, ((stateOne refPlatform).importTasks refPlatform jsonString).1 = some false →
      ((stateOne refPlatform).importTasks refPlatform jsonString).2 = stateOne refPlatform) :=
  ⟨refPlatform_jsonLaws, stateOne_synced, stateOne_jsonSafe, rfl,
    write_through refPlatform refPlatform_jsonLaws (stateOne refPlatform)
      (.addTask "2025-03-09T10:05:00.000Z" 301000 buyMilk) stateOne_synced stateOne_jsonSafe rfl⟩

/-- Claim C8 as stated fails: on the fresh store nothing is persisted and nothing is in
memory; after `addTask` with a duration that overflows the store holds `Infinity` and
the persisted text deserializes to a record whose duration is `null`. -/
theorem write_through_overflow :
    ¬ ∀ (P : Platform) (s : State) (m : Mutation), JsonLaws P → s.Synced P →
      (s.apply P m).Synced P := by
  intro h
  have h2 := h refPlatform State.fresh (.addTask "2025-03-09T10:00:00.000Z" 1000 longRun)
    refPlatform_jsonLaws rfl
  unfold State.Synced at h2
  rw [show (State.fresh.apply refPlatform (.addTask "2025-03-09T10:00:00.000Z" 1000
      longRun)).storage = Storage.saveTasks refPlatform State.fresh.storage
        (State.fresh.apply refPlatform (.addTask "2025-03-09T10:00:00.000Z" 1000
      longRun)).tasks from rfl, loadTasks_saveTasks refPlatform_jsonLaws] at h2
  revert h2
  simp [State.apply, State.addTask, State.fresh, Task.toJSON, longRun, refPlatform,
    refParseFloat]
  decide

/-! ## Trimming -/

/-- What is left after dropping a leading run satisfies the test exactly when the
whole list does. -/
theorem dropWhile_all_iff {α : Type} (p : α → Bool) (l : List α) :
    (∀ c ∈ l.dropWhile p, p c = true) ↔ ∀ c ∈ l, p c = true := by
  constructor
  · intro h
    by_cases hnil : l.dropWhile p = []
    · exact List.dropWhile_eq_nil_iff.mp hnil
    · have h1 := List.head_dropWhile_not p l hnil
      have h2 := h _ (List.head_mem hnil)
      rw [h2] at h1
      cases h1
  · intro h c hc
    exact h c ((List.dropWhile_suffix p).subset hc)

/-- A text trims to the empty string exactly when it is blank. -/
theorem jsTrim_eq_empty_iff (s : String) : jsTrim s = "" ↔ IsBlank s := by
  unfold jsTrim IsBlank
  rw [← dropWhile_all_iff isJSWhiteSpace s.data]
  constructor
  · intro h
    have h1 : (List.dropWhile isJSWhiteSpace
        (List.dropWhile isJSWhiteSpace s.data).reverse).reverse = [] := congrArg String.data h
    have h2 := List.dropWhile_eq_nil_iff.mp (List.reverse_eq_nil_iff.mp h1)
    exact fun c hc => h2 c (List.mem_reverse.mpr hc)
  · intro h
    have h2 : List.dropWhile isJSWhiteSpace
        (List.dropWhile isJSWhiteSpace s.data).reverse = [] :=
      List.dropWhile_eq_nil_iff.mpr (fun c hc => h c (List.mem_reverse.mp hc))
    rw [h2]
    rfl

/-! ## searchTasks -/

/-- Claim C9: for a query that is empty or holds white space only, `searchTasks`
returns the task list it was given: the same elements in the same order. -/
theorem searchTasks_blank (P : Platform) (tasks : List Task) (query : String)
    (h : IsBlank query) : Search.searchTasks P tasks query = tasks := by
  unfold Search.searchTasks
  rw [if_pos (Or.inr ((jsTrim_eq_empty_iff query).mpr h))]

theorem searchTasks_blank_witness :
    IsBlank "   " ∧
    Search.searchTasks refPlatform (stateOne refPlatform).tasks "   "
      = (stateOne refPlatform).tasks :=
  ⟨by decide, searchTasks_blank refPlatform (stateOne refPlatform).tasks "   " (by decide)⟩

/-- Claim C10: for a query that is not blank, with `term` the query lower-cased and
trimmed, `searchTasks` returns the sub-sequence of the tasks, in their order, for which
the lower-cased title contains `term`, or the tag is present and its lower-casing
contains `term`, or the due-date string contains `term`. The one fact used of
`toLowerCase` is that it maps the empty string to itself. -/
theorem searchTasks_nonblank (P : Platform) (hlower : P.toLowerCase "" = "")
    (tasks : List Task) (query : String) (h : ¬ IsBlank query) :
    Search.searchTasks P tasks query
      = tasks.filter (fun t => decide (Search.Matches P (jsTrim (P.toLowerCase query)) t)) := by
  have h1 : ¬ (query = "" ∨ jsTrim query = "") := by
    rintro (rfl | h2)
    · exact h (fun c hc => by cases hc)
    · exact h ((jsTrim_eq_empty_iff query).mp h2)
  unfold Search.searchTasks
  rw [if_neg h1]
  apply List.filter_congr
  intro t _
  rcases t with ⟨id, title, duration, dueDate, tag, createdAt, updatedAt⟩
  cases tag with
  | none => simp [Search.Matches, includes]
  | some tag =>
    by_cases htag : tag = ""
    · subst htag
      by_cases hterm : (jsTrim (P.toLowerCase query)).data = []
      · simp [Search.Matches, includes, hlower, hterm]
      · simp [Search.Matches, includes, hlower, hterm]
    · simp [Search.Matches, includes, htag]

theorem searchTasks_nonblank_witness :
    refPlatform.toLowerCase "" = "" ∧ ¬ IsBlank " STUDY " ∧
    Search.searchTasks refPlatform (stateOne refPlatform).tasks " STUDY "
      = (stateOne refPlatform).tasks.filter
          (fun t => decide
            (Search.Matches refPlatform (jsTrim (refPlatform.toLowerCase " STUDY ")) t)) :=
  ⟨by decide, by decide,
    searchTasks_nonblank refPlatform (by decide) (stateOne refPlatform).tasks " STUDY "
      (by decide)⟩

/-! ## searchTasks is a filter -/

/-- Claim C11: `searchTasks` is idempotent in its list argument. For every task list
and every query, empty or not, searching the result of a search with the same query
gives that result again. -/
theorem searchTasks_idempotent (P : Platform) (tasks : List Task) (query : String) :
    Search.searchTasks P (Search.searchTasks P tasks query) query
      = Search.searchTasks P tasks query := by
  unfold Search.searchTasks
  split
  · rfl
  · simp only [List.filter_filter, Bool.and_self]

/-! ## regexSearch -/

/-- Claim C12: for a pattern that does not compile as a regular expression,
`regexSearch` returns the task list it was given; the model is total, so nothing is
raised to the caller. -/
theorem regexSearch_invalid (E : RegExpEngine) (tasks : List Task) (pattern : String)
    (h : E.compile pattern "i" = none) : Search.regexSearch E tasks pattern = tasks := by
  unfold Search.regexSearch
  split
  · rfl
  · simp [h]

theorem regexSearch_invalid_witness :
    refRegExp.compile "[" "i" = none ∧
    Search.regexSearch refRegExp (stateOne refPlatform).tasks "[" = (stateOne refPlatform).tasks :=
  ⟨rfl, regexSearch_invalid refRegExp (stateOne refPlatform).tasks "[" rfl⟩

/-! ## highlightMatches -/

/-- The characters `escapeRegExp` escapes are the syntax characters. -/
theorem mem_escapeClass_iff (c : Char) : c ∈ Search.escapeClass ↔ isSyntaxCharacter c = true := by
  simp only [Search.escapeClass, isSyntaxCharacter, List.mem_cons, List.mem_singleton,
    List.not_mem_nil, or_false, decide_eq_true_eq]
  tauto

/-- A text escaped by `escapeRegExp` is a pattern without operators that reads as the
text. -/
theorem readLiteral_escapeChars (s : List Char) :
    readLiteral (Search.escapeChars s) = some s := by
  induction s with
  | nil => rfl
  | cons c cs ih =>
    by_cases hc : c ∈ Search.escapeClass
    · have hs := (mem_escapeClass_iff c).mp hc
      simp [Search.escapeChars, hc, readLiteral, hs, ih]
    · have hs : isSyntaxCharacter c = false := by
        cases h : isSyntaxCharacter c with
        | false => rfl
        | true => exact absurd ((mem_escapeClass_iff c).mpr h) hc
      have hb : c ≠ '\\' := by
        rintro rfl
        exact hc (by decide)
      rw [Search.escapeChars, if_neg hc, readLiteral.eq_def]
      simp [hb, hs, ih]

/-- The reference engine satisfies the laws. -/
theorem refRegExp_laws : RegExpLaws refRegExp where
  literal_group := by
    intro p lit hp hlit
    have hread : readPattern ("(" ++ p ++ ")").data = some (lit, true) := by
      simp [readPattern, hp]
    refine ⟨_, by simp only [refRegExp]; rw [if_pos (by decide), hread]; rfl, ?_⟩
    intro text
    rfl

/-- Claim C13: `highlightMatches` returns the text unchanged when the text is empty or
the query is blank; otherwise it returns the text in which every occurrence of the
trimmed query, read as a literal string, from left to right and without overlap,
letter case aside, stands between `<mark>` and `</mark>` in its original casing, the
other characters being unchanged. The query is a literal: `escapeRegExp` escapes every
syntax character, so the pattern built has no operator. -/
theorem highlightMatches_spec (E : RegExpEngine) (hE : RegExpLaws E) (text query : String) :
    Search.highlightMatches E text query =
      some (if text = "" ∨ IsBlank query then text
        else ⟨markAll E.canonicalize (jsTrim query).data text.data⟩) := by
  unfold Search.highlightMatches
  by_cases hq : IsBlank query
  · have : jsTrim query = "" := (jsTrim_eq_empty_iff query).mpr hq
    simp [this, hq]
  · have h1 : jsTrim query ≠ "" := fun h => hq ((jsTrim_eq_empty_iff query).mp h)
    have h0 : query ≠ "" := by
      rintro rfl
      exact hq (fun c hc => by cases hc)
    by_cases ht : text = ""
    · simp [ht]
    · have hne : (jsTrim query).data ≠ [] := by
        intro h
        exact h1 (String.ext h)
      obtain ⟨re, hre, hrep⟩ := hE.literal_group (Search.escapeRegExp (jsTrim query))
        (jsTrim query).data (readLiteral_escapeChars _) hne
      simp [h0, h1, ht, hq, hre, hrep]

theorem highlightMatches_spec_witness :
    RegExpLaws refRegExp ∧
    Search.highlightMatches refRegExp "Team Meeting" "team"
      = some "<mark>Team</mark> Meeting" ∧
    Search.highlightMatches refRegExp "1+1=2 (a.c or abc)" " A.C "
      = some "1+1=2 (<mark>a.c</mark> or abc)" :=
  ⟨refRegExp_laws, by
    rw [highlightMatches_spec refRegExp refRegExp_laws "Team Meeting" "team"]
    decide, by
    rw [highlightMatches_spec refRegExp refRegExp_laws "1+1=2 (a.c or abc)" " A.C "]
    decide⟩

/-! ## Matching by derivatives -/

namespace RE

theorem lang_nil_iff (r : RE) : r.lang [] ↔ r.nullable = true := by
  induction r with
  | never => simp [lang, nullable]
  | eps => simp [lang, nullable]
  | cls p => simp [lang, nullable]
  | alt a b iha ihb => simp [lang, nullable, iha, ihb]
  | seq a b iha ihb =>
    simp only [lang, nullable, Bool.and_eq_true, ← iha, ← ihb]
    constructor
    · rintro ⟨s₁, s₂, h, h₁, h₂⟩
      obtain ⟨rfl, rfl⟩ := List.append_eq_nil.mp h.symm
      exact ⟨h₁, h₂⟩
    · rintro ⟨h₁, h₂⟩
      exact ⟨[], [], rfl, h₁, h₂⟩
  | star a _ =>
    simp only [lang, nullable, iff_true]
    exact ⟨[], rfl, fun _ h => by cases h⟩

/-- A non-empty text matched by a star starts with a non-empty text matched by the
body. -/
theorem lang_star_cons (a : RE) (c : Char) (s : List Char) :
    (star a).lang (c :: s) ↔
      ∃ s₁ s₂, s = s₁ ++ s₂ ∧ a.lang (c :: s₁) ∧ (star a).lang s₂ := by
  constructor
  · rintro ⟨parts, h, hp⟩
    induction parts with
    | nil => cases h
    | cons p ps ih =>
      cases p with
      | nil =>
        exact ih (by simpa using h) (fun q hq => hp q (List.mem_cons_of_mem _ hq))
      | cons d p =>
        simp only [List.flatten_cons, List.cons_append, List.cons.injEq] at h
        obtain ⟨rfl, rfl⟩ := h
        exact ⟨p, ps.flatten, rfl, hp _ (List.mem_cons_self _ _),
          ps, rfl, fun q hq => hp q (List.mem_cons_of_mem _ hq)⟩
  · rintro ⟨s₁, s₂, rfl, h₁, parts, rfl, hp⟩
    refine ⟨(c :: s₁) :: parts, by simp, ?_⟩
    intro q hq
    rcases List.mem_cons.mp hq with rfl | hq
    · exact h₁
    · exact hp q hq

theorem lang_deriv_iff (r : RE) (c : Char) (s : List Char) :
    (r.deriv c).lang s ↔ r.lang (c :: s) := by
  induction r generalizing s with
  | never => simp [lang, deriv]
  | eps => simp [lang, deriv]
  | cls p =>
    by_cases hp : p c = true
    · simp only [deriv, hp, if_true, lang]
      constructor
      · rintro rfl
        exact ⟨c, rfl, hp⟩
      · rintro ⟨d, h, _⟩
        simp only [List.cons.injEq] at h
        exact h.2
    · simp only [deriv, hp, lang, false_iff]
      rintro ⟨d, h, hd⟩
      simp only [List.cons.injEq] at h
      obtain ⟨rfl, _⟩ := h
      exact hp hd
  | alt a b iha ihb => simp [lang, deriv, iha, ihb]
  | seq a b iha ihb =>
    have key : (seq a b).lang (c :: s) ↔
        (∃ s₁ s₂, s = s₁ ++ s₂ ∧ a.lang (c :: s₁) ∧ b.lang s₂) ∨
        (a.lang [] ∧ b.lang (c :: s)) := by
      constructor
      · rintro ⟨s₁, s₂, h, h₁, h₂⟩
        cases s₁ with
        | nil =>
          simp only [List.nil_append] at h
          subst h
          exact Or.inr ⟨h₁, h₂⟩
        | cons d s₁ =>
          simp only [List.cons_append, List.cons.injEq] at h
          obtain ⟨rfl, rfl⟩ := h
          exact Or.inl ⟨s₁, s₂, rfl, h₁, h₂⟩
      · rintro (⟨s₁, s₂, rfl, h₁, h₂⟩ | ⟨h₁, h₂⟩)
        · exact ⟨c :: s₁, s₂, rfl, h₁, h₂⟩
        · exact ⟨[], c :: s, rfl, h₁, h₂⟩
    rw [key]
    by_cases hn : a.nullable = true
    · simp only [deriv, hn, if_true, lang, iha, ihb, lang_nil_iff, true_and]
    · have : ¬ a.lang [] := fun h => hn ((lang_nil_iff a).mp h)
      simp only [deriv, hn, lang, iha, this, false_and, or_false]
  | star a iha =>
    rw [lang_star_cons]
    simp only [deriv, lang, iha]

/-- The matcher decides the language. -/
theorem fullMatch_iff (r : RE) (s : List Char) : r.fullMatch s = true ↔ r.lang s := by
  induction s generalizing r with
  | nil => simp [fullMatch, lang_nil_iff]
  | cons c s ih => simp [fullMatch, ih, lang_deriv_iff]

/-- A star of a class matches the texts whose characters are all in the class. -/
theorem lang_star_cls (p : Char → Bool) (s : List Char) :
    (star (cls p)).lang s ↔ ∀ c ∈ s, p c = true := by
  induction s with
  | nil =>
    simp only [List.not_mem_nil, false_imp_iff, implies_true, iff_true]
    exact ⟨[], rfl, fun _ h => by cases h⟩
  | cons c s ih =>
    rw [lang_star_cons]
    constructor
    · rintro ⟨s₁, s₂, rfl, ⟨d, h, hd⟩, h₂⟩
      simp only [List.cons.injEq] at h
      obtain ⟨rfl, rfl⟩ := h
      intro e he
      rcases List.mem_cons.mp he with rfl | he
      · exact hd
      · exact ih.mp h₂ e (by simpa using he)
    · intro h
      exact ⟨[], s, rfl, ⟨c, rfl, h c (List.mem_cons_self _ _)⟩,
        ih.mpr (fun e he => h e (List.mem_cons_of_mem _ he))⟩

theorem lang_cls (p : Char → Bool) (s : List Char) :
    (cls p).lang s ↔ ∃ c, s = [c] ∧ p c = true := Iff.rfl

theorem lang_chr (c : Char) (s : List Char) : (chr c).lang s ↔ s = [c] := by
  simp [chr, lang]

theorem lang_seq (a b : RE) (s : List Char) :
    (seq a b).lang s ↔ ∃ s₁ s₂, s = s₁ ++ s₂ ∧ a.lang s₁ ∧ b.lang s₂ := Iff.rfl

theorem lang_alt (a b : RE) (s : List Char) : (alt a b).lang s ↔ a.lang s ∨ b.lang s := Iff.rfl

theorem lang_opt (a : RE) (s : List Char) : (opt a).lang s ↔ a.lang s ∨ s = [] := Iff.rfl

end RE

/-! ## Character classes -/

theorem char_eq_of_toNat_eq {c d : Char} (h : c.toNat = d.toNat) : c = d :=
  Char.ext (UInt32.ext h)

theorem char_eq_iff_toNat (c d : Char) : c = d ↔ c.toNat = d.toNat :=
  ⟨fun h => h ▸ rfl, char_eq_of_toNat_eq⟩

theorem isDigit09_iff (c : Char) : isDigit09 c = true ↔ 48 ≤ c.toNat ∧ c.toNat ≤ 57 := by
  simp [isDigit09]

theorem lang_range (lo hi : Char) (s : List Char) :
    (RE.range lo hi).lang s ↔ ∃ c, s = [c] ∧ lo.toNat ≤ c.toNat ∧ c.toNat ≤ hi.toNat := by
  simp [RE.range, RE.lang]

/-! ## The duration rule -/

/-- The integer part of the duration pattern. -/
theorem lang_duration_int (ip : List Char) :
    (RE.alt (.chr '0') (.seq (.range '1' '9') (.star (.cls isDigit09)))).lang ip ↔
      (ip = ['0'] ∨ (ip ≠ [] ∧ (∀ c ∈ ip, isDigit09 c = true) ∧ ip.head? ≠ some '0')) := by
  rw [RE.lang_alt, RE.lang_chr, RE.lang_seq]
  apply or_congr Iff.rfl
  constructor
  · rintro ⟨s₁, s₂, rfl, h₁, h₂⟩
    obtain ⟨c, rfl, hlo, hhi⟩ := (lang_range _ _ _).mp h₁
    have hc : 49 ≤ c.toNat ∧ c.toNat ≤ 57 := ⟨hlo, hhi⟩
    refine ⟨by simp, ?_, ?_⟩
    · intro d hd
      rcases List.mem_cons.mp hd with rfl | hd
      · exact (isDigit09_iff _).mpr ⟨by omega, hc.2⟩
      · exact (RE.lang_star_cls _ _).mp h₂ d hd
    · simp only [List.singleton_append, List.head?_cons, ne_eq, Option.some.injEq]
      intro h
      rw [char_eq_iff_toNat] at h
      have : ('0' : Char).toNat = 48 := rfl
      omega
  · rintro ⟨hne, hall, hhead⟩
    cases ip with
    | nil => exact absurd rfl hne
    | cons c rest =>
      have hc := (isDigit09_iff c).mp (hall c (List.mem_cons_self _ _))
      have h0 : c.toNat ≠ 48 := by
        intro h
        apply hhead
        simp only [List.head?_cons, Option.some.injEq]
        exact char_eq_of_toNat_eq h
      refine ⟨[c], rest, rfl, (lang_range _ _ _).mpr ⟨c, rfl, ?_, hc.2⟩,
        (RE.lang_star_cls _ _).mpr (fun d hd => hall d (List.mem_cons_of_mem _ hd))⟩
      show 49 ≤ c.toNat
      omega

/-- The fraction part of the duration pattern. -/
theorem lang_duration_frac (fp : List Char) :
    (RE.opt (.seq (.chr '.') (.seq (.range '0' '9') (.opt (.range '0' '9'))))).lang fp ↔
      (fp = [] ∨ ∃ ds, fp = '.' :: ds ∧ (ds.length = 1 ∨ ds.length = 2) ∧
        ∀ c ∈ ds, isDigit09 c = true) := by
  rw [RE.lang_opt, or_comm]
  apply or_congr Iff.rfl
  simp only [RE.lang_seq, RE.lang_chr, RE.lang_opt, lang_range]
  constructor
  · rintro ⟨_, ds, rfl, rfl, s₁, s₂, rfl, ⟨c, rfl, hc⟩, (⟨d, rfl, hd⟩ | rfl)⟩
    · refine ⟨[c, d], rfl, Or.inr rfl, ?_⟩
      intro e he
      simp only [List.mem_cons, List.mem_singleton, List.not_mem_nil, or_false] at he
      rcases he with rfl | rfl
      · exact (isDigit09_iff _).mpr hc
      · exact (isDigit09_iff _).mpr hd
    · refine ⟨[c], rfl, Or.inl rfl, ?_⟩
      intro e he
      simp only [List.mem_singleton] at he
      subst he
      exact (isDigit09_iff _).mpr hc
  · rintro ⟨ds, rfl, hlen, hall⟩
    refine ⟨['.'], ds, rfl, rfl, ?_⟩
    rcases hlen with hlen | hlen
    · obtain ⟨c, rfl⟩ := List.length_eq_one.mp hlen
      exact ⟨[c], [], rfl, ⟨c, rfl, (isDigit09_iff c).mp (hall c (by simp))⟩, Or.inr rfl⟩
    · obtain ⟨c, d, rfl⟩ := List.length_eq_two.mp hlen
      exact ⟨[c], [d], rfl, ⟨c, rfl, (isDigit09_iff c).mp (hall c (by simp))⟩,
        Or.inl ⟨d, rfl, (isDigit09_iff d).mp (hall d (by simp))⟩⟩

/-- The duration pattern matches the duration numerals and nothing else. -/
theorem duration_fullMatch_iff (s : List Char) :
    Validators.patterns.duration.fullMatch s = true ↔ IsDurationNumeral s := by
  rw [RE.fullMatch_iff, Validators.patterns.duration, RE.lang_seq]
  unfold IsDurationNumeral
  simp only [lang_duration_int, lang_duration_frac]

/-- The duration message of `validateTaskForm` depends on the duration only. -/
theorem errors_duration_eq (title duration dueDate tag : String) :
    (Validators.validateTaskForm title duration dueDate tag).errors.duration =
      if duration = "" then some "Duration is required"
      else if !Validators.patterns.duration.fullMatch duration.data then
        some "Duration must be a valid number"
      else none := rfl

/-- Claim C16: `validateTaskForm` reports no duration error exactly when the duration
is a non-negative decimal numeral with at most two fractional digits; the empty string
gets "Duration is required" and every other string "Duration must be a valid number".
`0`, `0.5` and `12.25` are accepted; `-1`, `1.234`, `1.`, `.5` and `1e3` are rejected. -/
theorem validateTaskForm_duration (title duration dueDate tag : String) :
    ((Validators.validateTaskForm title duration dueDate tag).errors.duration = none ↔
      IsDurationNumeral duration.data) ∧
    (duration = "" →
      (Validators.validateTaskForm title duration dueDate tag).errors.duration
        = some "Duration is required") ∧
    (duration ≠ "" → ¬ IsDurationNumeral duration.data →
      (Validators.validateTaskForm title duration dueDate tag).errors.duration
        = some "Duration must be a valid number") ∧
    (∀ d ∈ ["0", "0.5", "12.25"],
      (Validators.validateTaskForm title d dueDate tag).errors.duration = none) ∧
    (∀ d ∈ ["-1", "1.234", "1.", ".5", "1e3"],
      (Validators.validateTaskForm title d dueDate tag).errors.duration
        = some "Duration must be a valid number") := by
  have hnum : ∀ d : String, Validators.patterns.duration.fullMatch d.data = true ↔
      IsDurationNumeral d.data := fun d => duration_fullMatch_iff d.data
  have hempty : ¬ IsDurationNumeral ("" : String).data := by
    rw [← hnum]
    decide
  refine ⟨?_, ?_, ?_, ?_, ?_⟩
  · by_cases hd : duration = ""
    · subst hd
      simp [Validators.validateTaskForm, hempty]
    · by_cases hm : Validators.patterns.duration.fullMatch duration.data = true
      · simp [Validators.validateTaskForm, hd, hm, (hnum duration).mp hm]
      · have hn : ¬ IsDurationNumeral duration.data := fun h => hm ((hnum duration).mpr h)
        simp [Validators.validateTaskForm, hd, hm, hn]
  · rintro rfl
    simp [Validators.validateTaskForm]
  · intro hd hn
    have hm : ¬ Validators.patterns.duration.fullMatch duration.data = true :=
      fun h => hn ((hnum duration).mp h)
    simp [Validators.validateTaskForm, hd, hm]
  · intro d hd
    simp only [List.mem_cons, List.mem_singleton, List.not_mem_nil, or_false] at hd
    rcases hd with rfl | rfl | rfl <;> (rw [errors_duration_eq]; decide)
  · intro d hd
    simp only [List.mem_cons, List.mem_singleton, List.not_mem_nil, or_false] at hd
    rcases hd with rfl | rfl | rfl | rfl | rfl <;> (rw [errors_duration_eq]; decide)

/-! ## The due-date rule -/

theorem digitValue_eq (c : Char) (h : isDigit09 c = true) : digitValue c + 48 = c.toNat := by
  have := (isDigit09_iff c).mp h
  unfold digitValue
  omega

/-- A pair of digits read as a number, for the month and day alternatives. -/
theorem lang_two_digits (lo₁ hi₁ lo₂ hi₂ : Char) (s : List Char) :
    (RE.seq (.range lo₁ hi₁) (.range lo₂ hi₂)).lang s ↔
      ∃ a b, s = [a, b] ∧ lo₁.toNat ≤ a.toNat ∧ a.toNat ≤ hi₁.toNat ∧
        lo₂.toNat ≤ b.toNat ∧ b.toNat ≤ hi₂.toNat := by
  simp only [RE.lang_seq, lang_range]
  constructor
  · rintro ⟨_, _, rfl, ⟨a, rfl, h₁, h₂⟩, b, rfl, h₃, h₄⟩
    exact ⟨a, b, rfl, h₁, h₂, h₃, h₄⟩
  · rintro ⟨a, b, rfl, h₁, h₂, h₃, h₄⟩
    exact ⟨[a], [b], rfl, ⟨a, rfl, h₁, h₂⟩, b, rfl, h₃, h₄⟩

theorem chr_eq_range (c : Char) (s : List Char) :
    (RE.chr c).lang s ↔ (RE.range c c).lang s := by
  rw [RE.lang_chr, lang_range]
  constructor
  · rintro rfl
    exact ⟨c, rfl, le_refl _, le_refl _⟩
  · rintro ⟨d, rfl, h₁, h₂⟩
    rw [char_eq_of_toNat_eq (Nat.le_antisymm h₂ h₁)]

theorem isDigit_range (s : List Char) :
    (RE.cls isDigit09).lang s ↔ (RE.range '0' '9').lang s := by
  rw [RE.lang_cls, lang_range]
  simp only [isDigit09_iff]
  rfl

/-- The month alternative `(0[1-9]|1[0-2])`. -/
theorem lang_month (s : List Char) :
    (RE.alt (.seq (.chr '0') (.range '1' '9')) (.seq (.chr '1') (.range '0' '2'))).lang s ↔
      ∃ a b, s = [a, b] ∧ isDigit09 a = true ∧ isDigit09 b = true ∧
        1 ≤ 10 * digitValue a + digitValue b ∧ 10 * digitValue a + digitValue b ≤ 12 := by
  have e : ∀ c t u, (RE.seq (.chr c) t).lang u ↔ (RE.seq (.range c c) t).lang u := by
    intro c t u
    simp only [RE.lang_seq, chr_eq_range]
  rw [RE.lang_alt, e, e, lang_two_digits, lang_two_digits]
  have h0 : ('0' : Char).toNat = 48 := rfl
  have h1 : ('1' : Char).toNat = 49 := rfl
  have h2 : ('2' : Char).toNat = 50 := rfl
  have h9 : ('9' : Char).toNat = 57 := rfl
  rw [h0, h1, h2, h9]
  constructor
  · rintro (⟨a, b, rfl, ha₁, ha₂, hb₁, hb₂⟩ | ⟨a, b, rfl, ha₁, ha₂, hb₁, hb₂⟩)
    · refine ⟨a, b, rfl, (isDigit09_iff a).mpr (by omega), (isDigit09_iff b).mpr (by omega), ?_⟩
      unfold digitValue
      omega
    · refine ⟨a, b, rfl, (isDigit09_iff a).mpr (by omega), (isDigit09_iff b).mpr (by omega), ?_⟩
      unfold digitValue
      omega
  · rintro ⟨a, b, rfl, ha, hb, hlo, hhi⟩
    have ha' := digitValue_eq a ha
    have hb' := digitValue_eq b hb
    have hb'' := (isDigit09_iff b).mp hb
    by_cases h : digitValue a = 0
    · exact Or.inl ⟨a, b, rfl, by omega, by omega, by omega, by omega⟩
    · exact Or.inr ⟨a, b, rfl, by omega, by omega, by omega, by omega⟩

/-- The day alternative `(0[1-9]|[12]\d|3[01])`. -/
theorem lang_day (s : List Char) :
    (RE.alt (.seq (.chr '0') (.range '1' '9'))
      (.alt (.seq (.range '1' '2') (.cls isDigit09)) (.seq (.chr '3') (.range '0' '1')))).lang s ↔
      ∃ a b, s = [a, b] ∧ isDigit09 a = true ∧ isDigit09 b = true ∧
        1 ≤ 10 * digitValue a + digitValue b ∧ 10 * digitValue a + digitValue b ≤ 31 := by
  have e : ∀ c t u, (RE.seq (.chr c) t).lang u ↔ (RE.seq (.range c c) t).lang u := by
    intro c t u
    simp only [RE.lang_seq, chr_eq_range]
  have e' : ∀ t u, (RE.seq t (.cls isDigit09)).lang u ↔ (RE.seq t (.range '0' '9')).lang u := by
    intro t u
    simp only [RE.lang_seq, isDigit_range]
  rw [RE.lang_alt, RE.lang_alt, e, e, e', lang_two_digits, lang_two_digits, lang_two_digits]
  have h0 : ('0' : Char).toNat = 48 := rfl
  have h1 : ('1' : Char).toNat = 49 := rfl
  have h2 : ('2' : Char).toNat = 50 := rfl
  have h3 : ('3' : Char).toNat = 51 := rfl
  have h9 : ('9' : Char).toNat = 57 := rfl
  rw [h0, h1, h2, h3, h9]
  constructor
  · rintro (⟨a, b, rfl, ha₁, ha₂, hb₁, hb₂⟩ | ⟨a, b, rfl, ha₁, ha₂, hb₁, hb₂⟩ |
      ⟨a, b, rfl, ha₁, ha₂, hb₁, hb₂⟩) <;>
    · refine ⟨a, b, rfl, (isDigit09_iff a).mpr (by omega), (isDigit09_iff b).mpr (by omega), ?_⟩
      unfold digitValue
      omega
  · rintro ⟨a, b, rfl, ha, hb, hlo, hhi⟩
    have ha' := digitValue_eq a ha
    have hb' := digitValue_eq b hb
    have hb'' := (isDigit09_iff b).mp hb
    by_cases h : digitValue a = 0
    · exact Or.inl ⟨a, b, rfl, by omega, by omega, by omega, by omega⟩
    · by_cases h' : digitValue a = 3
      · exact Or.inr (Or.inr ⟨a, b, rfl, by omega, by omega, by omega, by omega⟩)
      · exact Or.inr (Or.inl ⟨a, b, rfl, by omega, by omega, by omega, by omega⟩)

/-- The date pattern matches the texts of the shape `DDDD-MM-DD` and nothing else. -/
theorem date_fullMatch_iff (s : List Char) :
    Validators.patterns.date.fullMatch s = true ↔ IsDateShape s := by
  rw [RE.fullMatch_iff, Validators.patterns.date]
  simp only [RE.seqs, RE.lang_seq, lang_month, lang_day, RE.lang_chr, RE.lang_cls]
  unfold IsDateShape
  constructor
  · rintro ⟨_, _, rfl, ⟨y₁, rfl, hy₁⟩, _, _, rfl, ⟨y₂, rfl, hy₂⟩, _, _, rfl, ⟨y₃, rfl, hy₃⟩,
      _, _, rfl, ⟨y₄, rfl, hy₄⟩, _, _, rfl, rfl, _, _, rfl, ⟨m₁, m₂, rfl, hm₁, hm₂, hm⟩,
      _, _, rfl, rfl, _, _, rfl, ⟨d₁, d₂, rfl, hd₁, hd₂, hd⟩, h⟩
    have h : RE.eps.lang _ := h
    simp only [RE.lang] at h
    subst h
    refine ⟨y₁, y₂, y₃, y₄, m₁, m₂, d₁, d₂, rfl, ?_, hm.1, hm.2, hd.1, hd.2⟩
    intro c hc
    simp only [List.mem_cons, List.mem_singleton, List.not_mem_nil, or_false] at hc
    rcases hc with rfl | rfl | rfl | rfl | rfl | rfl | rfl | rfl <;> assumption
  · rintro ⟨y₁, y₂, y₃, y₄, m₁, m₂, d₁, d₂, rfl, hall, hm₁, hm₂, hd₁, hd₂⟩
    have hy₁ := hall y₁ (by simp)
    have hy₂ := hall y₂ (by simp)
    have hy₃ := hall y₃ (by simp)
    have hy₄ := hall y₄ (by simp)
    exact ⟨[y₁], _, rfl, ⟨y₁, rfl, hy₁⟩, [y₂], _, rfl, ⟨y₂, rfl, hy₂⟩, [y₃], _, rfl,
      ⟨y₃, rfl, hy₃⟩, [y₄], _, rfl, ⟨y₄, rfl, hy₄⟩, ['-'], _, rfl, rfl, [m₁, m₂], _, rfl,
      ⟨m₁, m₂, rfl, hall m₁ (by simp), hall m₂ (by simp), hm₁, hm₂⟩, ['-'], _, rfl, rfl,
      [d₁, d₂], [], rfl, ⟨d₁, d₂, rfl, hall d₁ (by simp), hall d₂ (by simp), hd₁, hd₂⟩, rfl⟩

/-- The due-date message of `validateTaskForm` depends on the due date only. -/
theorem errors_dueDate_eq (title duration dueDate tag : String) :
    (Validators.validateTaskForm title duration dueDate tag).errors.dueDate =
      if dueDate = "" then some "Due date is required"
      else if !Validators.patterns.date.fullMatch dueDate.data then
        some "Due date must be in YYYY-MM-DD format"
      else none := rfl

/-- Claim C17: `validateTaskForm` reports no dueDate error exactly when the due date
has the shape `DDDD-MM-DD` with four digits, a month from 01 to 12 and a day from 01
to 31; the day is not checked against the month, so `2025-02-30` is accepted; and
`validateTaskForm("Study", "2.5", "2025-13-40", "")` is invalid, with a dueDate error
and no other. -/
theorem validateTaskForm_dueDate (title duration dueDate tag : String) :
    ((Validators.validateTaskForm title duration dueDate tag).errors.dueDate = none ↔
      IsDateShape dueDate.data) ∧
    (Validators.validateTaskForm title duration "2025-02-30" tag).errors.dueDate = none ∧
    Validators.validateTaskForm "Study" "2.5" "2025-13-40" "" =
      { isValid := false
        errors :=
          { title := none
            duration := none
            dueDate := some "Due date must be in YYYY-MM-DD format"
            tag := none } } := by
  refine ⟨?_, ?_, ?_⟩
  · rw [errors_dueDate_eq, ← date_fullMatch_iff]
    by_cases hd : dueDate = ""
    · subst hd
      simp only [if_true]
      decide
    · by_cases hm : Validators.patterns.date.fullMatch dueDate.data = true
      · simp [hd, hm]
      · simp [hd, hm]
  · rw [errors_dueDate_eq]
    decide
  · decide

/-! ## The title rule -/

/-- Claim C14, at the input where the code departs from it: the title
"Plan" and "week" with the line separator U+2028 between them neither starts nor
ends with white space, and `validateTaskForm` reports "Title cannot have leading or
trailing spaces" for it. -/
theorem validateTaskForm_title_line_separator :
    (Validators.validateTaskForm "Plan\u2028week" "2" "2025-03-10" "").errors.title
      = some "Title cannot have leading or trailing spaces" ∧
    "Plan\u2028week".data.head? = some 'P' ∧ isJSWhiteSpace 'P' = false ∧
    "Plan\u2028week".data.getLast? = some 'k' ∧ isJSWhiteSpace 'k' = false := by
  decide

theorem isJSWhiteSpace_of_isLineTerminator (c : Char) (h : isLineTerminator c = true) :
    isJSWhiteSpace c = true := by
  simp only [isLineTerminator, Bool.or_eq_true, beq_iff_eq] at h
  simp only [isJSWhiteSpace, Bool.or_eq_true, beq_iff_eq, Bool.and_eq_true, decide_eq_true_eq]
  omega

/-- The title pattern matches the texts that start and end with a character that is
not white space and hold no line terminator. -/
theorem title_fullMatch_iff (s : List Char) :
    Validators.patterns.title.fullMatch s = true ↔
      (∃ a, s.head? = some a ∧ isJSWhiteSpace a = false) ∧
      (∃ b, s.getLast? = some b ∧ isJSWhiteSpace b = false) ∧
      ∀ c ∈ s, isLineTerminator c = false := by
  have hlt : ∀ c, isJSWhiteSpace c = false → isLineTerminator c = false := by
    intro c hc
    cases h : isLineTerminator c with
    | false => rfl
    | true => rw [isJSWhiteSpace_of_isLineTerminator c h] at hc; cases hc
  rw [RE.fullMatch_iff, Validators.patterns.title]
  simp only [RE.lang_seq, RE.lang_opt, RE.lang_cls, RE.lang_star_cls, Bool.not_eq_true',
    Bool.not_eq_true]
  constructor
  · rintro ⟨_, _, rfl, ⟨a, rfl, ha⟩, (⟨mid, _, rfl, hmid, b, rfl, hb⟩ | rfl)⟩
    · refine ⟨⟨a, rfl, ha⟩, ⟨b, List.getLast?_concat (a :: mid), hb⟩, ?_⟩
      intro c hc
      simp only [List.singleton_append, List.mem_cons, List.mem_append, List.not_mem_nil,
        or_false] at hc
      rcases hc with rfl | hc | rfl
      · exact hlt _ ha
      · exact hmid c hc
      · exact hlt _ hb
    · refine ⟨⟨a, rfl, ha⟩, ⟨a, rfl, ha⟩, ?_⟩
      intro c hc
      simp only [List.append_nil, List.mem_singleton] at hc
      subst hc
      exact hlt _ ha
  · rintro ⟨⟨a, ha, haw⟩, ⟨b, hb, hbw⟩, hall⟩
    cases s with
    | nil => cases ha
    | cons a' rest =>
      simp only [List.head?_cons, Option.some.injEq] at ha
      subst ha
      refine ⟨[a'], rest, rfl, ⟨a', rfl, haw⟩, ?_⟩
      rcases List.eq_nil_or_concat rest with rfl | ⟨mid, b', rfl⟩
      · exact Or.inr rfl
      · left
        rw [List.concat_eq_append] at hb hall ⊢
        have hb' : b' = b := by
          rw [show a' :: (mid ++ [b']) = (a' :: mid) ++ [b'] from rfl,
            List.getLast?_concat] at hb
          exact Option.some.inj hb
        subst hb'
        exact ⟨mid, [b'], rfl, fun c hc => hall c (by simp [hc]), b', rfl, hbw⟩

/-! ## The duplicate-word rule -/

theorem take_append_length {α : Type} (a b : List α) : (a ++ b).take a.length = a := by
  simp

theorem drop_append_length {α : Type} (a b : List α) : (a ++ b).drop a.length = b := by
  simp

/-- The pattern `(\w+)\s+\1\b` matches at the head of a text exactly when the text
starts with a run of word characters, white space, and the same run again, with a word
boundary behind it. -/
theorem duplicateWordsHere_iff (rest : List Char) :
    Validators.patterns.duplicateWordsHere rest = true ↔
      ∃ word sp post, rest = word ++ sp ++ word ++ post ∧
        word ≠ [] ∧ (∀ c ∈ word, isWordChar c = true) ∧
        sp ≠ [] ∧ (∀ c ∈ sp, isJSWhiteSpace c = true) ∧
        wordBoundary word.getLast? post.head? = true := by
  unfold Validators.patterns.duplicateWordsHere
  simp only [List.any_eq_true, List.mem_range, Bool.and_eq_true, List.all_eq_true,
    List.isPrefixOf_iff_prefix]
  constructor
  · rintro ⟨i, hi, hword, j, hj, ⟨hsp, ⟨post, hpost⟩⟩, hb⟩
    have hlen : (rest.take (i + 1)).length = i + 1 := by
      rw [List.length_take]; omega
    have hlen' : ((rest.drop (i + 1)).take (j + 1)).length = j + 1 := by
      rw [List.length_take]; omega
    refine ⟨rest.take (i + 1), (rest.drop (i + 1)).take (j + 1), post, ?_, ?_, hword, ?_, hsp, ?_⟩
    · rw [List.append_assoc, List.append_assoc, hpost, List.take_append_drop,
        List.take_append_drop]
    · intro h; rw [h] at hlen; cases hlen
    · intro h; rw [h] at hlen'; cases hlen'
    · rw [← hpost, drop_append_length] at hb
      exact hb
  · rintro ⟨word, sp, post, rfl, hword, hw, hsp, hs, hb⟩
    have hwl : 0 < word.length := List.length_pos.mpr hword
    have hsl : 0 < sp.length := List.length_pos.mpr hsp
    have e₁ : word.length - 1 + 1 = word.length := by omega
    have e₂ : sp.length - 1 + 1 = sp.length := by omega
    refine ⟨word.length - 1, by simp only [List.length_append]; omega, ?_,
      sp.length - 1, ?_, ⟨?_, ?_⟩, ?_⟩
    · rw [e₁, List.append_assoc, List.append_assoc, take_append_length]
      exact hw
    · rw [e₁, List.append_assoc, List.append_assoc, drop_append_length]
      simp only [List.length_append]; omega
    · rw [e₁, e₂, List.append_assoc, List.append_assoc, drop_append_length,
        take_append_length]
      exact hs
    · rw [e₁, e₂, List.append_assoc, List.append_assoc, drop_append_length,
        drop_append_length, take_append_length]
      exact ⟨post, rfl⟩
    · rw [e₁, e₂, List.append_assoc, List.append_assoc, drop_append_length,
        drop_append_length, take_append_length, drop_append_length]
      exact hb

/-- The search of the pattern from each position: some position has a word boundary
in front of it and a match at it. -/
theorem duplicateWordsFrom_iff (before : Option Char) (s : List Char) :
    Validators.patterns.duplicateWordsFrom before s = true ↔
      ∃ pre c rest, s = pre ++ c :: rest ∧
        wordBoundary (pre.getLast?.or before) (some c) = true ∧
        Validators.patterns.duplicateWordsHere (c :: rest) = true := by
  induction s generalizing before with
  | nil =>
    simp only [Validators.patterns.duplicateWordsFrom, Bool.false_eq_true, false_iff]
    rintro ⟨pre, c, rest, h, _⟩
    cases pre <;> cases h
  | cons d s ih =>
    simp only [Validators.patterns.duplicateWordsFrom, Bool.or_eq_true, Bool.and_eq_true, ih]
    constructor
    · rintro (⟨hb, hh⟩ | ⟨pre, c, rest, rfl, hb, hh⟩)
      · exact ⟨[], d, s, rfl, hb, hh⟩
      · refine ⟨d :: pre, c, rest, rfl, ?_, hh⟩
        cases pre with
        | nil => exact hb
        | cons e pre =>
          rw [show (d :: e :: pre).getLast? = (e :: pre).getLast? from List.getLast?_cons_cons]
          cases hl : (e :: pre).getLast? with
          | none => simp at hl
          | some x => rw [hl] at hb; exact hb
    · rintro ⟨pre, c, rest, h, hb, hh⟩
      cases pre with
      | nil =>
        simp only [List.nil_append, List.cons.injEq] at h
        obtain ⟨rfl, rfl⟩ := h
        exact Or.inl ⟨hb, hh⟩
      | cons e pre =>
        simp only [List.cons_append, List.cons.injEq] at h
        obtain ⟨rfl, rfl⟩ := h
        refine Or.inr ⟨pre, c, rest, rfl, ?_, hh⟩
        cases pre with
        | nil => exact hb
        | cons f pre =>
          rw [show (d :: f :: pre).getLast? = (f :: pre).getLast? from
            List.getLast?_cons_cons] at hb
          cases hl : (f :: pre).getLast? with
          | none => simp at hl
          | some x => rw [hl] at hb; exact hb

/-- The pattern `/\b(\w+)\s+\1\b/` is found in a text exactly when the text holds a
repeated whole word, word characters being those of the class `\w`. -/
theorem duplicateWords_iff (text : String) :
    Validators.patterns.duplicateWords text = true ↔ HasRepeatedWord isWordChar text.data := by
  unfold Validators.patterns.duplicateWords HasRepeatedWord
  rw [duplicateWordsFrom_iff]
  simp only [duplicateWordsHere_iff, Option.or_none]
  constructor
  · rintro ⟨pre, c, rest, h, hb, word, sp, post, hrest, hword, hw, hsp, hs, hb'⟩
    refine ⟨pre, word, sp, post, ?_, hword, hw, hsp, hs, ?_, ?_⟩
    · rw [h, hrest]
      simp only [List.append_assoc]
    · intro x hx
      cases word with
      | nil => exact absurd rfl hword
      | cons y word =>
        simp only [List.cons_append, List.cons.injEq] at hrest
        obtain ⟨rfl, _⟩ := hrest
        have hy := hw c (List.mem_cons_self _ _)
        rw [hx] at hb
        simp only [wordBoundary, Option.any_some, hy] at hb
        cases hxw : isWordChar x with
        | false => rfl
        | true => rw [hxw] at hb; cases hb
    · intro x hx
      have hlast : ∃ y, word.getLast? = some y ∧ isWordChar y = true := by
        refine ⟨word.getLast hword, List.getLast?_eq_getLast _ hword, hw _ (List.getLast_mem _)⟩
      obtain ⟨y, hy, hyw⟩ := hlast
      rw [hy, hx] at hb'
      simp only [wordBoundary, Option.any_some, hyw] at hb'
      cases hxw : isWordChar x with
      | false => rfl
      | true => rw [hxw] at hb'; cases hb'
  · rintro ⟨pre, word, sp, post, h, hword, hw, hsp, hs, hpre, hpost⟩
    cases word with
    | nil => exact absurd rfl hword
    | cons c word =>
      have hc := hw c (List.mem_cons_self _ _)
      refine ⟨pre, c, word ++ sp ++ (c :: word) ++ post, ?_, ?_, c :: word, sp, post, ?_,
        hword, hw, hsp, hs, ?_⟩
      · rw [h]
        simp only [List.append_assoc, List.cons_append]
      · cases hl : pre.getLast? with
        | none => simp [wordBoundary, hc]
        | some x => simp [wordBoundary, hc, hpre x hl]
      · simp only [List.append_assoc, List.cons_append]
      · have hlast : ∃ y, (c :: word).getLast? = some y ∧ isWordChar y = true :=
          ⟨(c :: word).getLast hword, List.getLast?_eq_getLast _ hword,
            hw _ (List.getLast_mem _)⟩
        obtain ⟨y, hy, hyw⟩ := hlast
        rw [hy]
        cases hh : post.head? with
        | none => simp [wordBoundary, hyw]
        | some x => simp [wordBoundary, hyw, hpost x hh]

/-- The title message of `validateTaskForm` depends on the title only. -/
theorem errors_title_eq (title duration dueDate tag : String) :
    (Validators.validateTaskForm title duration dueDate tag).errors.title =
      if title = "" then some "Title is required"
      else if !Validators.patterns.title.fullMatch title.data then
        some "Title cannot have leading or trailing spaces"
      else if Validators.patterns.duplicateWords title then
        some "Title contains duplicate words"
      else none := rfl

/-- A form with a title message is not valid. -/
theorem isValid_false_of_title (title duration dueDate tag : String) (m : String)
    (h : (Validators.validateTaskForm title duration dueDate tag).errors.title = some m) :
    (Validators.validateTaskForm title duration dueDate tag).isValid = false := by
  have e : (Validators.validateTaskForm title duration dueDate tag).isValid =
      ((Validators.validateTaskForm title duration dueDate tag).errors.title.isNone &&
        (Validators.validateTaskForm title duration dueDate tag).errors.duration.isNone &&
        (Validators.validateTaskForm title duration dueDate tag).errors.dueDate.isNone &&
        (Validators.validateTaskForm title duration dueDate tag).errors.tag.isNone) := rfl
  rw [e, h]
  rfl

/-- Claim C15, as amended: `validateTaskForm` is invalid with the title error "Title
contains duplicate words" exactly when the title neither starts nor ends with white
space, holds no line terminator (line feed, carriage return, U+2028 or U+2029), and
holds a whole word, a maximal run of the ASCII letters, the digits and the
underscore, followed after one or more white space characters only by the same whole
word with the same letter case. "Study Study" is invalid with that error; "Study
study" and "Study Studying" are not flagged; "the" and "the" with the line separator
U+2028 between them gets the error on leading and trailing spaces instead. -/
theorem validateTaskForm_duplicateWords (title duration dueDate tag : String) :
    ((Validators.validateTaskForm title duration dueDate tag).errors.title
        = some "Title contains duplicate words" ↔
      (∃ a, title.data.head? = some a ∧ isJSWhiteSpace a = false) ∧
      (∃ b, title.data.getLast? = some b ∧ isJSWhiteSpace b = false) ∧
      (∀ c ∈ title.data, isLineTerminator c = false) ∧
      HasRepeatedWord isWordChar title.data) ∧
    ((Validators.validateTaskForm title duration dueDate tag).errors.title
        = some "Title contains duplicate words" →
      (Validators.validateTaskForm title duration dueDate tag).isValid = false) ∧
    Validators.validateTaskForm "Study Study" "2" "2025-03-10" "" =
      { isValid := false
        errors :=
          { title := some "Title contains duplicate words"
            duration := none
            dueDate := none
            tag := none } } ∧
    (Validators.validateTaskForm "Study study" "2" "2025-03-10" "").errors.title = none ∧
    (Validators.validateTaskForm "Study Studying" "2" "2025-03-10" "").errors.title = none ∧
    (Validators.validateTaskForm "the\u2028the" "2" "2025-03-10" "").errors.title
      = some "Title cannot have leading or trailing spaces" := by
  refine ⟨?_, isValid_false_of_title _ _ _ _ _, by decide, by decide, by decide, by decide⟩
  rw [errors_title_eq, ← duplicateWords_iff, ← and_assoc, ← and_assoc,
    and_assoc (a := ∃ a, title.data.head? = some a ∧ isJSWhiteSpace a = false),
    ← title_fullMatch_iff]
  by_cases hne : title = ""
  · subst hne
    have h : Validators.patterns.title.fullMatch ("" : String).data = false := by decide
    simp [h]
  · by_cases hm : Validators.patterns.title.fullMatch title.data = true
    · by_cases hd : Validators.patterns.duplicateWords title = true
      · simp [hne, hm, hd]
      · simp [hne, hm, hd]
    · simp [hne, hm]

/-- Claim C15 as stated fails, whichever letters make a word. If they are all the
letters there are: in "café café" the word "café" is followed by itself, and
`validateTaskForm` reports no title error, the class `\w` holding the letters of ASCII
only. If they are those of ASCII: "the" and "the" with the line separator U+2028
between them neither starts nor ends with white space and repeats a whole word after
white space, and the error reported is the one on leading and trailing spaces. -/
theorem validateTaskForm_duplicateWords_fails :
    (¬ ∀ title : String, title ≠ "" →
      (∃ a, title.data.head? = some a ∧ isJSWhiteSpace a = false) →
      (∃ b, title.data.getLast? = some b ∧ isJSWhiteSpace b = false) →
      ((Validators.validateTaskForm title "2" "2025-03-10" "").errors.title
          = some "Title contains duplicate words" ↔
        HasRepeatedWord isLetterDigitUnderscore title.data)) ∧
    (¬ ∀ title : String, title ≠ "" →
      (∃ a, title.data.head? = some a ∧ isJSWhiteSpace a = false) →
      (∃ b, title.data.getLast? = some b ∧ isJSWhiteSpace b = false) →
      ((Validators.validateTaskForm title "2" "2025-03-10" "").errors.title
          = some "Title contains duplicate words" ↔
        HasRepeatedWord isWordChar title.data)) := by
  constructor
  · intro h
    have h1 := h "café café" (by decide) ⟨'c', by decide, by decide⟩ ⟨'é', by decide, by decide⟩
    have h2 : HasRepeatedWord isLetterDigitUnderscore ("café café" : String).data :=
      ⟨[], "café".data, [' '], [], rfl, by decide, by decide, by decide, by decide,
        by simp, by simp⟩
    have h3 := h1.mpr h2
    revert h3
    decide
  · intro h
    have h1 := h "the\u2028the" (by decide) ⟨'t', by decide, by decide⟩
      ⟨'e', by decide, by decide⟩
    have h2 : HasRepeatedWord isWordChar ("the\u2028the" : String).data :=
      ⟨[], "the".data, ['\u2028'], [], rfl, by decide, by decide, by decide, by decide,
        by simp, by simp⟩
    have h3 := h1.mpr h2
    revert h3
    decide

/-! ## validateTaskObject -/

/-- The tag message of `validateTaskForm` depends on the tag only. -/
theorem errors_tag_eq (title duration dueDate tag : String) :
    (Validators.validateTaskForm title duration dueDate tag).errors.tag =
      if tag ≠ "" ∧ !Validators.patterns.tag.fullMatch tag.data then
        some "Tag must contain only letters, spaces, and hyphens"
      else none := rfl

/-- The reference conversion writes zero as `0`. -/
theorem refCoercions_zero : refCoercions.numberToString 0 = "0" := by
  simp [refCoercions, refNumberToString]

/-- The text `undefined` is no duration. -/
theorem duration_undefined :
    Validators.patterns.duration.fullMatch ("undefined" : String).data = false := by decide

/-- Claim C18: `validateTaskObject` accepts a record with a truthy id exactly when
`validateTaskForm`, given the title of the record, its duration converted to a
string, its due date and its tag (the empty text for a missing tag), reports no
error for the duration, the due date and the tag, and for the title none or the one
on duplicate words. A duration that is the number 0 is accepted although it is falsy,
and a stored title such as "Study Study" is accepted. -/
theorem validateTaskObject_iff (C : Coercions) (task : Task) (hid : task.id ≠ "") :
    (Validators.validateTaskObject C task = true ↔
      ((Validators.validateTaskForm task.title (task.duration.toStr C) task.dueDate
            (task.tag.getD "")).errors.title = none ∨
        (Validators.validateTaskForm task.title (task.duration.toStr C) task.dueDate
            (task.tag.getD "")).errors.title = some "Title contains duplicate words") ∧
      (Validators.validateTaskForm task.title (task.duration.toStr C) task.dueDate
          (task.tag.getD "")).errors.duration = none ∧
      (Validators.validateTaskForm task.title (task.duration.toStr C) task.dueDate
          (task.tag.getD "")).errors.dueDate = none ∧
      (Validators.validateTaskForm task.title (task.duration.toStr C) task.dueDate
          (task.tag.getD "")).errors.tag = none) ∧
    (C.numberToString 0 = "0" →
      Validators.validateTaskObject C { task with
        title := "Read notes", duration := .num (.fin 0), dueDate := "2025-03-10",
        tag := some "Study" } = true) ∧
    Validators.validateTaskObject C { task with
        title := "Study Study", duration := .str "2", dueDate := "2025-03-10",
        tag := none } = true := by
  refine ⟨?_, ?_, ?_⟩
  · rw [errors_title_eq, errors_duration_eq, errors_dueDate_eq, errors_tag_eq,
      Validators.validateTaskObject]
    by_cases ht : task.title = ""
    · simp [ht]
    by_cases hdd : task.dueDate = ""
    · simp [hdd]
    by_cases hu : task.duration = .undefined
    · have h := duration_undefined
      simp [hu, JSVal.toStr, h]
    by_cases hds : task.duration.toStr C = ""
    · have h : Validators.patterns.duration.fullMatch ([] : List Char) = false := by decide
      simp [hds, h]
    by_cases h1 : Validators.patterns.title.fullMatch task.title.data = true
    · by_cases h2 : Validators.patterns.duration.fullMatch (task.duration.toStr C).data = true
      · by_cases h3 : Validators.patterns.date.fullMatch task.dueDate.data = true
        · cases htag : task.tag with
          | none =>
            by_cases h4 : Validators.patterns.duplicateWords task.title = true <;>
              simp [hid, ht, hdd, hu, hds, h1, h2, h3, h4]
          | some g =>
            by_cases h5 : g = ""
            · by_cases h4 : Validators.patterns.duplicateWords task.title = true <;>
                simp [hid, ht, hdd, hu, hds, h1, h2, h3, h4, h5]
            · by_cases h6 : Validators.patterns.tag.fullMatch g.data = true
              · by_cases h4 : Validators.patterns.duplicateWords task.title = true <;>
                  simp [hid, ht, hdd, hu, hds, h1, h2, h3, h4, h5, h6]
              · simp [hid, ht, hdd, hu, hds, h1, h2, h3, h5, h6]
        · simp [hid, ht, hdd, hu, hds, h1, h2, h3]
      · simp [hid, ht, hdd, hu, hds, h1, h2]
    · simp [hid, ht, hdd, hu, hds, h1]
  · intro h0
    have e1 : Validators.patterns.title.fullMatch ("Read notes" : String).data = true := by
      decide
    have e2 : Validators.patterns.duration.fullMatch ("0" : String).data = true := by decide
    have e3 : Validators.patterns.date.fullMatch ("2025-03-10" : String).data = true := by
      decide
    have e4 : Validators.patterns.tag.fullMatch ("Study" : String).data = true := by decide
    simp [Validators.validateTaskObject, JSVal.toStr, hid, h0, e1, e2, e3, e4]
  · have e1 : Validators.patterns.title.fullMatch ("Study Study" : String).data = true := by
      decide
    have e2 : Validators.patterns.duration.fullMatch ("2" : String).data = true := by decide
    have e3 : Validators.patterns.date.fullMatch ("2025-03-10" : String).data = true := by
      decide
    simp [Validators.validateTaskObject, JSVal.toStr, hid, e1, e2, e3]

theorem validateTaskObject_iff_witness :
    studyStudy.id ≠ "" ∧
    Validators.validateTaskObject refCoercions studyStudy = true ∧
    (Validators.validateTaskForm studyStudy.title (studyStudy.duration.toStr refCoercions)
      studyStudy.dueDate (studyStudy.tag.getD "")).errors
      = { title := some "Title contains duplicate words"
          duration := none
          dueDate := none
          tag := none } := by
  have h := (validateTaskObject_iff refCoercions studyStudy (by decide)).1
  have e : studyStudy.duration.toStr refCoercions = "0" := refCoercions_zero
  have hf : (Validators.validateTaskForm studyStudy.title "0" studyStudy.dueDate
      (studyStudy.tag.getD "")).errors
      = { title := some "Title contains duplicate words"
          duration := none
          dueDate := none
          tag := none } := by decide
  rw [e] at h ⊢
  refine ⟨by decide, h.mpr ?_, hf⟩
  rw [hf]
  exact ⟨Or.inr rfl, rfl, rfl, rfl⟩

/-! ## validateSettings -/

/-- The comparison `n >= 0` holds for `Infinity` and for the finite numbers from zero
on. -/
theorem ge_zero_iff (n : JSNum) :
    n.ge (.fin 0) = true ↔ n = .posInf ∨ ∃ q : ℚ, n = .fin q ∧ 0 ≤ q := by
  cases n <;> simp [JSNum.ge, JSNum.isNaN, JSNum.lt]

/-- The comparison `n >= 0` is what `validateSettings` asks of the target. -/
theorem ge_zero_eq (n : JSNum) :
    n.ge (.fin 0) = true ↔ ¬ (n.isNaN = true ∨ n.lt (.fin 0) = true) := by
  cases n <;> simp [JSNum.ge, JSNum.isNaN, JSNum.lt]

/-- Claim C19, as amended: `validateSettings` returns true exactly when the default
unit is missing or falsy (`undefined`, `null`, `false`, `0`, `NaN` or the empty
string) or is one of "minutes" and "hours", and the daily target is missing or
converts to a number that is not negative. A record with an empty default unit is
accepted; a record with any other text for the unit, or with a target that converts
to `NaN` or to a negative number, is rejected. -/
theorem validateSettings_iff (C : Coercions) (settings : Settings) :
    (Validators.validateSettings C settings = true ↔
      (settings.defaultUnit.truthy = false ∨ settings.defaultUnit = .str "minutes" ∨
        settings.defaultUnit = .str "hours") ∧
      (settings.dailyTarget = .undefined ∨
        (settings.dailyTarget.toNumber C).ge (.fin 0) = true)) ∧
    (settings.defaultUnit.truthy = false ↔
      settings.defaultUnit = .undefined ∨ settings.defaultUnit = .null ∨
      settings.defaultUnit = .bool false ∨ settings.defaultUnit = .num (.fin 0) ∨
      settings.defaultUnit = .num .nan ∨ settings.defaultUnit = .str "") ∧
    Validators.validateSettings C { defaultUnit := .str "", dailyTarget := .undefined }
      = true ∧
    Validators.validateSettings C { defaultUnit := .str "hours", dailyTarget := .num (.fin 120) }
      = true ∧
    Validators.validateSettings C { defaultUnit := .str "days", dailyTarget := .undefined }
      = false ∧
    Validators.validateSettings C { defaultUnit := .undefined, dailyTarget := .num (.fin (-1)) }
      = false ∧
    Validators.validateSettings C { defaultUnit := .undefined, dailyTarget := .num .nan }
      = false := by
  refine ⟨?_, ?_, ?_, ?_, ?_, ?_, ?_⟩
  · rw [ge_zero_eq, Validators.validateSettings]
    by_cases h1 : settings.defaultUnit.truthy = true <;>
    by_cases h2 : settings.defaultUnit = .str "minutes" <;>
    by_cases h3 : settings.defaultUnit = .str "hours" <;>
    by_cases h4 : settings.dailyTarget = .undefined <;>
    by_cases h5 : (settings.dailyTarget.toNumber C).isNaN = true <;>
    by_cases h6 : (settings.dailyTarget.toNumber C).lt (.fin 0) = true <;>
    simp [h1, h2, h3, h4, h5, h6]
  · cases h : settings.defaultUnit with
    | undefined => simp [JSVal.truthy]
    | null => simp [JSVal.truthy]
    | bool b => simp [JSVal.truthy]
    | num n => cases n <;> simp [JSVal.truthy]
    | str s => simp [JSVal.truthy]
  · simp [Validators.validateSettings, JSVal.truthy]
  · simp [Validators.validateSettings, JSVal.truthy, JSVal.toNumber, JSNum.isNaN, JSNum.lt]
  · simp [Validators.validateSettings, JSVal.truthy]
  · simp [Validators.validateSettings, JSVal.truthy, JSVal.toNumber, JSNum.isNaN, JSNum.lt]
  · simp [Validators.validateSettings, JSVal.truthy, JSVal.toNumber, JSNum.isNaN, JSNum.lt]

/-- Claim C19 as stated fails on a default unit that is present and falsy: the
record whose default unit is the empty string, which is neither missing nor one of
"minutes" and "hours", is accepted. -/
theorem validateSettings_empty_unit :
    ¬ ∀ (C : Coercions) (settings : Settings),
      (Validators.validateSettings C settings = true ↔
        (settings.defaultUnit = .undefined ∨ settings.defaultUnit = .str "minutes" ∨
          settings.defaultUnit = .str "hours") ∧
        (settings.dailyTarget = .undefined ∨
          (settings.dailyTarget.toNumber C).ge (.fin 0) = true)) := by
  intro h
  have h1 := (h refCoercions { defaultUnit := .str "", dailyTarget := .undefined }).mp
    (by simp [Validators.validateSettings, JSVal.truthy])
  revert h1
  decide

/-! ## The title rule, exactly -/

/-- For every non-empty title, `validateTaskForm` reports "Title cannot have leading
or trailing spaces" exactly when the first or the last character of the title is
white space or the title holds a line terminator (line feed, carriage return, U+2028
or U+2029) anywhere. -/
theorem validateTaskForm_title_rule (title duration dueDate tag : String) (hne : title ≠ "") :
    (Validators.validateTaskForm title duration dueDate tag).errors.title
        = some "Title cannot have leading or trailing spaces" ↔
      (∃ a, title.data.head? = some a ∧ isJSWhiteSpace a = true) ∨
      (∃ b, title.data.getLast? = some b ∧ isJSWhiteSpace b = true) ∨
      ∃ c ∈ title.data, isLineTerminator c = true := by
  rw [errors_title_eq, if_neg hne]
  have hd : title.data ≠ [] := fun h => hne (String.ext h)
  obtain ⟨a, ha⟩ : ∃ a, title.data.head? = some a := by
    cases h : title.data with
    | nil => exact absurd h hd
    | cons x xs => exact ⟨x, rfl⟩
  obtain ⟨b, hb⟩ : ∃ b, title.data.getLast? = some b := by
    cases h : title.data.getLast? with
    | none => exact absurd (List.getLast?_eq_none_iff.mp h) hd
    | some x => exact ⟨x, rfl⟩
  have key := title_fullMatch_iff title.data
  rw [ha, hb] at key ⊢
  by_cases hm : Validators.patterns.title.fullMatch title.data = true
  · have h := key.mp hm
    obtain ⟨⟨a', ea, ha'⟩, ⟨b', eb, hb'⟩, hl⟩ := h
    cases ea
    cases eb
    rw [hm]
    constructor
    · intro h
      by_cases hdup : Validators.patterns.duplicateWords title = true
      · simp [hdup] at h
      · simp [hdup] at h
    · rintro (⟨x, ex, hx⟩ | ⟨x, ex, hx⟩ | ⟨c, hc, hx⟩)
      · cases ex
        rw [ha'] at hx
        cases hx
      · cases ex
        rw [hb'] at hx
        cases hx
      · rw [hl c hc] at hx
        cases hx
  · have hm' : Validators.patterns.title.fullMatch title.data = false := by
      simpa using hm
    rw [hm']
    simp only [Bool.not_false, if_true, true_iff]
    by_contra hcon
    push_neg at hcon
    obtain ⟨h1, h2, h3⟩ := hcon
    apply hm
    apply key.mpr
    refine ⟨⟨a, rfl, ?_⟩, ⟨b, rfl, ?_⟩, ?_⟩
    · simpa using h1 a rfl
    · simpa using h2 b rfl
    · intro c hc
      simpa using h3 c hc

theorem validateTaskForm_title_rule_witness :
    ("Plan week " : String) ≠ "" ∧
    (Validators.validateTaskForm "Plan week " "2" "2025-03-10" "").errors.title
      = some "Title cannot have leading or trailing spaces" :=
  ⟨by decide,
    (validateTaskForm_title_rule "Plan week " "2" "2025-03-10" "" (by decide)).mpr
      (Or.inr (Or.inl ⟨' ', by decide, by decide⟩))⟩

/-! ## The top tag -/

/-- One turn of the loop on a tag that is not empty and names no inherited property,
`c` being the count of the tag so far. -/
theorem visit_eq (tally : TagTally) (task : Task) (g : String) (c : ℕ)
    (htag : task.tag = some g) (hne : g ≠ "") (hk : g ∉ objectPrototypeKeys)
    (hc : tally.tagCounts g = if c = 0 then none else some (.number c)) :
    UI.updateDashboard.visit tally task =
      if c + 1 > tally.maxCount then
        { tagCounts := fun key => if key = g then some (.number (c + 1)) else tally.tagCounts key
          topTag := g
          maxCount := c + 1 }
      else
        { tally with
          tagCounts := fun key => if key = g then some (.number (c + 1)) else tally.tagCounts key } := by
  have hproto : g ≠ "__proto__" := by
    rintro rfl
    exact hk (by decide)
  have hget : UI.updateDashboard.get tally.tagCounts g
      = if c = 0 then none else some (.number c) := by
    unfold UI.updateDashboard.get
    rw [hc]
    by_cases h0 : c = 0
    · simp [h0, hk]
    · simp [h0]
  have hval : (match UI.updateDashboard.get tally.tagCounts g with
      | some (.number n) => TagCount.number (n + 1)
      | some .other => TagCount.other
      | none => TagCount.number 1) = .number (c + 1) := by
    rw [hget]
    by_cases h0 : c = 0
    · simp [h0]
    · simp [h0]
  have hset : UI.updateDashboard.set tally.tagCounts g (.number (c + 1))
      = fun key => if key = g then some (.number (c + 1)) else tally.tagCounts key := by
    unfold UI.updateDashboard.set
    rw [if_neg hproto]
  have hget2 : UI.updateDashboard.get
      (fun key => if key = g then some (TagCount.number (c + 1)) else tally.tagCounts key) g
      = some (.number (c + 1)) := by
    simp [UI.updateDashboard.get]
  unfold UI.updateDashboard.visit
  simp only [htag, hne, ne_eq, not_false_eq_true, if_true, hval, hset, hget2]

/-- A task without a tag, or with an empty one, changes nothing. -/
theorem visit_untagged (tally : TagTally) (task : Task)
    (h : task.tag = none ∨ task.tag = some "") :
    UI.updateDashboard.visit tally task = tally := by
  unfold UI.updateDashboard.visit
  rcases h with h | h <;> simp [h]

/-- The invariant of the loop is kept by a turn on a tag that names no inherited
property. -/
theorem tagInv_snoc (done : List String) (tally : TagTally) (task : Task) (g : String)
    (htag : task.tag = some g) (hne : g ≠ "") (hk : g ∉ objectPrototypeKeys)
    (hinv : TagInv done tally) :
    TagInv (done ++ [g]) (UI.updateDashboard.visit tally task) := by
  obtain ⟨hcounts, hmax, hnil, hcons⟩ := hinv
  rw [visit_eq tally task g (done.count g) htag hne hk (hcounts g)]
  have hcount : ∀ h, (done ++ [g]).count h = done.count h + if h = g then 1 else 0 := by
    intro h
    rw [List.count_append, List.count_singleton]
    by_cases e : h = g
    · simp [e]
    · have e2 : ¬ g = h := fun x => e x.symm
      simp [e, e2]
  have hne2 : done ++ [g] ≠ [] := by simp
  have hcounts2 : ∀ h, (if h = g then some (TagCount.number (done.count g + 1))
      else tally.tagCounts h)
      = if (done ++ [g]).count h = 0 then none
        else some (.number ((done ++ [g]).count h)) := by
    intro h
    rw [hcount h]
    by_cases e : h = g
    · subst e
      simp
    · simp only [e, if_false, add_zero]
      exact hcounts h
  by_cases hgt : done.count g + 1 > tally.maxCount
  · rw [if_pos hgt]
    refine ⟨hcounts2, ?_, fun h => absurd h hne2, fun _ => ⟨done, [], rfl, rfl, by simp, ?_⟩⟩
    · intro h
      rw [hcount h]
      by_cases e : h = g
      · subst e
        simp
      · have := hmax h
        simp only [e, if_false, add_zero]
        omega
    · intro h
      have := hmax h
      show done.count h < done.count g + 1
      omega
  · rw [if_neg hgt]
    have hd : done ≠ [] := by
      intro h
      have := (hnil h).2
      omega
    obtain ⟨pre, post, hsplit, hpre, hpost, hlt⟩ := hcons hd
    have htop : done.count tally.topTag = tally.maxCount := by
      rw [hsplit, List.count_append, List.count_cons_self, List.count_eq_zero_of_not_mem hpost]
      omega
    have hgtop : g ≠ tally.topTag := by
      intro e
      rw [e] at hgt
      omega
    refine ⟨hcounts2, ?_, fun h => absurd h hne2, fun _ => ⟨pre, post ++ [g], ?_, hpre, ?_, hlt⟩⟩
    · intro h
      rw [hcount h]
      by_cases e : h = g
      · subst e
        simp only [if_true]
        omega
      · have := hmax h
        simp only [e, if_false, add_zero]
        omega
    · show done ++ [g] = pre ++ tally.topTag :: (post ++ [g])
      rw [hsplit]
      simp
    · show tally.topTag ∉ post ++ [g]
      simp only [List.mem_append, List.mem_singleton, not_or]
      exact ⟨hpost, fun e => hgtop e.symm⟩

/-- The tags of a task list, task by task. -/
theorem tagsOf_cons (task : Task) (tasks : List Task) :
    tagsOf (task :: tasks) =
      (match task.tag with
        | some tag => if tag ≠ "" then [tag] else []
        | none => []) ++ tagsOf tasks := by
  unfold tagsOf
  rw [List.filterMap_cons]
  cases h : task.tag with
  | none => simp
  | some g =>
    by_cases e : g = ""
    · simp [e]
    · simp [e]

/-- The invariant of the loop holds after the loop. -/
theorem tagInv_foldl (tasks : List Task) (done : List String) (tally : TagTally)
    (hk : ∀ g ∈ tagsOf tasks, g ∉ objectPrototypeKeys) (hinv : TagInv done tally) :
    TagInv (done ++ tagsOf tasks) (tasks.foldl UI.updateDashboard.visit tally) := by
  induction tasks generalizing done tally with
  | nil => simpa [tagsOf] using hinv
  | cons task tasks ih =>
    rw [List.foldl_cons, tagsOf_cons]
    rw [tagsOf_cons] at hk
    cases h : task.tag with
    | none =>
      rw [h] at hk
      rw [visit_untagged tally task (Or.inl h)]
      simpa using ih done tally (by simpa using hk) hinv
    | some g =>
      rw [h] at hk
      by_cases e : g = ""
      · subst e
        rw [visit_untagged tally task (Or.inr h)]
        simpa using ih done tally (by simpa using hk) hinv
      · simp only [ne_eq, e, not_false_eq_true, if_true] at hk ⊢
        have hg : g ∉ objectPrototypeKeys := hk g (by simp)
        have := ih (done ++ [g]) (UI.updateDashboard.visit tally task)
          (fun x hx => hk x (by simp [hx])) (tagInv_snoc done tally task g h e hg hinv)
        simpa using this

/-- The invariant of the loop holds before the loop. -/
theorem tagInv_start : TagInv [] UI.updateDashboard.start := by
  refine ⟨fun g => by simp [UI.updateDashboard.start], fun g => by simp,
    fun _ => ⟨rfl, rfl⟩, fun h => absurd rfl h⟩

/-- Claim C21, as amended: on a task list whose tags name no property inherited from
`Object.prototype`, when some task has a tag that is not empty the top tag of the
dashboard is a tag of the list whose number of occurrences is maximal, and among the
tags tied for that count it is the one whose last occurrence comes earliest (the
first to reach the count): every other tag with that count occurs again after the
last occurrence of the top tag. When no task has a tag that is not empty the top tag
is "None". -/
theorem updateDashboard_topTag (tasks : List Task)
    (hk : ∀ g ∈ tagsOf tasks, g ∉ objectPrototypeKeys) :
    (tagsOf tasks = [] → UI.updateDashboard.topTag tasks = "None") ∧
    (tagsOf tasks ≠ [] →
      UI.updateDashboard.topTag tasks ∈ tagsOf tasks ∧
      (∀ g, (tagsOf tasks).count g ≤ (tagsOf tasks).count (UI.updateDashboard.topTag tasks)) ∧
      ∃ pre post, tagsOf tasks = pre ++ UI.updateDashboard.topTag tasks :: post ∧
        UI.updateDashboard.topTag tasks ∉ post ∧
        ∀ g, g ≠ UI.updateDashboard.topTag tasks →
          (tagsOf tasks).count g = (tagsOf tasks).count (UI.updateDashboard.topTag tasks) →
          g ∈ post) := by
  have hinv := tagInv_foldl tasks [] UI.updateDashboard.start hk tagInv_start
  rw [List.nil_append] at hinv
  obtain ⟨-, hmax, hnil, hcons⟩ := hinv
  refine ⟨fun h => (hnil h).1, fun h => ?_⟩
  obtain ⟨pre, post, hsplit, hpre, hpost, hlt⟩ := hcons h
  have htop : (tagsOf tasks).count (UI.updateDashboard.topTag tasks)
      = (tasks.foldl UI.updateDashboard.visit UI.updateDashboard.start).maxCount := by
    show (tagsOf tasks).count (tasks.foldl UI.updateDashboard.visit UI.updateDashboard.start).topTag
      = _
    rw [hsplit, List.count_append, List.count_cons_self, List.count_eq_zero_of_not_mem hpost]
    omega
  refine ⟨?_, ?_, pre, post, hsplit, hpost, ?_⟩
  · show (tasks.foldl UI.updateDashboard.visit UI.updateDashboard.start).topTag ∈ tagsOf tasks
    rw [hsplit]
    simp
  · intro g
    rw [htop]
    exact hmax g
  · intro g hg hcount
    rw [htop] at hcount
    have h1 := hlt g
    have hg2 : g ≠ (tasks.foldl UI.updateDashboard.visit UI.updateDashboard.start).topTag := hg
    have h2 : (tagsOf tasks).count g = pre.count g + post.count g := by
      rw [hsplit, List.count_append, List.count_cons_of_ne hg2]
    have h3 : 0 < post.count g := by omega
    exact List.count_pos_iff.mp h3

theorem updateDashboard_topTag_witness :
    (∀ g ∈ tagsOf tagSample, g ∉ objectPrototypeKeys) ∧
    UI.updateDashboard.topTag tagSample = "Health" ∧
    UI.updateDashboard.topTag tagSample ∈ tagsOf tagSample ∧
    ∀ g, (tagsOf tagSample).count g
      ≤ (tagsOf tagSample).count (UI.updateDashboard.topTag tagSample) :=
  ⟨by decide, by decide,
    ((updateDashboard_topTag tagSample (by decide)).2 (by decide)).1,
    ((updateDashboard_topTag tagSample (by decide)).2 (by decide)).2.1⟩

/-- Claim C21 as stated fails on a tie: with the tags Study, Health, Health, Study
both tags occur twice and Study is met first, and the top tag is Health, the first
to occur twice. -/
theorem updateDashboard_topTag_tie :
    ¬ ∀ tasks : List Task, tagsOf tasks ≠ [] →
      (∀ g, (tagsOf tasks).count g ≤ (tagsOf tasks).count (UI.updateDashboard.topTag tasks)) ∧
      ∀ g ∈ tagsOf tasks, g ≠ UI.updateDashboard.topTag tasks →
        (tagsOf tasks).count g = (tagsOf tasks).count (UI.updateDashboard.topTag tasks) →
        (tagsOf tasks).indexOf (UI.updateDashboard.topTag tasks) < (tagsOf tasks).indexOf g := by
  intro h
  have h1 := (h tagSample (by decide)).2 "Study" (by decide) (by decide) (by decide)
  revert h1
  decide

/-! ## Tags that name an inherited property -/

/-- A turn of the loop on a tag that names an inherited property changes neither
`topTag` nor `maxCount`, and leaves no number in `tagCounts`. -/
theorem visit_inherited (tally : TagTally) (task : Task) (g : String)
    (htag : task.tag = some g) (hk : g ∈ objectPrototypeKeys)
    (hc : ∀ key, tally.tagCounts key = none ∨ tally.tagCounts key = some .other) :
    (UI.updateDashboard.visit tally task).topTag = tally.topTag ∧
    (UI.updateDashboard.visit tally task).maxCount = tally.maxCount ∧
    ∀ key, (UI.updateDashboard.visit tally task).tagCounts key = none ∨
      (UI.updateDashboard.visit tally task).tagCounts key = some .other := by
  have hne : g ≠ "" := by
    rintro rfl
    revert hk
    decide
  have hget : ∀ counts : String → Option TagCount,
      (∀ key, counts key = none ∨ counts key = some .other) →
      UI.updateDashboard.get counts g = some .other := by
    intro counts hcounts
    unfold UI.updateDashboard.get
    rcases hcounts g with h | h
    · simp [h, hk]
    · simp [h]
  have hset : ∀ key, UI.updateDashboard.set tally.tagCounts g .other key = none ∨
      UI.updateDashboard.set tally.tagCounts g .other key = some .other := by
    intro key
    unfold UI.updateDashboard.set
    by_cases hp : g = "__proto__"
    · rw [if_pos hp]
      exact hc key
    · rw [if_neg hp]
      by_cases e : key = g
      · simp [e]
      · simp only [e, if_false]
        exact hc key
  unfold UI.updateDashboard.visit
  simp only [htag, hne, ne_eq, not_false_eq_true, if_true, hget tally.tagCounts hc]
  rw [hget _ hset]
  exact ⟨rfl, rfl, hset⟩

/-- The loop over tasks whose tags all name inherited properties leaves `topTag` and
`maxCount` as they are. -/
theorem foldl_inherited (tasks : List Task) (tally : TagTally)
    (hk : ∀ g ∈ tagsOf tasks, g ∈ objectPrototypeKeys)
    (hc : ∀ key, tally.tagCounts key = none ∨ tally.tagCounts key = some .other) :
    (tasks.foldl UI.updateDashboard.visit tally).topTag = tally.topTag := by
  induction tasks generalizing tally with
  | nil => rfl
  | cons task tasks ih =>
    rw [List.foldl_cons]
    rw [tagsOf_cons] at hk
    cases h : task.tag with
    | none =>
      rw [h] at hk
      rw [visit_untagged tally task (Or.inl h)]
      exact ih tally (by simpa using hk) hc
    | some g =>
      rw [h] at hk
      by_cases e : g = ""
      · subst e
        rw [visit_untagged tally task (Or.inr h)]
        exact ih tally (by simpa using hk) hc
      · simp only [ne_eq, e, not_false_eq_true, if_true] at hk
        have hg : g ∈ objectPrototypeKeys := hk g (by simp)
        obtain ⟨h1, -, h3⟩ := visit_inherited tally task g h hg hc
        rw [ih _ (fun x hx => hk x (by simp [hx])) h3, h1]

/-- On a task list whose tags all name properties inherited from `Object.prototype`,
such as `constructor`, `toString` or `valueOf`, the top tag of the dashboard is
"None" however many tasks carry a tag. -/
theorem updateDashboard_topTag_inherited (tasks : List Task)
    (hk : ∀ g ∈ tagsOf tasks, g ∈ objectPrototypeKeys) :
    UI.updateDashboard.topTag tasks = "None" :=
  foldl_inherited tasks UI.updateDashboard.start hk (fun _ => Or.inl rfl)

theorem updateDashboard_topTag_inherited_witness :
    (∀ g ∈ tagsOf [tagged (some "constructor"), tagged (some "constructor"), tagged none],
      g ∈ objectPrototypeKeys) ∧
    tagsOf [tagged (some "constructor"), tagged (some "constructor"), tagged none]
      = ["constructor", "constructor"] ∧
    UI.updateDashboard.topTag
      [tagged (some "constructor"), tagged (some "constructor"), tagged none] = "None" :=
  ⟨by decide, by decide,
    updateDashboard_topTag_inherited
      [tagged (some "constructor"), tagged (some "constructor"), tagged none] (by decide)⟩

/-! ## The import handler -/

/-- The reference parser rejects the text of an array of records. -/
theorem refParse_arrayText (tasks : List Task) (h : tasks ≠ []) :
    refPlatform.jsonParse (arrayText tasks) = none := by
  have hd : ∃ rest, arrayChars tasks = '[' :: 'o' :: rest := by
    match tasks, h with
    | [_], _ => exact ⟨_, rfl⟩
    | _ :: _ :: _, _ => exact ⟨_, rfl⟩
  obtain ⟨rest, hrest⟩ := hd
  show refParse (arrayText tasks) = none
  unfold refParse arrayText
  simp only [hrest]
  simp [getFields]

/-- The reference conversion writes thirty as `30`. -/
theorem refCoercions_thirty : refCoercions.numberToString 30 = "30" := by
  show refNumberToString 30 = "30"
  unfold refNumberToString
  have h0 : (30 : ℚ) ≠ 0 := by norm_num
  have h1 : ¬ ((30 : ℚ) < 0) := by norm_num
  have hn : (30 : ℚ).num.natAbs = 30 := rfl
  have hd : (30 : ℚ).den = 1 := rfl
  rw [if_neg h0, hn, hd]
  have he : decimalExpansion 30 1 = some (['3'], 2) := by decide
  simp only [he, h1, if_false]
  decide

/-- The sample record with a tag is one that `validateTaskObject` accepts. -/
theorem validateTaskObject_tagged :
    Validators.validateTaskObject refCoercions (tagged (some "Study")) = true := by
  have e : (tagged (some "Study")).duration.toStr refCoercions = "30" := refCoercions_thirty
  unfold Validators.validateTaskObject
  rw [e]
  decide

/-- The import handler when `JSON.parse` rejects the text of the array of the valid
records: the store is left as it was and the alerts announce an import. -/
theorem importTasks_of_rejected (P : Platform) (C : Coercions) (s : State)
    (fileText : String) (tasks : List Task)
    (hfile : P.jsonParse fileText = some (.array tasks))
    (hvalid : tasks.filter (fun task => Validators.validateTaskObject C task) ≠ [])
    (hrej : P.jsonParse
      (arrayText (tasks.filter fun task => Validators.validateTaskObject C task)) = none) :
    UI.importTasks P C s fileText =
      ((if (tasks.filter fun task => Validators.validateTaskObject C task).length < tasks.length
          then [ImportAlert.onlySome
            (tasks.filter fun task => Validators.validateTaskObject C task).length tasks.length]
          else []) ++
        [.imported (tasks.filter fun task => Validators.validateTaskObject C task).length],
        s) := by
  have hlen : (tasks.filter fun task => Validators.validateTaskObject C task).length ≠ 0 := by
    intro h
    exact hvalid (List.length_eq_zero.mp h)
  have himp : State.importTasks P s
      (arrayText (tasks.filter fun task => Validators.validateTaskObject C task))
      = (some false, s) := by
    unfold State.importTasks Storage.importTasks
    rw [hrej]
  unfold UI.importTasks
  simp only [hfile, hlen, if_false, himp]

/-- Claim C22, at the input where the code departs from it: on the fresh store, a
file that holds an array of one record that `validateTaskObject` accepts. The
handler passes the array of the valid records to `State.importTasks`, which expects
a text; `JSON.parse` reads the array as the text `[object Object]` and rejects it,
so the store stays empty while the alert announces one task imported. -/
theorem importTasks_handler_array :
    refPlatform.jsonParse (refPlatform.jsonStringify [tagged (some "Study")])
      = some (.array [tagged (some "Study")]) ∧
    Validators.validateTaskObject refCoercions (tagged (some "Study")) = true ∧
    arrayText [tagged (some "Study")] = "[object Object]" ∧
    refPlatform.jsonParse "[object Object]" = none ∧
    UI.importTasks refPlatform refCoercions State.fresh
        (refPlatform.jsonStringify [tagged (some "Study")])
      = ([.imported 1], State.fresh) ∧
    State.fresh.tasks = [] := by
  have hfile : refPlatform.jsonParse (refPlatform.jsonStringify [tagged (some "Study")])
      = some (.array [tagged (some "Study")]) :=
    refPlatform_jsonLaws.parse_stringify [tagged (some "Study")]
  have hfilter : ([tagged (some "Study")].filter
      fun task => Validators.validateTaskObject refCoercions task) = [tagged (some "Study")] := by
    simp [validateTaskObject_tagged]
  refine ⟨hfile, validateTaskObject_tagged, rfl, refParse_arrayText [tagged (some "Study")]
    (by simp), ?_, rfl⟩
  rw [importTasks_of_rejected refPlatform refCoercions State.fresh _ [tagged (some "Study")]
    hfile (by rw [hfilter]; simp) (by rw [hfilter]; exact refParse_arrayText _ (by simp))]
  rw [hfilter]
  rfl

/-- On a host whose `JSON.parse` rejects the text of an array of records, the import
handler leaves the store as it was on every file; when the file parses to an array
with at least one record that `validateTaskObject` accepts, its last alert announces
as imported the number of the records accepted. -/
theorem importTasks_handler_store (P : Platform) (C : Coercions) (s : State)
    (fileText : String)
    (hrej : ∀ tasks : List Task, tasks ≠ [] → P.jsonParse (arrayText tasks) = none) :
    (UI.importTasks P C s fileText).2 = s ∧
    ∀ tasks, P.jsonParse fileText = some (.array tasks) →
      tasks.filter (fun task => Validators.validateTaskObject C task) ≠ [] →
      (UI.importTasks P C s fileText).1.getLast?
        = some (.imported (tasks.filter fun task => Validators.validateTaskObject C task).length) := by
  constructor
  · cases hfile : P.jsonParse fileText with
    | none => simp [UI.importTasks, hfile]
    | some parsed =>
      cases parsed with
      | array tasks =>
        by_cases hvalid : tasks.filter (fun task => Validators.validateTaskObject C task) = []
        · simp [UI.importTasks, hfile, hvalid]
        · rw [importTasks_of_rejected P C s fileText tasks hfile hvalid (hrej _ hvalid)]
      | falsy => simp [UI.importTasks, hfile]
      | truthy => simp [UI.importTasks, hfile]
  · intro tasks hfile hvalid
    rw [importTasks_of_rejected P C s fileText tasks hfile hvalid (hrej _ hvalid)]
    simp

theorem importTasks_handler_store_witness :
    (∀ tasks : List Task, tasks ≠ [] → refPlatform.jsonParse (arrayText tasks) = none) ∧
    (UI.importTasks refPlatform refCoercions (stateOne refPlatform)
      (refPlatform.jsonStringify [tagged (some "Study"), tagged (some "Health")])).2
      = stateOne refPlatform :=
  ⟨refParse_arrayText,
    (importTasks_handler_store refPlatform refCoercions (stateOne refPlatform)
      (refPlatform.jsonStringify [tagged (some "Study"), tagged (some "Health")])
      refParse_arrayText).1⟩

/-! ## The search step -/

/-- Claim C23, at the input where the code departs from it: the query `[` is not
blank and does not compile; `regexSearch` catches the error itself and returns the
whole list, so the `catch` branch of the handler is not taken and the step yields the
whole list, while `searchTasks` finds no task with `[` in its title or tag. -/
theorem applySearch_invalid_pattern :
    ¬ IsBlank "[" ∧
    refRegExp.compile "[" "i" = none ∧
    UI.applySearch refRegExp refPlatform [tagged (some "Study"), tagged none] "["
      = [tagged (some "Study"), tagged none] ∧
    Search.searchTasks refPlatform [tagged (some "Study"), tagged none] "[" = [] :=
  ⟨by decide, rfl, rfl, by decide⟩

/-- The search step of the handlers is `regexSearch` on every query: the `catch`
branch with `searchTasks` is never taken. On a query that does not compile the step
yields the list it was given. -/
theorem applySearch_eq_regexSearch (E : RegExpEngine) (P : Platform) (tasks : List Task)
    (query : String) :
    UI.applySearch E P tasks query = Search.regexSearch E tasks query ∧
    (E.compile query "i" = none → UI.applySearch E P tasks query = tasks) := by
  have h : UI.applySearch E P tasks query = Search.regexSearch E tasks query := by
    unfold UI.applySearch Search.regexSearchCall
    by_cases hq : query = ""
    · subst hq
      simp [Search.regexSearch]
    · simp [hq]
  refine ⟨h, fun hc => ?_⟩
  rw [h]
  unfold Search.regexSearch
  split
  · rfl
  · simp [hc]

/-! ## Rounding to a double -/

/-- Rounding to the nearest integer does not go below the floor. -/
theorem floor_le_roundHalfEven (x : ℚ) : ⌊x⌋ ≤ roundHalfEven x := by
  unfold roundHalfEven
  split_ifs <;> omega

/-- The spacing of the doubles is positive. -/
theorem ulp_pos (x : ℚ) : 0 < ulp x := by
  unfold ulp
  positivity

/-- Rounding does not go below a multiple of the spacing that the rational reaches. -/
theorem le_rounded (x : ℚ) (n : ℤ) (hn : n * ulp x ≤ x) :
    n * ulp x ≤ roundHalfEven (x / ulp x) * ulp x := by
  have hu := ulp_pos x
  have h1 : (n : ℚ) ≤ x / ulp x := (le_div_iff₀ hu).mpr hn
  have h2 : n ≤ ⌊x / ulp x⌋ := Int.le_floor.mpr h1
  have h3 : n ≤ roundHalfEven (x / ulp x) := le_trans h2 (floor_le_roundHalfEven _)
  have h4 : (n : ℚ) ≤ roundHalfEven (x / ulp x) := by exact_mod_cast h3
  exact mul_le_mul_of_nonneg_right h4 hu.le

/-- The double nearest to a rational that is not negative is `Infinity` or a number
that is not negative, and the number is not below a multiple of the spacing that the
rational reaches. -/
theorem round_cases (x : ℚ) (hx : 0 ≤ x) :
    (JSNum.round x = .posInf ∧ 2 ^ 1024 ≤ roundHalfEven (x / ulp x) * ulp x) ∨
    (∃ q : ℚ, JSNum.round x = .fin q ∧ 0 ≤ q ∧ q < 2 ^ 1024 ∧
      (x ≠ 0 → q = roundHalfEven (x / ulp x) * ulp x)) := by
  by_cases h0 : x = 0
  · right
    exact ⟨0, by simp [JSNum.round, h0], le_refl _, by positivity, fun h => absurd h0 h⟩
  · have hy : (0 : ℚ) ≤ roundHalfEven (x / ulp x) * ulp x := by
      have := le_rounded x 0 (by simpa using hx)
      simpa using this
    unfold JSNum.round
    rw [if_neg h0]
    by_cases h1 : (2 : ℚ) ^ 1024 ≤ roundHalfEven (x / ulp x) * ulp x
    · left
      exact ⟨by rw [if_pos h1], h1⟩
    · right
      have h2 : ¬ ((roundHalfEven (x / ulp x) : ℚ) * ulp x ≤ -2 ^ 1024) := by
        intro h
        have : (0 : ℚ) < 2 ^ 1024 := by positivity
        linarith
      exact ⟨_, by rw [if_neg h1, if_neg h2], hy, not_le.mp h1, fun _ => rfl⟩

/-- The double nearest to a rational that is not negative is `Infinity` or a number
that is not negative. -/
theorem round_nonneg (x : ℚ) (hx : 0 ≤ x) :
    JSNum.round x = .posInf ∨ ∃ q : ℚ, JSNum.round x = .fin q ∧ 0 ≤ q := by
  rcases round_cases x hx with h | ⟨q, hq, h0, -, -⟩
  · exact Or.inl h.1
  · exact Or.inr ⟨q, hq, h0⟩

/-- The spacing of the doubles around a rational from `2 ^ (-1022)` on. -/
theorem ulp_eq (x : ℚ) (hx : 0 < x) (h : -1022 ≤ Int.log 2 x) :
    ulp x = 2 ^ (Int.log 2 x - 52) := by
  unfold ulp
  rw [abs_of_pos hx, max_eq_left h]

/-- Rounding does not go below the power of two that the rational reaches. -/
theorem zpow_le_rounded (x : ℚ) (k : ℤ) (hk : -1022 ≤ k) (hx : (2 : ℚ) ^ k ≤ x) :
    (2 : ℚ) ^ k ≤ roundHalfEven (x / ulp x) * ulp x := by
  have hpos : (0 : ℚ) < x := lt_of_lt_of_le (by positivity) hx
  have hlog : k ≤ Int.log 2 x := (Int.zpow_le_iff_le_log (by norm_num) hpos).mp (by exact_mod_cast hx)
  have hu := ulp_eq x hpos (le_trans hk hlog)
  have hself : (2 : ℚ) ^ Int.log 2 x ≤ x := by
    have := Int.zpow_log_le_self (b := 2) (r := x) (by norm_num) hpos
    exact_mod_cast this
  have hc : ((2 ^ 52 : ℤ) : ℚ) = (2 : ℚ) ^ (52 : ℤ) := by norm_num
  have hn : ((2 ^ 52 : ℤ) : ℚ) * ulp x = 2 ^ Int.log 2 x := by
    rw [hu, hc, ← zpow_add₀ (by norm_num : (2 : ℚ) ≠ 0)]
    congr 1
    ring
  have := le_rounded x (2 ^ 52) (by rw [hn]; exact hself)
  rw [hn] at this
  exact le_trans (zpow_le_zpow_right₀ (by norm_num) hlog) this

/-- A rational from `2 ^ 1024` on rounds to `Infinity`. -/
theorem round_overflow (x : ℚ) (hx : (2 : ℚ) ^ 1024 ≤ x) : JSNum.round x = .posInf := by
  have hpos : (0 : ℚ) < x := lt_of_lt_of_le (by positivity) hx
  have h := zpow_le_rounded x ((1024 : ℕ) : ℤ) (by omega) (by rw [zpow_natCast]; exact hx)
  rw [zpow_natCast] at h
  rcases round_cases x hpos.le with h1 | ⟨q, -, -, hlt, hq⟩
  · exact h1.1
  · rw [hq (ne_of_gt hpos)] at hlt
    exact absurd h (not_le.mpr hlt)

/-- Rounding does not go below a whole number up to `2 ^ 53` that the rational
reaches: such a number is a double. -/
theorem round_ge_nat (d : ℕ) (hd : 0 < d) (hd2 : d ≤ 2 ^ 53) (x : ℚ) (hx : (d : ℚ) ≤ x) :
    JSNum.round x = .posInf ∨ ∃ q : ℚ, JSNum.round x = .fin q ∧ (d : ℚ) ≤ q := by
  have h1 : (1 : ℚ) ≤ x := le_trans (by exact_mod_cast hd) hx
  have hpos : (0 : ℚ) < x := lt_of_lt_of_le one_pos h1
  rcases round_cases x hpos.le with h | ⟨q, hq, -, -, hval⟩
  · exact Or.inl h.1
  · right
    refine ⟨q, hq, ?_⟩
    rw [hval (ne_of_gt hpos)]
    have hlog : 0 ≤ Int.log 2 x := by
      have := (Int.zpow_le_iff_le_log (b := 2) (x := 0) (r := x) (by norm_num) hpos).mp
        (by simpa using h1)
      exact this
    by_cases he : Int.log 2 x ≤ 52
    · have hu := ulp_eq x hpos (by omega)
      obtain ⟨k, hk⟩ : ∃ k : ℕ, (k : ℤ) = 52 - Int.log 2 x := ⟨(52 - Int.log 2 x).toNat, by omega⟩
      have hn : ((d * 2 ^ k : ℕ) : ℤ) * ulp x = (d : ℚ) := by
        rw [hu]
        push_cast
        rw [mul_assoc, ← zpow_natCast (2 : ℚ) k, ← zpow_add₀ (by norm_num : (2 : ℚ) ≠ 0)]
        have : (k : ℤ) + (Int.log 2 x - 52) = 0 := by omega
        rw [this, zpow_zero, mul_one]
      have h2 := le_rounded x ((d * 2 ^ k : ℕ) : ℤ) (by rw [hn]; exact hx)
      rw [hn] at h2
      exact h2
    · have h53 : (53 : ℤ) ≤ Int.log 2 x := by omega
      have hself : (2 : ℚ) ^ Int.log 2 x ≤ x := by
        have := Int.zpow_log_le_self (b := 2) (r := x) (by norm_num) hpos
        exact_mod_cast this
      have h2 := zpow_le_rounded x (Int.log 2 x) (by omega) hself
      have h3 : (d : ℚ) ≤ 2 ^ (53 : ℤ) :=
        calc (d : ℚ) ≤ ((2 ^ 53 : ℕ) : ℚ) := by exact_mod_cast hd2
          _ = 2 ^ (53 : ℤ) := by norm_num
      exact le_trans (le_trans h3 (zpow_le_zpow_right₀ (by norm_num) h53)) h2

/-- Rounding a whole number to the nearest integer gives it back. -/
theorem roundHalfEven_intCast (m : ℤ) : roundHalfEven (m : ℚ) = m := by
  unfold roundHalfEven
  simp

/-- The spacing of the doubles between `2 ^ e` and `2 ^ (e + 1)`. -/
theorem ulp_of_binade (x : ℚ) (e : ℤ) (he : -1022 ≤ e) (h1 : (2 : ℚ) ^ e ≤ x)
    (h2 : x < (2 : ℚ) ^ (e + 1)) : ulp x = 2 ^ (e - 52) := by
  have hpos : (0 : ℚ) < x := lt_of_lt_of_le (by positivity) h1
  have hlog : Int.log 2 x = e := by
    apply le_antisymm
    · have := (Int.lt_zpow_iff_log_lt (b := 2) (x := e + 1) (r := x) (by norm_num) hpos).mp
        (by exact_mod_cast h2)
      omega
    · exact (Int.zpow_le_iff_le_log (b := 2) (x := e) (r := x) (by norm_num) hpos).mp
        (by exact_mod_cast h1)
  rw [ulp_eq x hpos (by omega), hlog]

/-- A positive rational below `2 ^ 1024` that is a multiple of the spacing of the
doubles around it is a double: rounding gives it back. -/
theorem round_of_multiple (x : ℚ) (hx : 0 < x) (hlt : x < 2 ^ 1024) (m : ℤ)
    (hm : x = m * ulp x) : JSNum.round x = .fin x := by
  have hu := ulp_pos x
  have hdiv : x / ulp x = m := by
    rw [div_eq_iff (ne_of_gt hu)]
    exact hm
  have hy : (roundHalfEven (x / ulp x) : ℚ) * ulp x = x := by
    rw [hdiv, roundHalfEven_intCast, ← hm]
  unfold JSNum.round
  rw [hy, if_neg (ne_of_gt hx), if_neg (not_le.mpr hlt), if_neg]
  intro h
  have : (0 : ℚ) < 2 ^ 1024 := by positivity
  linarith

/-- The integer nearest to a rational less than a half away from it. -/
theorem roundHalfEven_of_near (x : ℚ) (m : ℤ) (h1 : (m : ℚ) - 1 / 2 < x)
    (h2 : x < m + 1 / 2) : roundHalfEven x = m := by
  unfold roundHalfEven
  by_cases hm : (m : ℚ) ≤ x
  · have hf : ⌊x⌋ = m := Int.floor_eq_iff.mpr ⟨hm, by linarith⟩
    rw [hf, if_pos (by linarith)]
  · have hf : ⌊x⌋ = m - 1 := Int.floor_eq_iff.mpr ⟨by push_cast; linarith, by push_cast; linarith⟩
    have hlt : ¬ (x - ((m - 1 : ℤ) : ℚ) < 1 / 2) := by push_cast; linarith
    have hgt : (1 : ℚ) / 2 < x - ((m - 1 : ℤ) : ℚ) := by push_cast; linarith
    rw [hf, if_neg hlt, if_pos hgt]
    omega

/-- The integer nearest to a rational half way between an even integer and the
next. -/
theorem roundHalfEven_of_tie (x : ℚ) (m : ℤ) (hx : x = m + 1 / 2) (hm : m % 2 = 0) :
    roundHalfEven x = m := by
  unfold roundHalfEven
  have hf : ⌊x⌋ = m := Int.floor_eq_iff.mpr ⟨by linarith, by linarith⟩
  have h1 : ¬ (x - (m : ℚ) < 1 / 2) := by linarith
  have h2 : ¬ ((1 : ℚ) / 2 < x - (m : ℚ)) := by linarith
  rw [hf, if_neg h1, if_neg h2, if_pos hm]

/-- The double nearest to a rational between `2 ^ e` and `2 ^ (e + 1)`, from the
integer nearest to its quotient by the spacing. -/
theorem round_of_binade (x : ℚ) (e : ℤ) (m : ℤ) (he : -1022 ≤ e) (h1 : (2 : ℚ) ^ e ≤ x)
    (h2 : x < (2 : ℚ) ^ (e + 1)) (hm : roundHalfEven (x / 2 ^ (e - 52)) = m)
    (hlt : (m : ℚ) * 2 ^ (e - 52) < 2 ^ 1024) :
    JSNum.round x = .fin (m * 2 ^ (e - 52)) := by
  have hpos : (0 : ℚ) < x := lt_of_lt_of_le (by positivity) h1
  have hu := ulp_of_binade x e he h1 h2
  rcases round_cases x hpos.le with h | ⟨q, hq, -, -, hval⟩
  · have := h.2
    rw [hu, hm] at this
    exact absurd this (not_le.mpr hlt)
  · rw [hq, hval (ne_of_gt hpos), hu, hm]

/-! ## checkDailyTarget -/

/-- The value `percentComplete` in terms of the other values computed. -/
theorem percentComplete_eq (P : Platform) (C : Coercions) (settings : Settings)
    (nowIso : String) (tasks : List Task) :
    (UI.checkDailyTarget P C settings nowIso tasks).percentComplete =
      if (JSNum.fin 0).lt ((UI.checkDailyTarget P C settings nowIso tasks).dailyTarget.toNumber C)
      then
        (((UI.checkDailyTarget P C settings nowIso tasks).todayDuration.div
          ((UI.checkDailyTarget P C settings nowIso tasks).dailyTarget.toNumber C)).mul
            (.fin 100)).min (.fin 100)
      else .fin 0 := rfl

/-- The value `todayDuration` is the sum over the records due today. -/
theorem todayDuration_eq (P : Platform) (C : Coercions) (settings : Settings)
    (nowIso : String) (tasks : List Task) :
    (UI.checkDailyTarget P C settings nowIso tasks).todayDuration =
      (tasks.filter fun task =>
          task.dueDate == (UI.checkDailyTarget P C settings nowIso tasks).today).foldl
        (fun sum task => sum.add (P.parseFloat task.duration)) (.fin 0) := rfl

/-- The sum of two numbers that are not negative is not negative. -/
theorem add_ge_zero (a b : JSNum) (ha : a.ge (.fin 0) = true) (hb : b.ge (.fin 0) = true) :
    (a.add b).ge (.fin 0) = true := by
  rw [ge_zero_iff] at ha hb ⊢
  rcases ha with ha | ⟨x, ha, hx⟩ <;> rcases hb with hb | ⟨y, hb, hy⟩ <;> rw [ha, hb]
  · simp [JSNum.add]
  · simp [JSNum.add]
  · simp [JSNum.add]
  · show JSNum.round (x + y) = .posInf ∨ ∃ q : ℚ, JSNum.round (x + y) = .fin q ∧ 0 ≤ q
    exact round_nonneg _ (add_nonneg hx hy)

/-- A sum of numbers that are not negative is not negative. -/
theorem foldl_add_ge_zero (f : Task → JSNum) (ts : List Task) (init : JSNum)
    (hi : init.ge (.fin 0) = true) (h : ∀ t ∈ ts, (f t).ge (.fin 0) = true) :
    (ts.foldl (fun sum task => sum.add (f task)) init).ge (.fin 0) = true := by
  induction ts generalizing init with
  | nil => exact hi
  | cons t ts ih =>
    rw [List.foldl_cons]
    exact ih _ (add_ge_zero _ _ hi (h t (List.mem_cons_self _ _)))
      (fun u hu => h u (List.mem_cons_of_mem _ hu))

/-- The clamp `Math.min(x * 100, 100)` of a quotient `x` that is `Infinity` or a
number that is not negative: a number from 0 to 100, and 100 when the quotient is at
least 1. -/
theorem clamp_quotient (x : JSNum) (hx : x.ge (.fin 0) = true) :
    (∃ q : ℚ, (x.mul (.fin 100)).min (.fin 100) = .fin q ∧ 0 ≤ q ∧ q ≤ 100) ∧
    (x.ge (.fin 1) = true → (x.mul (.fin 100)).min (.fin 100) = .fin 100) := by
  rw [ge_zero_iff] at hx
  have hp : ¬ (100 : ℚ) < 0 := by norm_num
  rcases hx with hx | ⟨a, hx, ha⟩
  · subst hx
    simp [JSNum.mul, JSNum.min, JSNum.signedInf, hp]
  · subst hx
    have hmul : (JSNum.fin a).mul (.fin 100) = JSNum.round (a * 100) := rfl
    rw [hmul]
    constructor
    · rcases round_nonneg (a * 100) (by positivity) with h | ⟨q, h, hq⟩
      · rw [h]
        exact ⟨100, rfl, by norm_num, le_refl _⟩
      · rw [h]
        exact ⟨Min.min q 100, rfl, le_min hq (by norm_num), min_le_right _ _⟩
    · intro h1
      have ha1 : (1 : ℚ) ≤ a := by
        simpa [JSNum.ge, JSNum.isNaN, JSNum.lt] using h1
      have h100 : ((100 : ℕ) : ℚ) ≤ a * 100 := by
        push_cast
        linarith
      rcases round_ge_nat 100 (by norm_num) (by norm_num) (a * 100) h100 with h | ⟨q, h, hq⟩
      · rw [h]
        rfl
      · rw [h]
        have hq' : (100 : ℚ) ≤ q := by exact_mod_cast hq
        show JSNum.fin (Min.min q 100) = .fin 100
        rw [min_eq_right hq']

/-- The clamped percentage of a total that is not negative and a target, the two not
both infinite: a number from 0 to 100, and 100 when the total reaches a positive
target. -/
theorem clamp_spec (total target : JSNum) (ht : total.ge (.fin 0) = true)
    (hinf : ¬ (total = .posInf ∧ target = .posInf)) :
    (∃ q : ℚ, (if (JSNum.fin 0).lt target then ((total.div target).mul (.fin 100)).min (.fin 100)
        else .fin 0) = .fin q ∧ 0 ≤ q ∧ q ≤ 100) ∧
    ((JSNum.fin 0).lt target = true → total.ge target = true →
      (if (JSNum.fin 0).lt target then ((total.div target).mul (.fin 100)).min (.fin 100)
        else .fin 0) = .fin 100) := by
  by_cases hlt : (JSNum.fin 0).lt target = true
  · rw [if_pos hlt]
    have hdiv : (total.div target).ge (.fin 0) = true ∧
        (total.ge target = true → (total.div target).ge (.fin 1) = true) := by
      have ht' := (ge_zero_iff total).mp ht
      cases target with
      | nan => simp [JSNum.lt] at hlt
      | negInf => simp [JSNum.lt] at hlt
      | posInf =>
        rcases ht' with ht' | ⟨a, ht', ha⟩
        · exact absurd ⟨ht', rfl⟩ hinf
        · subst ht'
          simp [JSNum.div, JSNum.ge, JSNum.isNaN, JSNum.lt]
      | fin b =>
        have hb : 0 < b := by simpa [JSNum.lt] using hlt
        have hb0 : b ≠ 0 := ne_of_gt hb
        have hnb : ¬ b < 0 := not_lt.mpr hb.le
        rcases ht' with ht' | ⟨a, ht', ha⟩
        · subst ht'
          simp [JSNum.div, JSNum.signedInf, hnb, JSNum.ge, JSNum.isNaN, JSNum.lt]
        · subst ht'
          have hd : (JSNum.fin a).div (.fin b) = JSNum.round (a / b) := by
            simp [JSNum.div, hb0]
          rw [hd]
          constructor
          · rw [ge_zero_iff]
            exact round_nonneg _ (by positivity)
          · intro hge
            have hab : b ≤ a := by
              simpa [JSNum.ge, JSNum.isNaN, JSNum.lt] using hge
            have h1 : ((1 : ℕ) : ℚ) ≤ a / b := by
              push_cast
              exact (one_le_div hb).mpr hab
            rcases round_ge_nat 1 (by norm_num) (by norm_num) (a / b) h1 with h | ⟨q, h, hq⟩
            · rw [h]
              simp [JSNum.ge, JSNum.isNaN, JSNum.lt]
            · rw [h]
              have hq' : (1 : ℚ) ≤ q := by exact_mod_cast hq
              simpa [JSNum.ge, JSNum.isNaN, JSNum.lt] using hq'
    have hc := clamp_quotient (total.div target) hdiv.1
    exact ⟨hc.1, fun _ hge => hc.2 (hdiv.2 hge)⟩
  · rw [if_neg hlt]
    exact ⟨⟨0, rfl, le_refl _, by norm_num⟩, fun h => absurd h hlt⟩

/-- Claim C20, as amended: for every task list in which the duration of each task due
today is a number that is not negative (`parseFloat(duration) >= 0`) and every daily
target, unless today's total duration as the code adds it up (a sum of doubles, which
overflows to `Infinity`) and the target are both infinite, the completion percentage
of `checkDailyTarget` is a number from 0 to 100; it is 100 whenever that total is at
least a positive target, and 0 when the target is missing or its number is 0. -/
theorem checkDailyTarget_percent (P : Platform) (C : Coercions) (settings : Settings)
    (nowIso : String) (tasks : List Task)
    (hdur : ∀ t ∈ tasks, t.dueDate = (UI.checkDailyTarget P C settings nowIso tasks).today →
      (P.parseFloat t.duration).ge (.fin 0) = true)
    (hinf : ¬ ((UI.checkDailyTarget P C settings nowIso tasks).todayDuration = .posInf ∧
      (UI.checkDailyTarget P C settings nowIso tasks).dailyTarget.toNumber C = .posInf)) :
    (∃ q : ℚ, (UI.checkDailyTarget P C settings nowIso tasks).percentComplete = .fin q ∧
      0 ≤ q ∧ q ≤ 100) ∧
    ((JSNum.fin 0).lt ((UI.checkDailyTarget P C settings nowIso tasks).dailyTarget.toNumber C)
        = true →
      (UI.checkDailyTarget P C settings nowIso tasks).todayDuration.ge
        ((UI.checkDailyTarget P C settings nowIso tasks).dailyTarget.toNumber C) = true →
      (UI.checkDailyTarget P C settings nowIso tasks).percentComplete = .fin 100) ∧
    (settings.dailyTarget = .undefined ∨
        (UI.checkDailyTarget P C settings nowIso tasks).dailyTarget.toNumber C = .fin 0 →
      (UI.checkDailyTarget P C settings nowIso tasks).percentComplete = .fin 0) := by
  have ht : (UI.checkDailyTarget P C settings nowIso tasks).todayDuration.ge (.fin 0) = true := by
    rw [todayDuration_eq]
    apply foldl_add_ge_zero (fun t => P.parseFloat t.duration)
    · simp [JSNum.ge, JSNum.isNaN, JSNum.lt]
    · intro t hmem
      rw [List.mem_filter] at hmem
      exact hdur t hmem.1 (by simpa using hmem.2)
  have hc := clamp_spec _ _ ht hinf
  rw [percentComplete_eq]
  refine ⟨hc.1, hc.2, ?_⟩
  intro h0
  have hz : (UI.checkDailyTarget P C settings nowIso tasks).dailyTarget.toNumber C = .fin 0 := by
    rcases h0 with h0 | h0
    · have e : (UI.checkDailyTarget P C settings nowIso tasks).dailyTarget
          = if settings.dailyTarget.truthy then settings.dailyTarget else .num (.fin 0) := rfl
      rw [e, h0]
      simp [JSVal.truthy, JSVal.toNumber]
    · exact h0
  rw [hz]
  simp [JSNum.lt]

/-- The doubles 45, 3/4 and 75 are rounded to themselves. -/
theorem round_samples :
    JSNum.round 45 = .fin 45 ∧ JSNum.round (3 / 4) = .fin (3 / 4) ∧
    JSNum.round 75 = .fin 75 := by
  refine ⟨?_, ?_, ?_⟩
  · have hu := ulp_of_binade 45 5 (by norm_num) (by norm_num) (by norm_num)
    refine round_of_multiple 45 (by norm_num) ?_ (45 * 2 ^ 47) ?_
    · exact lt_of_lt_of_le (by norm_num : (45 : ℚ) < 2 ^ 6)
        (pow_le_pow_right₀ (by norm_num) (by norm_num))
    · rw [hu]
      norm_num
  · have hu := ulp_of_binade (3 / 4) (-1) (by norm_num) (by norm_num) (by norm_num)
    refine round_of_multiple (3 / 4) (by norm_num) ?_ (3 * 2 ^ 51) ?_
    · exact lt_of_lt_of_le (by norm_num : (3 / 4 : ℚ) < 2 ^ 0)
        (pow_le_pow_right₀ (by norm_num) (by norm_num))
    · rw [hu]
      norm_num
  · have hu := ulp_of_binade 75 6 (by norm_num) (by norm_num) (by norm_num)
    refine round_of_multiple 75 (by norm_num) ?_ (75 * 2 ^ 46) ?_
    · exact lt_of_lt_of_le (by norm_num : (75 : ℚ) < 2 ^ 7)
        (pow_le_pow_right₀ (by norm_num) (by norm_num))
    · rw [hu]
      norm_num

/-- The values computed for `marchTasks` against `hourTarget`: today, the total of
today, the number of the target and the percentage. -/
theorem checkDailyTarget_march :
    (UI.checkDailyTarget refPlatform refCoercions hourTarget "2025-03-10T09:00:00.000Z"
      marchTasks).today = "2025-03-10" ∧
    (UI.checkDailyTarget refPlatform refCoercions hourTarget "2025-03-10T09:00:00.000Z"
      marchTasks).todayDuration = .fin 45 ∧
    (UI.checkDailyTarget refPlatform refCoercions hourTarget "2025-03-10T09:00:00.000Z"
      marchTasks).dailyTarget.toNumber refCoercions = .fin 60 ∧
    (UI.checkDailyTarget refPlatform refCoercions hourTarget "2025-03-10T09:00:00.000Z"
      marchTasks).percentComplete = .fin 75 := by
  have htoday : (UI.checkDailyTarget refPlatform refCoercions hourTarget
      "2025-03-10T09:00:00.000Z" marchTasks).today = "2025-03-10" := by decide
  have htotal : (UI.checkDailyTarget refPlatform refCoercions hourTarget
      "2025-03-10T09:00:00.000Z" marchTasks).todayDuration = .fin 45 := by
    rw [todayDuration_eq, htoday]
    have hf : (marchTasks.filter fun task => task.dueDate == "2025-03-10")
        = [taskDue (.num (.fin 45)) "2025-03-10"] := by decide
    rw [hf]
    show (JSNum.fin 0).add (.fin 45) = .fin 45
    show JSNum.round (0 + 45) = .fin 45
    rw [zero_add]
    exact round_samples.1
  have htarget : (UI.checkDailyTarget refPlatform refCoercions hourTarget
      "2025-03-10T09:00:00.000Z" marchTasks).dailyTarget.toNumber refCoercions = .fin 60 := by
    have e : (UI.checkDailyTarget refPlatform refCoercions hourTarget
        "2025-03-10T09:00:00.000Z" marchTasks).dailyTarget
        = if hourTarget.dailyTarget.truthy then hourTarget.dailyTarget else .num (.fin 0) := rfl
    rw [e]
    simp [hourTarget, JSVal.truthy, JSVal.toNumber]
  refine ⟨htoday, htotal, htarget, ?_⟩
  rw [percentComplete_eq, htotal, htarget]
  have hlt : (JSNum.fin 0).lt (.fin 60) = true := by simp [JSNum.lt]
  have hdiv : (JSNum.fin 45).div (.fin 60) = .fin (3 / 4) := by
    have e : (JSNum.fin 45).div (.fin 60) = JSNum.round (45 / 60) := by
      simp [JSNum.div]
    rw [e, show (45 : ℚ) / 60 = 3 / 4 by norm_num]
    exact round_samples.2.1
  have hmul : (JSNum.fin (3 / 4)).mul (.fin 100) = .fin 75 := by
    show JSNum.round (3 / 4 * 100) = .fin 75
    rw [show (3 : ℚ) / 4 * 100 = 75 by norm_num]
    exact round_samples.2.2
  rw [if_pos hlt, hdiv, hmul]
  show JSNum.fin (Min.min 75 100) = .fin 75
  norm_num

theorem checkDailyTarget_percent_witness :
    (∀ t ∈ marchTasks,
      t.dueDate = (UI.checkDailyTarget refPlatform refCoercions hourTarget
        "2025-03-10T09:00:00.000Z" marchTasks).today →
      (refPlatform.parseFloat t.duration).ge (.fin 0) = true) ∧
    (UI.checkDailyTarget refPlatform refCoercions hourTarget "2025-03-10T09:00:00.000Z"
      marchTasks).percentComplete = .fin 75 ∧
    ∃ q : ℚ, (UI.checkDailyTarget refPlatform refCoercions hourTarget
        "2025-03-10T09:00:00.000Z" marchTasks).percentComplete = .fin q ∧ 0 ≤ q ∧ q ≤ 100 := by
  have hdur : ∀ t ∈ marchTasks,
      t.dueDate = (UI.checkDailyTarget refPlatform refCoercions hourTarget
        "2025-03-10T09:00:00.000Z" marchTasks).today →
      (refPlatform.parseFloat t.duration).ge (.fin 0) = true := by
    intro t ht _
    simp only [marchTasks, List.mem_cons, List.mem_singleton, List.not_mem_nil, or_false] at ht
    rcases ht with rfl | rfl <;>
      simp [taskDue, refPlatform, refParseFloat, JSNum.ge, JSNum.isNaN, JSNum.lt]
  exact ⟨hdur, checkDailyTarget_march.2.2.2,
    (checkDailyTarget_percent refPlatform refCoercions hourTarget "2025-03-10T09:00:00.000Z"
      marchTasks hdur (by rw [checkDailyTarget_march.2.1]; simp)).1⟩

/-- Two numbers from `2 ^ 1023` on add up to `Infinity`. -/
theorem add_overflow (d : ℚ) (hd : (2 : ℚ) ^ (1023 : ℤ) ≤ d) :
    ((JSNum.fin 0).add (.fin d)).add (.fin d) = .posInf := by
  have h1 : (JSNum.fin 0).add (.fin d) = JSNum.round d := by
    show JSNum.round (0 + d) = _
    rw [zero_add]
  rw [h1]
  have hpos : (0 : ℚ) < d := lt_of_lt_of_le (by positivity) hd
  rcases round_cases d hpos.le with h | ⟨q, hq, -, -, hval⟩
  · rw [h.1]
    rfl
  · rw [hq]
    show JSNum.round (q + d) = .posInf
    apply round_overflow
    have hq2 : (2 : ℚ) ^ (1023 : ℤ) ≤ q := by
      rw [hval (ne_of_gt hpos)]
      exact zpow_le_rounded _ 1023 (by norm_num) hd
    have e : (2 : ℚ) ^ 1024 = 2 ^ (1023 : ℤ) + 2 ^ (1023 : ℤ) := by
      rw [show (1023 : ℤ) = ((1023 : ℕ) : ℤ) from rfl, zpow_natCast, pow_succ]
      ring
    rw [e]
    exact add_le_add hq2 hd

/-- Today's total of two tasks due today whose durations are from `2 ^ 1023` on is
`Infinity`. -/
theorem todayDuration_overflow (settings : Settings) (d : ℚ)
    (hd : (2 : ℚ) ^ (1023 : ℤ) ≤ d) :
    (UI.checkDailyTarget refPlatform refCoercions settings "2025-03-10T09:00:00.000Z"
      [taskDue (.num (.fin d)) "2025-03-10", taskDue (.num (.fin d)) "2025-03-10"]).todayDuration
      = .posInf := by
  have htoday : (UI.checkDailyTarget refPlatform refCoercions settings
      "2025-03-10T09:00:00.000Z"
      [taskDue (.num (.fin d)) "2025-03-10", taskDue (.num (.fin d)) "2025-03-10"]).today
      = "2025-03-10" := by
    show (⟨"2025-03-10T09:00:00.000Z".data.takeWhile (· != 'T')⟩ : String) = "2025-03-10"
    decide
  rw [todayDuration_eq, htoday]
  have hf : ([taskDue (.num (.fin d)) "2025-03-10", taskDue (.num (.fin d)) "2025-03-10"].filter
      fun task => task.dueDate == "2025-03-10")
      = [taskDue (.num (.fin d)) "2025-03-10", taskDue (.num (.fin d)) "2025-03-10"] := by
    simp [taskDue]
  rw [hf]
  exact add_overflow d hd

/-- The duration `1e308` is at least `2 ^ 1023`. -/
theorem huge_ge : (2 : ℚ) ^ (1023 : ℤ) ≤ 10 ^ 308 := by
  rw [show (1023 : ℤ) = ((1023 : ℕ) : ℤ) from rfl, zpow_natCast]
  norm_num

/-- The percentage when today's total is `Infinity` and so is the target. -/
theorem percentComplete_nan (P : Platform) (C : Coercions) (settings : Settings)
    (nowIso : String) (tasks : List Task)
    (htotal : (UI.checkDailyTarget P C settings nowIso tasks).todayDuration = .posInf)
    (htarget : settings.dailyTarget = .num .posInf) :
    (UI.checkDailyTarget P C settings nowIso tasks).percentComplete = .nan := by
  have e : (UI.checkDailyTarget P C settings nowIso tasks).dailyTarget
      = if settings.dailyTarget.truthy then settings.dailyTarget else .num (.fin 0) := rfl
  rw [percentComplete_eq, htotal, e, htarget]
  rfl

/-- Claim C20 as stated fails when today's total overflows and the target is
infinite: two tasks due today with the duration `1e308`, which is not negative, add
up to `Infinity`, and with the target `Infinity` the quotient is `NaN` and so is the
percentage. -/
theorem checkDailyTarget_percent_infinite :
    (UI.checkDailyTarget refPlatform refCoercions infiniteTarget "2025-03-10T09:00:00.000Z"
      hugeTasks).percentComplete = .nan ∧
    ¬ ∀ (P : Platform) (C : Coercions) (settings : Settings) (nowIso : String)
      (tasks : List Task),
      (∀ t ∈ tasks, (P.parseFloat t.duration).ge (.fin 0) = true) →
      ∃ q : ℚ, (UI.checkDailyTarget P C settings nowIso tasks).percentComplete = .fin q ∧
        0 ≤ q ∧ q ≤ 100 := by
  have e : (UI.checkDailyTarget refPlatform refCoercions infiniteTarget
      "2025-03-10T09:00:00.000Z" hugeTasks).percentComplete = .nan :=
    percentComplete_nan _ _ _ _ _ (todayDuration_overflow infiniteTarget (10 ^ 308) huge_ge) rfl
  refine ⟨e, fun h => ?_⟩
  obtain ⟨q, hq, -⟩ := h refPlatform refCoercions infiniteTarget
    "2025-03-10T09:00:00.000Z" hugeTasks (by
      intro t ht
      simp only [hugeTasks, List.mem_cons, List.mem_singleton, List.not_mem_nil, or_false] at ht
      rcases ht with rfl | rfl <;>
        simp [taskDue, refPlatform, refParseFloat, JSNum.ge, JSNum.isNaN, JSNum.lt])
  rw [e] at hq
  cases hq

/-! ## Rounding in the daily target -/

/-- The sums, the quotient and the product behind the percentage of `roundedTasks`
against `largeTarget`, each rounded to a double. -/
theorem rounded_samples :
    JSNum.round 10000000000000000 = .fin 10000000000000000 ∧
    JSNum.round (10000000000000000 + 1) = .fin 10000000000000000 ∧
    JSNum.round (10000000000000000 / 10000000000000002)
      = .fin (9007199254740990 / 9007199254740992) ∧
    JSNum.round (9007199254740990 / 9007199254740992 * 100)
      = .fin (3518437208883199 / 35184372088832) := by
  have hsmall : ∀ q : ℚ, q < 2 ^ 60 → q < 2 ^ 1024 := fun q hq =>
    lt_of_lt_of_le hq (pow_le_pow_right₀ (by norm_num) (by norm_num))
  refine ⟨?_, ?_, ?_, ?_⟩
  · have h := round_of_binade 10000000000000000 53 5000000000000000 (by norm_num)
      (by norm_num) (by norm_num)
      (roundHalfEven_of_near _ _ (by norm_num) (by norm_num)) (hsmall _ (by norm_num))
    rw [h]
    norm_num
  · have h := round_of_binade (10000000000000000 + 1) 53 5000000000000000 (by norm_num)
      (by norm_num) (by norm_num)
      (roundHalfEven_of_tie _ _ (by norm_num) (by norm_num)) (hsmall _ (by norm_num))
    rw [h]
    norm_num
  · have h := round_of_binade (10000000000000000 / 10000000000000002) (-1) 9007199254740990
      (by norm_num) (by norm_num) (by norm_num)
      (roundHalfEven_of_near _ _ (by norm_num) (by norm_num)) (hsmall _ (by norm_num))
    rw [h]
    norm_num
  · have h := round_of_binade (9007199254740990 / 9007199254740992 * 100) 6 7036874417766398
      (by norm_num) (by norm_num) (by norm_num)
      (roundHalfEven_of_near _ _ (by norm_num) (by norm_num)) (hsmall _ (by norm_num))
    rw [h]
    norm_num

/-- Today's total of three tasks due today. -/
theorem todayDuration_three (settings : Settings) (a b c : ℚ) :
    (UI.checkDailyTarget refPlatform refCoercions settings "2025-03-10T09:00:00.000Z"
      [ taskDue (.num (.fin a)) "2025-03-10", taskDue (.num (.fin b)) "2025-03-10",
        taskDue (.num (.fin c)) "2025-03-10" ]).todayDuration
      = (((JSNum.fin 0).add (.fin a)).add (.fin b)).add (.fin c) := by
  have htoday : (UI.checkDailyTarget refPlatform refCoercions settings
      "2025-03-10T09:00:00.000Z"
      [ taskDue (.num (.fin a)) "2025-03-10", taskDue (.num (.fin b)) "2025-03-10",
        taskDue (.num (.fin c)) "2025-03-10" ]).today = "2025-03-10" := by
    show (⟨"2025-03-10T09:00:00.000Z".data.takeWhile (· != 'T')⟩ : String) = "2025-03-10"
    decide
  rw [todayDuration_eq, htoday]
  have hf : ([ taskDue (.num (.fin a)) "2025-03-10", taskDue (.num (.fin b)) "2025-03-10",
        taskDue (.num (.fin c)) "2025-03-10" ].filter
      fun task => task.dueDate == "2025-03-10")
      = [ taskDue (.num (.fin a)) "2025-03-10", taskDue (.num (.fin b)) "2025-03-10",
        taskDue (.num (.fin c)) "2025-03-10" ] := by
    simp [taskDue]
  rw [hf]
  rfl

/-- The number of a target that is a positive number. -/
theorem dailyTarget_of_pos (P : Platform) (C : Coercions) (unit : JSVal) (q : ℚ) (hq : 0 < q)
    (nowIso : String) (tasks : List Task) :
    (UI.checkDailyTarget P C { defaultUnit := unit, dailyTarget := .num (.fin q) } nowIso
      tasks).dailyTarget.toNumber C = .fin q := by
  have hne : q ≠ 0 := ne_of_gt hq
  show JSVal.toNumber C (if (JSVal.num (.fin q)).truthy then .num (.fin q) else .num (.fin 0))
    = .fin q
  simp [JSVal.truthy, JSVal.toNumber, hne]

/-- Rounding at work in `checkDailyTarget`: with tasks due today of the durations
`1e16`, `1` and `1` and the target `10000000000000002`, the total of today is `1e16`,
each `1` being lost in the sum, which is below the target, and the percentage is the
double `99.99999999999997`. -/
theorem checkDailyTarget_rounding :
    (UI.checkDailyTarget refPlatform refCoercions largeTarget "2025-03-10T09:00:00.000Z"
      roundedTasks).todayDuration = .fin 10000000000000000 ∧
    (UI.checkDailyTarget refPlatform refCoercions largeTarget "2025-03-10T09:00:00.000Z"
      roundedTasks).percentComplete = .fin (3518437208883199 / 35184372088832) := by
  have h1 : (JSNum.fin 0).add (.fin 10000000000000000) = .fin 10000000000000000 := by
    have e : ∀ a : ℚ, (JSNum.fin 0).add (.fin a) = JSNum.round a := by
      intro a
      show JSNum.round (0 + a) = _
      rw [zero_add]
    rw [e]
    exact rounded_samples.1
  have h2 : (JSNum.fin 10000000000000000).add (.fin 1) = .fin 10000000000000000 := by
    have e : ∀ a b : ℚ, (JSNum.fin a).add (.fin b) = JSNum.round (a + b) := fun _ _ => rfl
    rw [e]
    exact rounded_samples.2.1
  have htotal : (UI.checkDailyTarget refPlatform refCoercions largeTarget
      "2025-03-10T09:00:00.000Z" roundedTasks).todayDuration = .fin 10000000000000000 := by
    have h := todayDuration_three largeTarget 10000000000000000 1 1
    rw [h1, h2, h2] at h
    exact h
  have htarget : (UI.checkDailyTarget refPlatform refCoercions largeTarget
      "2025-03-10T09:00:00.000Z" roundedTasks).dailyTarget.toNumber refCoercions
      = .fin 10000000000000002 :=
    dailyTarget_of_pos refPlatform refCoercions (.str "minutes") 10000000000000002
      (by norm_num) _ _
  refine ⟨htotal, ?_⟩
  rw [percentComplete_eq, htotal, htarget]
  have hlt : ∀ q : ℚ, 0 < q → (JSNum.fin 0).lt (.fin q) = true := by
    intro q hq
    simp [JSNum.lt, hq]
  have hdiv : (JSNum.fin 10000000000000000).div (.fin 10000000000000002)
      = .fin (9007199254740990 / 9007199254740992) := by
    have e : ∀ a b : ℚ, b ≠ 0 → (JSNum.fin a).div (.fin b) = JSNum.round (a / b) := by
      intro a b hb
      simp [JSNum.div, hb]
    rw [e _ _ (by norm_num)]
    exact rounded_samples.2.2.1
  have hmul : (JSNum.fin (9007199254740990 / 9007199254740992)).mul (.fin 100)
      = .fin (3518437208883199 / 35184372088832) := by
    have e : ∀ a b : ℚ, (JSNum.fin a).mul (.fin b) = JSNum.round (a * b) := fun _ _ => rfl
    rw [e]
    exact rounded_samples.2.2.2
  have hmin : ∀ a b : ℚ, (JSNum.fin a).min (.fin b) = .fin (Min.min a b) := fun _ _ => rfl
  rw [if_pos (hlt _ (by norm_num)), hdiv, hmul, hmin, min_eq_left (by norm_num)]

end Planner
